import Mathlib

/-!
# Splay tree (`SplayTree.c`): heap model and verification

The C program manipulates heap-allocated nodes linked by `left`, `right` and
`parent` pointers.  The embedding keeps that representation: a heap maps
addresses to nodes, a pointer is an optional address (`none` is `NULL`), and
every C function becomes a function on the machine state.  Dereferencing
`NULL` or a freed cell yields `none`; loops and recursion take a fuel argument
and yield `none` when it runs out.
-/

namespace SplayTree

/-! ## Data model -/

/-- Heap addresses. -/
abbrev Addr := Nat

/-- A C pointer to a node: `none` is `NULL`. -/
abbrev Ptr := Option Addr

/-- `Node { int key, size; Node* left, * right, * parent; }`. -/
structure Node where
  key : Int
  size : Int
  left : Ptr
  right : Ptr
  parent : Ptr
deriving DecidableEq, Repr

/-- Memory: allocated cells hold `some node`. -/
abbrev Heap := Addr → Option Node

/-- Machine state: the heap, the next address `malloc` hands out, and the
`root` field of the one `SplayTree` object (the cell every `treeRoot`
argument points to). -/
structure State where
  heap : Heap
  next : Addr
  root : Ptr

/-- Value of a C `int` expression after two's-complement wrap-around. -/
def intWrap (z : Int) : Int := (z + 2147483648) % 4294967296 - 2147483648

/-- Reading through a pointer: `*p`. -/
def State.load (s : State) (p : Ptr) : Option Node :=
  match p with
  | none => none
  | some a => s.heap a

/-- Writing fields through a pointer: `p->field = ...`. -/
def State.store (s : State) (p : Ptr) (f : Node → Node) : Option State :=
  match p with
  | none => none
  | some a =>
    match s.heap a with
    | none => none
    | some n => some { s with heap := Function.update s.heap a (some (f n)) }

/-- Releasing a cell: `free(p)` on a live node. -/
def State.free (s : State) (p : Ptr) : Option State :=
  match p with
  | none => none
  | some a =>
    match s.heap a with
    | none => none
    | some _ => some { s with heap := Function.update s.heap a none }

/-! ## The C functions -/

/-- `makeNode(parent, key)`: allocate a fresh leaf. -/
def makeNode (s : State) (parent : Ptr) (key : Int) : State × Ptr :=
  ({ s with
      heap := Function.update s.heap s.next
        (some { key := key, size := 1, left := none, right := none, parent := parent })
      next := s.next + 1 },
   some s.next)

/-- `addNode(cur, key)`. -/
def addNode : Nat → State → Ptr → Int → Option (State × Ptr)
  | 0, _, _, _ => none
  | fuel + 1, s, cur, key =>
    match s.load cur with
    | none => none
    | some n =>
      if n.key = key then some (s, cur)
      else if n.key > key then
        if n.left.isSome then addNode fuel s n.left key
        else
          match (makeNode s cur key) with
          | (s1, tmp) =>
            match s1.store cur (fun m => { m with left := tmp }) with
            | none => none
            | some s2 => some (s2, tmp)
      else
        if n.right.isSome then addNode fuel s n.right key
        else
          match (makeNode s cur key) with
          | (s1, tmp) =>
            match s1.store cur (fun m => { m with right := tmp }) with
            | none => none
            | some s2 => some (s2, tmp)

/-- `findNode(cur, &prev, key)`: returns the node found (or `NULL`) and the
final value of `*prev`. -/
def findNode : Nat → State → Ptr → Ptr → Int → Option (Ptr × Ptr)
  | 0, _, _, _, _ => none
  | fuel + 1, s, cur, prev, key =>
    match cur with
    | none => some (none, prev)
    | some c =>
      match s.heap c with
      | none => none
      | some n =>
        if n.key = key then some (some c, prev)
        else findNode fuel s (if n.key > key then n.left else n.right) (some c) key

/-- The two-children branch of `removeNode` once `higherClosest` and `p` are
chosen: `node->key = higherClosest->key;`, the replacement of `higherClosest`
by its right child in `p`, `free(removedNode); return p;`. -/
def removeNodeTwo (s : State) (node higherClosest p : Ptr) : Option (State × Ptr) :=
  -- `node->key = higherClosest->key;`
  match s.load higherClosest with
  | none => none
  | some hn =>
  match s.store node (fun m => { m with key := hn.key }) with
  | none => none
  | some s1 =>
  -- `if(higherClosest == p->left) p->left = ...->right; else p->right = ...->right;`
  match s1.load p with
  | none => none
  | some pn =>
  match s1.load higherClosest with
  | none => none
  | some hn1 =>
  match (if higherClosest = pn.left
         then s1.store p (fun m => { m with left := hn1.right })
         else s1.store p (fun m => { m with right := hn1.right })) with
  | none => none
  | some s2 =>
  -- `if(higherClosest->right) higherClosest->right->parent = p;`
  match s2.load higherClosest with
  | none => none
  | some hn2 =>
  match (if hn2.right.isSome
         then s2.store hn2.right (fun m => { m with parent := p })
         else some s2) with
  | none => none
  | some s3 =>
  -- `removedNode = higherClosest; free(removedNode); return p;`
  match s3.free higherClosest with
  | none => none
  | some s4 => some (s4, p)

/-- The branch of `removeNode` for a node `*node = n` with fewer than two
children: unlink it from its parent (or from `*treeRoot`), re-parent its
child, `free(removedNode); return p;`. -/
def removeNodeOne (s : State) (node : Ptr) (n : Node) : Option (State × Ptr) :=
  -- `p = node->parent; ch = node->left ? node->left : node->right;`
  let p := n.parent
  let ch := if n.left.isSome then n.left else n.right
  match (if p.isNone then some { s with root := ch }
         else
           match s.load p with
           | none => none
           | some pn =>
             if pn.left = node then s.store p (fun m => { m with left := ch })
             else s.store p (fun m => { m with right := ch })) with
  | none => none
  | some s1 =>
  -- `if(ch) ch->parent = p;`
  match (if ch.isSome then s1.store ch (fun m => { m with parent := p }) else some s1) with
  | none => none
  | some s2 =>
  -- `removedNode = node; free(removedNode); return p;`
  match s2.free node with
  | none => none
  | some s3 => some (s3, p)

/-- `removeNode(treeRoot, node)`: returns `p`. -/
def removeNode (fuel : Nat) (s : State) (node : Ptr) : Option (State × Ptr) :=
  match s.load node with
  | none => none
  | some n =>
    if n.left.isSome ∧ n.right.isSome then
      -- `higherClosest = findNode(node, &prev, node->key+1);`
      match findNode fuel s node none (intWrap (n.key + 1)) with
      | none => none
      | some (found, prev) =>
        -- `if(!higherClosest) { higherClosest = prev; p = prev->parent; } else p = prev;`
        match (if found.isNone then (s.load prev).map (fun pn => (prev, pn.parent))
               else some (found, prev)) with
        | none => none
        | some (higherClosest, p) => removeNodeTwo s node higherClosest p
    else removeNodeOne s node n

/-- `chainGrandParent(gp, p, ch)`. -/
def chainGrandParent (s : State) (gp p ch : Ptr) : Option State :=
  match s.load gp with
  | none => none
  | some g =>
    if g.left = p then s.store gp (fun m => { m with left := ch })
    else s.store gp (fun m => { m with right := ch })

/-- `rotateRight(treeRoot, r)`: returns the new subtree root. -/
def rotateRight (s : State) (r : Ptr) : Option (State × Ptr) :=
  match s.load r with
  | none => none
  | some rn =>
  let ch := rn.left
  match s.load ch with
  | none => none
  | some cn =>
  -- `r->left = ch->right;`
  match s.store r (fun m => { m with left := cn.right }) with
  | none => none
  | some s1 =>
  -- `if(ch->right) ch->right->parent = r;`
  match s1.load ch with
  | none => none
  | some cn1 =>
  match (if cn1.right.isSome then s1.store cn1.right (fun m => { m with parent := r })
         else some s1) with
  | none => none
  | some s2 =>
  -- `ch->parent = r->parent;`
  match s2.load r with
  | none => none
  | some rn2 =>
  match s2.store ch (fun m => { m with parent := rn2.parent }) with
  | none => none
  | some s3 =>
  -- `if(r->parent) chainGrandParent(r->parent, r, ch); else *treeRoot = ch;`
  match s3.load r with
  | none => none
  | some rn3 =>
  match (if rn3.parent.isSome then chainGrandParent s3 rn3.parent r ch
         else some { s3 with root := ch }) with
  | none => none
  | some s4 =>
  -- `ch->right = r; r->parent = ch;`
  match s4.store ch (fun m => { m with right := r }) with
  | none => none
  | some s5 =>
  match s5.store r (fun m => { m with parent := ch }) with
  | none => none
  | some s6 => some (s6, ch)

/-- `rotateLeft(treeRoot, r)`: returns the new subtree root. -/
def rotateLeft (s : State) (r : Ptr) : Option (State × Ptr) :=
  match s.load r with
  | none => none
  | some rn =>
  let ch := rn.right
  match s.load ch with
  | none => none
  | some cn =>
  -- `r->right = ch->left;`
  match s.store r (fun m => { m with right := cn.left }) with
  | none => none
  | some s1 =>
  -- `if(ch->left) ch->left->parent = r;`
  match s1.load ch with
  | none => none
  | some cn1 =>
  match (if cn1.left.isSome then s1.store cn1.left (fun m => { m with parent := r })
         else some s1) with
  | none => none
  | some s2 =>
  -- `ch->parent = r->parent;`
  match s2.load r with
  | none => none
  | some rn2 =>
  match s2.store ch (fun m => { m with parent := rn2.parent }) with
  | none => none
  | some s3 =>
  -- `if(r->parent) chainGrandParent(r->parent, r, ch); else *treeRoot = ch;`
  match s3.load r with
  | none => none
  | some rn3 =>
  match (if rn3.parent.isSome then chainGrandParent s3 rn3.parent r ch
         else some { s3 with root := ch }) with
  | none => none
  | some s4 =>
  -- `ch->left = r; r->parent = ch;`
  match s4.store ch (fun m => { m with left := r }) with
  | none => none
  | some s5 =>
  match s5.store r (fun m => { m with parent := ch }) with
  | none => none
  | some s6 => some (s6, ch)

/-- `initSplayTree()`: an empty tree in an empty heap. -/
def initSplayTree : State := { heap := fun _ => none, next := 0, root := none }

/-- `isZigZag(cur)`, with the short-circuit evaluation of `&&` and `||`. -/
def isZigZag (s : State) (cur : Ptr) : Option Bool :=
  match s.load cur with
  | none => none
  | some cn =>
  let p := cn.parent
  match s.load p with
  | none => none
  | some pn =>
  let gp := pn.parent
  match (if pn.right = cur then (s.load gp).map (fun g => decide (g.left = p))
         else some false) with
  | none => none
  | some true => some true
  | some false =>
    if pn.left = cur then (s.load gp).map (fun g => decide (g.right = p))
    else some false

/-- `zigZag(treeRoot, cur)`. -/
def zigZag (s : State) (cur : Ptr) : Option State :=
  match s.load cur with
  | none => none
  | some cn =>
  let p := cn.parent
  match s.load p with
  | none => none
  | some pn =>
  match (if pn.right = cur then (s.load pn.parent).map (fun g => decide (g.left = p))
         else some false) with
  | none => none
  | some true =>
    match rotateLeft s p with
    | none => none
    | some (s1, x) =>
      match s1.load x with
      | none => none
      | some xn => (rotateRight s1 xn.parent).map Prod.fst
  | some false =>
    match rotateRight s p with
    | none => none
    | some (s1, x) =>
      match s1.load x with
      | none => none
      | some xn => (rotateLeft s1 xn.parent).map Prod.fst

/-- `zigZig(treeRoot, cur)`. -/
def zigZig (s : State) (cur : Ptr) : Option State :=
  match s.load cur with
  | none => none
  | some cn =>
  let p := cn.parent
  match s.load p with
  | none => none
  | some pn =>
  match (if pn.left = cur then (s.load pn.parent).map (fun g => decide (g.left = p))
         else some false) with
  | none => none
  | some true =>
    match rotateRight s pn.parent with
    | none => none
    | some (s1, x) => (rotateRight s1 x).map Prod.fst
  | some false =>
    match rotateLeft s pn.parent with
    | none => none
    | some (s1, x) => (rotateLeft s1 x).map Prod.fst

/-- `zig(treeRoot, cur)`. -/
def zig (s : State) (cur : Ptr) : Option State :=
  match s.load cur with
  | none => none
  | some cn =>
  let p := cn.parent
  match s.load p with
  | none => none
  | some pn =>
    if pn.left = cur then (rotateRight s p).map Prod.fst
    else (rotateLeft s p).map Prod.fst

/-- The loop `while(cur->parent) { ... }` of `splay`, for a non-null `cur`. -/
def splayLoop : Nat → State → Ptr → Option State
  | 0, _, _ => none
  | fuel + 1, s, cur =>
    match s.load cur with
    | none => none
    | some cn =>
      if cn.parent.isSome then
        match s.load cn.parent with
        | none => none
        | some pn =>
          match (if pn.parent.isSome then
                   match isZigZag s cur with
                   | none => none
                   | some true => zigZag s cur
                   | some false => zigZig s cur
                 else zig s cur) with
          | none => none
          | some s1 => splayLoop fuel s1 cur
      else some s

/-- `splay(root, cur)`. -/
def splay (fuel : Nat) (s : State) (cur : Ptr) : Option (State × Ptr) :=
  if cur.isNone then some (s, none)
  else (splayLoop fuel s cur).map (fun s1 => (s1, cur))

/-- `insertKey(tree, key)`. -/
def insertKey (fuel : Nat) (s : State) (key : Int) : Option (State × Ptr) :=
  let s0 :=
    if s.root.isNone then
      match (makeNode s none key) with
      | (s1, nw) => { s1 with root := nw }
    else s
  match addNode fuel s0 s0.root key with
  | none => none
  | some (s1, x) => splay fuel s1 x

/-- `findKey(tree, key)`. -/
def findKey (fuel : Nat) (s : State) (key : Int) : Option (State × Ptr) :=
  match findNode fuel s s.root none key with
  | none => none
  | some (res, prev) =>
    if res.isSome then splay fuel s res
    else if prev.isSome then (splay fuel s prev).map (fun r => (r.1, none))
    else some (s, none)

/-- `removeKey(tree, key)`. -/
def removeKey (fuel : Nat) (s : State) (key : Int) : Option (State × Int) :=
  match findNode fuel s s.root none key with
  | none => none
  | some (res, prev) =>
    match (if res.isSome then
             match removeNode fuel s res with
             | none => none
             | some (s1, p) => (splay fuel s1 p).map Prod.fst
           else if prev.isSome then (splay fuel s prev).map Prod.fst
           else some s) with
    | none => none
    | some s2 => some (s2, if res.isSome then 1 else 0)

/-- The command loop of `menu()` on a tree, without its input and output: each
command is the pair `choice`, `key` read by `scanf`; `1` inserts, `2` removes,
`3` finds, anything else leaves the loop. -/
def menuLoop (fuel : Nat) : List (Int × Int) → State → Option State
  | [], s => some s
  | (choice, key) :: rest, s =>
    if choice = 1 then
      match insertKey fuel s key with
      | none => none
      | some (s1, _) => menuLoop fuel rest s1
    else if choice = 2 then
      match removeKey fuel s key with
      | none => none
      | some (s1, _) => menuLoop fuel rest s1
    else if choice = 3 then
      match findKey fuel s key with
      | none => none
      | some (s1, _) => menuLoop fuel rest s1
    else some s

/-! ## Abstract trees and the representation relation -/

/-- Shape of a pointer structure: each node carries its address and key. -/
inductive T where
  | leaf : T
  | node (l : T) (a : Addr) (k : Int) (r : T) : T
deriving DecidableEq, Repr

/-- Pointer to the root node of a shape. -/
def T.ptr : T → Ptr
  | .leaf => none
  | .node _ a _ _ => some a

/-- In-order list of (address, key) pairs. -/
def T.nodes : T → List (Addr × Int)
  | .leaf => []
  | .node l a k r => l.nodes ++ (a, k) :: r.nodes

/-- In-order traversal: the keys. -/
def T.keys (t : T) : List Int := t.nodes.map Prod.snd

/-- In-order list of node addresses. -/
def T.addrs (t : T) : List Addr := t.nodes.map Prod.fst

/-- Number of nodes. -/
def T.size (t : T) : Nat := t.nodes.length

/-- The heap `h` holds the shape `t` at pointer `p`, the root of `t` having
parent pointer `par`: every node's `key`, `left`, `right` and `parent` fields
are the ones the shape prescribes. -/
def Rep (h : Heap) : Ptr → Ptr → T → Prop
  | p, _, .leaf => p = none
  | p, par, .node l a k r =>
    p = some a ∧
    match h a with
    | none => False
    | some n => n.key = k ∧ n.parent = par ∧ Rep h n.left (some a) l ∧ Rep h n.right (some a) r

/-- One level of a path from a hole up to the root: the hole is the left
(`L`) or right (`R`) child of node `a`, whose other subtree is recorded. -/
inductive Frame where
  | L (a : Addr) (k : Int) (r : T) : Frame
  | R (l : T) (a : Addr) (k : Int) : Frame
deriving DecidableEq, Repr

/-- Address of the node of a frame. -/
def Frame.addr : Frame → Addr
  | .L a _ _ => a
  | .R _ a _ => a

/-- Key of the node of a frame. -/
def Frame.key : Frame → Int
  | .L _ k _ => k
  | .R _ _ k => k

/-- A frame with the key of its node replaced. -/
def Frame.setKey (k2 : Int) : Frame → Frame
  | .L a _ r => .L a k2 r
  | .R l a _ => .R l a k2

/-- Put a subtree into the hole of a frame. -/
def Frame.fill : Frame → T → T
  | .L a k r, t => .node t a k r
  | .R l a k, t => .node l a k t

/-- Nodes that precede the hole of a frame in-order. -/
def Frame.before : Frame → List (Addr × Int)
  | .L _ _ _ => []
  | .R l a k => l.nodes ++ [(a, k)]

/-- Nodes that follow the hole of a frame in-order. -/
def Frame.after : Frame → List (Addr × Int)
  | .L a k r => (a, k) :: r.nodes
  | .R _ _ _ => []

/-- A context: the frames from a hole up to the root, innermost first. -/
abbrev Ctx := List Frame

/-- Put a subtree into the hole of a context. -/
def plug : Ctx → T → T
  | [], t => t
  | f :: c, t => plug c (f.fill t)

/-- Nodes of a context that precede its hole in-order. -/
def Ctx.before : Ctx → List (Addr × Int)
  | [] => []
  | f :: c => Ctx.before c ++ f.before

/-- Nodes of a context that follow its hole in-order. -/
def Ctx.after : Ctx → List (Addr × Int)
  | [] => []
  | f :: c => f.after ++ Ctx.after c

/-- Addresses of the node of a frame and of its recorded subtree. -/
def Frame.addrs : Frame → List Addr
  | .L a _ r => a :: r.addrs
  | .R l a _ => a :: l.addrs

/-- Addresses of all nodes of a context. -/
def Ctx.addrs : Ctx → List Addr
  | [] => []
  | f :: c => f.addrs ++ Ctx.addrs c

/-- The heap holds the context `c` below the root pointer `root`: the hole is
occupied by pointer `p`, and `par` is the parent pointer a node in the hole
must carry. -/
def RepCtx (h : Heap) (root : Ptr) : Ctx → Ptr → Ptr → Prop
  | [], p, par => p = root ∧ par = none
  | .L a k r :: c, p, par =>
    par = some a ∧
    match h a with
    | none => False
    | some n => n.key = k ∧ n.left = p ∧ Rep h n.right (some a) r ∧
        RepCtx h root c (some a) n.parent
  | .R l a k :: c, p, par =>
    par = some a ∧
    match h a with
    | none => False
    | some n => n.key = k ∧ n.right = p ∧ Rep h n.left (some a) l ∧
        RepCtx h root c (some a) n.parent

/-- The path `findNode` follows for `key` from the root of a shape: the
context of the place where the search stops, and the subtree found there (a
node holding `key`, or a leaf when the search falls off the tree). -/
def descend (key : Int) : T → Ctx × T
  | .leaf => ([], .leaf)
  | .node l a k r =>
    if k = key then ([], .node l a k r)
    else if k > key then ((descend key l).1 ++ [.L a k r], (descend key l).2)
    else ((descend key r).1 ++ [.R l a k], (descend key r).2)

/-- The node at which the search for `key` stops, with its context: the node
found, or the last node visited when the search falls off the tree. -/
def stopAt (key : Int) (t : T) : Ctx × T :=
  match descend key t with
  | (d, .node l a k r) => (d, .node l a k r)
  | (f :: d, .leaf) => (d, f.fill .leaf)
  | ([], .leaf) => ([], .leaf)

/-- The value `findNode` leaves in `*prev`. -/
def descendPrev (key : Int) : T → Ptr → Ptr
  | .leaf, prev => prev
  | .node l a k r, prev =>
    if k = key then prev
    else if k > key then descendPrev key l (some a)
    else descendPrev key r (some a)

/-- Well-formed tree state: the heap holds shape `t` at the root with absent
parent, every node's `parent` naming the node whose child slot holds it; no
node occurs twice; every node was handed out by the allocator. -/
def WF (s : State) (t : T) : Prop :=
  Rep s.heap s.root none t ∧ t.addrs.Nodup ∧ ∀ a ∈ t.addrs, a < s.next

/-- Values of the C type `int`. -/
def isInt (z : Int) : Prop := -2147483648 ≤ z ∧ z ≤ 2147483647

instance (z : Int) : Decidable (isInt z) := by unfold isInt; infer_instance

/-- The binary-search-tree invariant: the in-order keys are strictly
increasing; the keys are C `int` values. -/
def BST (t : T) : Prop :=
  t.keys.Sorted (· < ·) ∧ ∀ k ∈ t.keys, isInt k

/-- Parent back-links, read off the heap: the root's `parent` is `NULL`, and
every other node of the shape is held in exactly one child slot of the node
its `parent` field names. -/
def ParentLinks (s : State) (t : T) : Prop :=
  (∀ r n, s.root = some r → s.heap r = some n → n.parent = none) ∧
  ∀ a ∈ t.addrs, s.root ≠ some a →
    ∃ n p pn, s.heap a = some n ∧ n.parent = some p ∧ p ∈ t.addrs ∧ s.heap p = some pn ∧
      (pn.left = some a ∧ pn.right ≠ some a ∨ pn.left ≠ some a ∧ pn.right = some a)

/-- Deciding the representation relation on concrete heaps and shapes. -/
def Rep.decide (h : Heap) : (p par : Ptr) → (t : T) → Decidable (Rep h p par t)
  | p, _, .leaf => decidable_of_iff (p = none) (by simp [Rep])
  | p, par, .node l a k r =>
    match hh : h a with
    | none => isFalse (by simp [Rep, hh])
    | some n =>
      haveI := Rep.decide h n.left (some a) l
      haveI := Rep.decide h n.right (some a) r
      decidable_of_iff
        (p = some a ∧ n.key = k ∧ n.parent = par ∧
          Rep h n.left (some a) l ∧ Rep h n.right (some a) r)
        (by simp [Rep, hh])

instance (h : Heap) (p par : Ptr) (t : T) : Decidable (Rep h p par t) := Rep.decide h p par t

instance (s : State) (t : T) : Decidable (WF s t) := by unfold WF; infer_instance

instance (t : T) : Decidable (BST t) := by unfold BST; infer_instance

/-! ## Scenarios of the specification -/

/-- Scenario A: the tree after inserting 5, 3, 8, 1, 4 into an empty tree. -/
def scenarioA : State :=
  (menuLoop 10 [(1, 5), (1, 3), (1, 8), (1, 1), (1, 4)] initSplayTree).getD initSplayTree

/-- Shape of scenario A; the addresses number the nodes in allocation order. -/
def shapeA : T :=
  .node (.node .leaf 3 1 (.node .leaf 1 3 .leaf)) 4 4 (.node (.node .leaf 0 5 .leaf) 2 8 .leaf)

/-- Scenario B: scenario A followed by `find(8)`. -/
def scenarioB : State :=
  (menuLoop 10 [(3, 8)] scenarioA).getD initSplayTree

/-- Shape of scenario B. -/
def shapeB : T :=
  .node (.node (.node .leaf 3 1 (.node .leaf 1 3 .leaf)) 4 4 (.node .leaf 0 5 .leaf)) 2 8 .leaf

/-- Scenario C: scenario B followed by `remove(3)`. -/
def scenarioC : State :=
  (menuLoop 10 [(2, 3)] scenarioB).getD initSplayTree

/-- Shape of scenario C. -/
def shapeC : T :=
  .node .leaf 3 1 (.node .leaf 4 4 (.node (.node .leaf 0 5 .leaf) 2 8 .leaf))

/-! ## Measures and call records of the splay loop -/

/-- Depth of a node: the number of `parent` links from it up to the root. -/
def depth : Nat → Heap → Ptr → Option Nat
  | 0, _, _ => none
  | _ + 1, _, none => none
  | fuel + 1, h, some a =>
    match h a with
    | none => none
    | some n => if n.parent.isSome then (depth fuel h n.parent).map (· + 1) else some 0

/-- The rotation call of a zig step of `splay` on `x` with parent `*p = pn`
(body of `zig`): `rotateRight(p)` when `x` is the left child of `p`, which is
then present, else `rotateLeft(p)`, `x` being the right child; the call
returns `x` and the state `s1`. -/
def ZigCalls (s : State) (x p : Addr) (pn : Node) (s1 : State) : Prop :=
  pn.left = some x ∧ rotateRight s (some p) = some (s1, some x) ∨
  pn.left ≠ some x ∧ pn.right = some x ∧ rotateLeft s (some p) = some (s1, some x)

/-- The two rotation calls of a double step of `splay` on `x` with parent
`*p = pn` and grandparent `*g = gn` (bodies of `zigZig` and `zigZag`), `b`
being the value of `isZigZag`: each call is made on a present node whose
child on the side rotated up is present, the first returns the state `s1`,
the second returns `x` and the state `s2`. -/
def DoubleStepCalls (s : State) (x p g : Addr) (pn gn : Node) (b : Bool) (s2 : State) : Prop :=
  ∃ s1,
    -- zig-zig on the left: `rotateRight(rotateRight(p->parent))`
    (b = false ∧ pn.left = some x ∧ gn.left = some p ∧
      rotateRight s (some g) = some (s1, some p) ∧
      (∃ pn1, s1.heap p = some pn1 ∧ pn1.left = some x) ∧
      rotateRight s1 (some p) = some (s2, some x)) ∨
    -- zig-zig on the right: `rotateLeft(rotateLeft(p->parent))`
    (b = false ∧ pn.right = some x ∧ gn.right = some p ∧
      rotateLeft s (some g) = some (s1, some p) ∧
      (∃ pn1, s1.heap p = some pn1 ∧ pn1.right = some x) ∧
      rotateLeft s1 (some p) = some (s2, some x)) ∨
    -- zig-zag: `rotateRight(rotateLeft(p)->parent)`
    (b = true ∧ pn.right = some x ∧ gn.left = some p ∧
      rotateLeft s (some p) = some (s1, some x) ∧
      (∃ xn1 gn1, s1.heap x = some xn1 ∧ xn1.parent = some g ∧
        s1.heap g = some gn1 ∧ gn1.left = some x) ∧
      rotateRight s1 (some g) = some (s2, some x)) ∨
    -- zig-zag: `rotateLeft(rotateRight(p)->parent)`
    (b = true ∧ pn.left = some x ∧ gn.right = some p ∧
      rotateRight s (some p) = some (s1, some x) ∧
      (∃ xn1 gn1, s1.heap x = some xn1 ∧ xn1.parent = some g ∧
        s1.heap g = some gn1 ∧ gn1.right = some x) ∧
      rotateLeft s1 (some g) = some (s2, some x))

/-- The tree after inserting 1, 2, 3: a chain of left children. -/
def chainLeft : State :=
  (menuLoop 10 [(1, 1), (1, 2), (1, 3)] initSplayTree).getD initSplayTree

/-- The tree after inserting 3, 2, 1: a chain of right children. -/
def chainRight : State :=
  (menuLoop 10 [(1, 3), (1, 2), (1, 1)] initSplayTree).getD initSplayTree

/-! ## The `size` field: predicates and a scenario -/

/-- Every allocated node carries the value 1 in its `size` field. -/
def SizesOne (h : Heap) : Prop := ∀ a n, h a = some n → n.size = 1

/-- Every node of the shape `t` holds in its `size` field the number of nodes
of the subtree rooted at it. -/
def SizeFieldsCount (h : Heap) : T → Prop
  | .leaf => True
  | .node l a k r =>
    (∃ n, h a = some n ∧ n.size = ((T.node l a k r).size : Int)) ∧
    SizeFieldsCount h l ∧ SizeFieldsCount h r

/-- The tree after inserting the keys 5 and 3 into an empty tree. -/
def twoKeys : State :=
  (menuLoop 10 [(1, 5), (1, 3)] initSplayTree).getD initSplayTree

/-- Shape of `twoKeys`. -/
def shapeTwoKeys : T := .node .leaf 1 3 (.node .leaf 0 5 .leaf)

end SplayTree

/-! ## `HyperLogLogPlus` of `src/HyperLogLog.cpp` -/

namespace HyperLogLogPlus

/-- `numHashBitsForBucket`. -/
def numHashBitsForBucket : Nat := 11

/-- `numHashBitsForRank = 64 - numHashBitsForBucket`. -/
def numHashBitsForRank : Nat := 64 - numHashBitsForBucket

/-- `numOfBuckets = 1 << numHashBitsForBucket`. -/
def numOfBuckets : Nat := 1 <<< numHashBitsForBucket

/-- The array `buckets` of `uint8_t`, by index. -/
abbrev Buckets := Nat → Nat

/-- The value-initialised array `new uint8_t[numOfBuckets]()`: all zero. -/
def emptyBuckets : Buckets := fun _ => 0

/-- Conversion of an `int` argument to `uint64_t`: reduction modulo `2^64`. -/
def toUInt64 (x : Int) : Nat := (x % 18446744073709551616).toNat

/-- `getHash(data)` on `uint64_t`: products are taken modulo `2^64`. -/
def getHash (data : Nat) : Nat :=
  let x := data
  let x := ((x ^^^ (x >>> 30)) * 0xbf58476d1ce4e5b9) % 18446744073709551616
  let x := ((x ^^^ (x >>> 27)) * 0x94d049bb133111eb) % 18446744073709551616
  x ^^^ (x >>> 31)

/-- The loop `while ((x & 1) == 0 && r <= len) { ++r; x >>= 1; }` of `getRank`
followed by `return r;`, where `r` is a `uint8_t`, so `++r` wraps at 256. -/
def getRankLoop : Nat → Nat → Nat → Nat → Option Nat
  | 0, _, _, _ => none
  | fuel + 1, x, r, len =>
    if x &&& 1 = 0 ∧ r ≤ len then getRankLoop fuel (x >>> 1) ((r + 1) % 256) len
    else some r

/-- `getRank(hash, len)`. -/
def getRank (fuel : Nat) (hash : Nat) (len : Nat) : Option Nat :=
  getRankLoop fuel hash 1 len

/-- `add(const uint64_t hash)`: an index outside the array gives no result. -/
def addHash (fuel : Nat) (buckets : Buckets) (hash : Nat) : Option Buckets :=
  let ind := hash >>> numHashBitsForRank
  if ind < numOfBuckets then
    match getRank fuel hash numHashBitsForRank with
    | none => none
    | some r => some (Function.update buckets ind (max (buckets ind) r))
  else none

/-- `add(int x)`: `add(getHash(x))`. -/
def add (fuel : Nat) (buckets : Buckets) (x : Int) : Option Buckets :=
  addHash fuel buckets (getHash (toUInt64 x))

/-- The calls `add(x)` for the values of a sequence, in order. -/
def addAll (fuel : Nat) : List Int → Buckets → Option Buckets
  | [], b => some b
  | x :: xs, b =>
    match add fuel b x with
    | none => none
    | some b1 => addAll fuel xs b1

/-- The largest `getRank(getHash(v), numHashBitsForRank)` over the values `v`
of `xs` whose bucket index `getHash(v) >> numHashBitsForRank` is `i`; 0 when
there is none. -/
def maxRankAt (fuel : Nat) (xs : List Int) (i : Nat) : Nat :=
  (xs.filterMap (fun v =>
    if getHash (toUInt64 v) >>> numHashBitsForRank = i
    then getRank fuel (getHash (toUInt64 v)) numHashBitsForRank else none)).foldr max 0

end HyperLogLogPlus

namespace SplayTree

/-! ## Basic facts about shapes and contexts -/

@[simp] theorem T.nodes_leaf : T.leaf.nodes = [] := rfl
@[simp] theorem T.nodes_node (l r : T) (a : Addr) (k : Int) :
    (T.node l a k r).nodes = l.nodes ++ (a, k) :: r.nodes := rfl
@[simp] theorem T.ptr_leaf : T.leaf.ptr = none := rfl
@[simp] theorem T.ptr_node (l r : T) (a : Addr) (k : Int) : (T.node l a k r).ptr = some a := rfl
@[simp] theorem T.addrs_leaf : T.leaf.addrs = [] := rfl
@[simp] theorem T.addrs_node (l r : T) (a : Addr) (k : Int) :
    (T.node l a k r).addrs = l.addrs ++ a :: r.addrs := by simp [T.addrs]
@[simp] theorem T.keys_leaf : T.leaf.keys = [] := rfl
@[simp] theorem T.keys_node (l r : T) (a : Addr) (k : Int) :
    (T.node l a k r).keys = l.keys ++ k :: r.keys := by simp [T.keys]
@[simp] theorem T.size_leaf : T.leaf.size = 0 := rfl
@[simp] theorem T.size_node (l r : T) (a : Addr) (k : Int) :
    (T.node l a k r).size = l.size + r.size + 1 := by simp [T.size]; omega

theorem T.ptr_mem {t : T} {a : Addr} (h : t.ptr = some a) : a ∈ t.addrs := by
  cases t with
  | leaf => simp at h
  | node l b k r => simp at h; simp [h]

theorem T.ptr_ne {t : T} {a : Addr} (h : a ∉ t.addrs) : t.ptr ≠ some a :=
  fun e => h (T.ptr_mem e)

theorem T.ptr_eq_none {t : T} : t.ptr = none ↔ t = .leaf := by
  cases t <;> simp

@[simp] theorem plug_nil (t : T) : plug [] t = t := rfl
@[simp] theorem plug_cons (f : Frame) (c : Ctx) (t : T) : plug (f :: c) t = plug c (f.fill t) := rfl
@[simp] theorem Frame.fill_L (a : Addr) (k : Int) (r t : T) :
    (Frame.L a k r).fill t = .node t a k r := rfl
@[simp] theorem Frame.fill_R (a : Addr) (k : Int) (l t : T) :
    (Frame.R l a k).fill t = .node l a k t := rfl

@[simp] theorem Ctx.before_nil : Ctx.before [] = [] := rfl
@[simp] theorem Ctx.after_nil : Ctx.after [] = [] := rfl
@[simp] theorem Ctx.before_L (a : Addr) (k : Int) (r : T) (c : Ctx) :
    Ctx.before (.L a k r :: c) = Ctx.before c := by simp [Ctx.before, Frame.before]
@[simp] theorem Ctx.before_R (a : Addr) (k : Int) (l : T) (c : Ctx) :
    Ctx.before (.R l a k :: c) = Ctx.before c ++ (l.nodes ++ [(a, k)]) := by
  simp [Ctx.before, Frame.before]
@[simp] theorem Ctx.after_L (a : Addr) (k : Int) (r : T) (c : Ctx) :
    Ctx.after (.L a k r :: c) = (a, k) :: r.nodes ++ Ctx.after c := by
  simp [Ctx.after, Frame.after]
@[simp] theorem Ctx.after_R (a : Addr) (k : Int) (l : T) (c : Ctx) :
    Ctx.after (.R l a k :: c) = Ctx.after c := by simp [Ctx.after, Frame.after]

theorem Frame.nodes_fill (f : Frame) (t : T) :
    (f.fill t).nodes = f.before ++ t.nodes ++ f.after := by
  cases f <;> simp [Frame.before, Frame.after]

theorem nodes_plug (c : Ctx) (t : T) :
    (plug c t).nodes = Ctx.before c ++ t.nodes ++ Ctx.after c := by
  induction c generalizing t with
  | nil => simp
  | cons f c ih => simp [ih, Frame.nodes_fill, Ctx.before, Ctx.after]

theorem addrs_plug (c : Ctx) (t : T) :
    (plug c t).addrs = (Ctx.before c).map Prod.fst ++ t.addrs ++ (Ctx.after c).map Prod.fst := by
  simp [T.addrs, nodes_plug]

theorem keys_plug (c : Ctx) (t : T) :
    (plug c t).keys = (Ctx.before c).map Prod.snd ++ t.keys ++ (Ctx.after c).map Prod.snd := by
  simp [T.keys, nodes_plug]

theorem plug_append (c d : Ctx) (t : T) : plug (c ++ d) t = plug d (plug c t) := by
  induction c generalizing t with
  | nil => rfl
  | cons f c ih => simp [ih]

@[simp] theorem Ctx.addrs_nil : Ctx.addrs [] = [] := rfl
@[simp] theorem Ctx.addrs_L (a : Addr) (k : Int) (r : T) (c : Ctx) :
    Ctx.addrs (.L a k r :: c) = a :: (r.addrs ++ Ctx.addrs c) := by
  simp [Ctx.addrs, Frame.addrs]
@[simp] theorem Ctx.addrs_R (a : Addr) (k : Int) (l : T) (c : Ctx) :
    Ctx.addrs (.R l a k :: c) = a :: (l.addrs ++ Ctx.addrs c) := by
  simp [Ctx.addrs, Frame.addrs]

theorem Ctx.addrs_append (c d : Ctx) : Ctx.addrs (c ++ d) = Ctx.addrs c ++ Ctx.addrs d := by
  induction c with
  | nil => rfl
  | cons f c ih => simp [Ctx.addrs, ih]

theorem perm_addrs_plug (c : Ctx) (t : T) :
    (plug c t).addrs.Perm (t.addrs ++ Ctx.addrs c) := by
  induction c generalizing t with
  | nil => simp
  | cons f c ih =>
    refine (ih (f.fill t)).trans ?_
    cases f with
    | L a k r =>
      simp only [Frame.fill_L, T.addrs_node, Ctx.addrs_L, List.append_assoc, List.cons_append]
      exact List.Perm.refl _
    | R l a k =>
      simp only [Frame.fill_R, T.addrs_node, Ctx.addrs_R, List.append_assoc, List.cons_append]
      have h1 : (l.addrs ++ a :: (t.addrs ++ Ctx.addrs c)).Perm
          (a :: (l.addrs ++ (t.addrs ++ Ctx.addrs c))) := List.perm_middle
      refine h1.trans ?_
      have h2 : (l.addrs ++ (t.addrs ++ Ctx.addrs c)).Perm (t.addrs ++ (l.addrs ++ Ctx.addrs c)) := by
        rw [← List.append_assoc, ← List.append_assoc]
        exact List.Perm.append_right _ List.perm_append_comm
      exact ((List.Perm.cons a h2).trans List.perm_middle.symm)

theorem nodup_plug (c : Ctx) (t : T) :
    (plug c t).addrs.Nodup ↔ (t.addrs ++ Ctx.addrs c).Nodup :=
  (perm_addrs_plug c t).nodup_iff

theorem mem_addrs_plug (c : Ctx) (t : T) (a : Addr) :
    a ∈ (plug c t).addrs ↔ a ∈ t.addrs ∨ a ∈ Ctx.addrs c := by
  rw [(perm_addrs_plug c t).mem_iff]; simp

/-! ## The representation relation -/

@[simp] theorem Rep_leaf (h : Heap) (p par : Ptr) : Rep h p par .leaf ↔ p = none := by
  simp [Rep]

theorem Rep_node (h : Heap) (p par : Ptr) (l r : T) (a : Addr) (k : Int) :
    Rep h p par (.node l a k r) ↔
      p = some a ∧ ∃ n, h a = some n ∧ n.key = k ∧ n.parent = par ∧
        Rep h n.left (some a) l ∧ Rep h n.right (some a) r := by
  simp only [Rep]
  cases h a <;> simp

theorem Rep.ptr_eq {h : Heap} {p par : Ptr} {t : T} (hr : Rep h p par t) : p = t.ptr := by
  cases t with
  | leaf => simpa using hr
  | node l a k r => exact ((Rep_node ..).1 hr).1

theorem RepCtx_nil (h : Heap) (root p par : Ptr) :
    RepCtx h root [] p par ↔ p = root ∧ par = none := by simp [RepCtx]

theorem RepCtx_L (h : Heap) (root p par : Ptr) (a : Addr) (k : Int) (r : T) (c : Ctx) :
    RepCtx h root (.L a k r :: c) p par ↔
      par = some a ∧ ∃ n, h a = some n ∧ n.key = k ∧ n.left = p ∧
        Rep h n.right (some a) r ∧ RepCtx h root c (some a) n.parent := by
  simp only [RepCtx]
  cases h a <;> simp

theorem RepCtx_R (h : Heap) (root p par : Ptr) (a : Addr) (k : Int) (l : T) (c : Ctx) :
    RepCtx h root (.R l a k :: c) p par ↔
      par = some a ∧ ∃ n, h a = some n ∧ n.key = k ∧ n.right = p ∧
        Rep h n.left (some a) l ∧ RepCtx h root c (some a) n.parent := by
  simp only [RepCtx]
  cases h a <;> simp

/-- Cells outside a shape do not matter for its representation. -/
theorem Rep_congr {h h2 : Heap} {p par : Ptr} {t : T}
    (hh : ∀ a ∈ t.addrs, h2 a = h a) (hr : Rep h p par t) : Rep h2 p par t := by
  induction t generalizing p par with
  | leaf => simpa using hr
  | node l a k r ihl ihr =>
    rw [Rep_node] at hr ⊢
    obtain ⟨hp, n, hn, hk, hpar, hl, hr⟩ := hr
    refine ⟨hp, n, ?_, hk, hpar, ihl ?_ hl, ihr ?_ hr⟩
    · rw [hh a (by simp), hn]
    · intro b hb; exact hh b (by simp [hb])
    · intro b hb; exact hh b (by simp [hb])

/-- Cells outside a context do not matter for its representation. -/
theorem RepCtx_congr {h h2 : Heap} {root p par : Ptr} {c : Ctx}
    (hh : ∀ a ∈ Ctx.addrs c, h2 a = h a) (hr : RepCtx h root c p par) :
    RepCtx h2 root c p par := by
  induction c generalizing p par with
  | nil => simpa [RepCtx] using hr
  | cons f c ih =>
    cases f with
    | L a k r =>
      rw [RepCtx_L] at hr ⊢
      obtain ⟨hp, n, hn, hk, hl, hrr, hc⟩ := hr
      refine ⟨hp, n, ?_, hk, hl, Rep_congr ?_ hrr, ih ?_ hc⟩
      · rw [hh a (by simp), hn]
      · intro b hb; exact hh b (by simp [hb])
      · intro b hb; exact hh b (by simp [hb])
    | R l a k =>
      rw [RepCtx_R] at hr ⊢
      obtain ⟨hp, n, hn, hk, hl, hrr, hc⟩ := hr
      refine ⟨hp, n, ?_, hk, hl, Rep_congr ?_ hrr, ih ?_ hc⟩
      · rw [hh a (by simp), hn]
      · intro b hb; exact hh b (by simp [hb])
      · intro b hb; exact hh b (by simp [hb])

/-- The occupant of the hole and its expected parent can be changed together
with the child slot of the innermost frame; here: nothing to change at the
root of an empty context. -/
theorem Rep_plug (h : Heap) (root : Ptr) (c : Ctx) (t : T) :
    Rep h root none (plug c t) ↔ ∃ par, RepCtx h root c t.ptr par ∧ Rep h t.ptr par t := by
  induction c generalizing t with
  | nil =>
    simp only [plug_nil, RepCtx_nil]
    constructor
    · intro hr
      have := hr.ptr_eq
      exact ⟨none, ⟨this.symm, rfl⟩, this ▸ hr⟩
    · rintro ⟨par, ⟨h1, h2⟩, hr⟩
      rw [h1, h2] at hr; exact hr
  | cons f c ih =>
    rw [plug_cons, ih]
    cases f with
    | L a k r =>
      simp only [Frame.fill_L, T.ptr_node, Rep_node, RepCtx_L]
      constructor
      · rintro ⟨par, hc, -, n, hn, hk, hpar, hl, hr⟩
        have := hl.ptr_eq
        exact ⟨some a, ⟨rfl, n, hn, hk, this, hr, hpar ▸ hc⟩, this ▸ hl⟩
      · rintro ⟨par, ⟨hp, n, hn, hk, hl, hr, hc⟩, ht⟩
        exact ⟨n.parent, hc, trivial, n, hn, hk, rfl, by rw [hl, ← hp]; exact ht, hr⟩
    | R l a k =>
      simp only [Frame.fill_R, T.ptr_node, Rep_node, RepCtx_R]
      constructor
      · rintro ⟨par, hc, -, n, hn, hk, hpar, hl, hr⟩
        have := hr.ptr_eq
        exact ⟨some a, ⟨rfl, n, hn, hk, this, hl, hpar ▸ hc⟩, this ▸ hr⟩
      · rintro ⟨par, ⟨hp, n, hn, hk, hr, hl, hc⟩, ht⟩
        exact ⟨n.parent, hc, trivial, n, hn, hk, rfl, hl, by rw [hr, ← hp]; exact ht⟩

/-! ## Heap updates -/

theorem Rep_update {h : Heap} {p par : Ptr} {t : T} {a : Addr} {v : Option Node}
    (ha : a ∉ t.addrs) : Rep (Function.update h a v) p par t ↔ Rep h p par t := by
  constructor
  · apply Rep_congr
    intro b hb
    have : b ≠ a := fun e => ha (e ▸ hb)
    simp [Function.update_noteq this]
  · apply Rep_congr
    intro b hb
    have : b ≠ a := fun e => ha (e ▸ hb)
    simp [Function.update_noteq this]

theorem RepCtx_update {h : Heap} {root p par : Ptr} {c : Ctx} {a : Addr} {v : Option Node}
    (ha : a ∉ Ctx.addrs c) :
    RepCtx (Function.update h a v) root c p par ↔ RepCtx h root c p par := by
  constructor
  · apply RepCtx_congr
    intro b hb
    have : b ≠ a := fun e => ha (e ▸ hb)
    simp [Function.update_noteq this]
  · apply RepCtx_congr
    intro b hb
    have : b ≠ a := fun e => ha (e ▸ hb)
    simp [Function.update_noteq this]

theorem State.load_some (s : State) (a : Addr) : s.load (some a) = s.heap a := rfl

theorem State.store_some {s : State} {a : Addr} {n : Node} (f : Node → Node)
    (h : s.heap a = some n) :
    s.store (some a) f = some { s with heap := Function.update s.heap a (some (f n)) } := by
  simp [State.store, h]

set_option maxHeartbeats 2000000 in
theorem rotateRight_spec (s : State) (c : Ctx) (A B C : T) (r x : Addr) (kr kx : Int) (par : Ptr)
    (hc : RepCtx s.heap s.root c (some r) par)
    (ht : Rep s.heap (some r) par (.node (.node A x kx B) r kr C))
    (hnd : (plug c (.node (.node A x kx B) r kr C)).addrs.Nodup) :
    ∃ s2, rotateRight s (some r) = some (s2, some x) ∧
      RepCtx s2.heap s2.root c (some x) par ∧
      Rep s2.heap (some x) par (.node A x kx (.node B r kr C)) ∧
      s2.next = s.next := by
  simp only [Rep_node] at ht
  obtain ⟨-, rn, hrn, hrk, hrp, ⟨hrl, xn, hxn, hxk, hxp, hA, hB⟩, hC⟩ := ht
  rw [nodup_plug] at hnd
  have hxr : x ≠ r := by
    intro e; subst e
    simp [List.nodup_append, List.nodup_cons] at hnd
  cases B with
  | leaf =>
    simp only [Rep_leaf] at hB
    cases c with
    | nil =>
      simp only [RepCtx_nil] at hc
      obtain ⟨hroot, hpar⟩ := hc
      subst hpar
      simp [List.nodup_append, List.nodup_cons] at hnd
      simp [rotateRight, State.load, State.store, hrn, hrl, hxn, hB, hxr, hxr.symm, hrp,
        Function.update_noteq, Rep_node, Rep_update, RepCtx_nil, hnd, hA, hC, hxk, hrk]
    | cons f c =>
      cases f with
      | L g kg D =>
        simp only [RepCtx_L] at hc
        obtain ⟨hpar, gn, hgn, hgk, hgl, hD, hc⟩ := hc
        subst hpar
        have hgr : g ≠ r := by
          intro e; subst e; simp [List.nodup_append, List.nodup_cons] at hnd
        have hgx : g ≠ x := by
          intro e; subst e; simp [List.nodup_append, List.nodup_cons] at hnd
        simp [List.nodup_append, List.nodup_cons] at hnd
        simp [rotateRight, State.load, State.store, hrn, hrl, hxn, hB, hxr, hxr.symm, hrp,
          Function.update_noteq, Rep_node, Rep_update, RepCtx_update, RepCtx_L,
          chainGrandParent, hgn, hgl, hgr, hgx, hgr.symm, hgx.symm,
          hnd, hA, hC, hD, hc, hxk, hrk, hgk]
      | R D g kg =>
        simp only [RepCtx_R] at hc
        obtain ⟨hpar, gn, hgn, hgk, hgl, hD, hc⟩ := hc
        subst hpar
        have hgr : g ≠ r := by
          intro e; subst e; simp [List.nodup_append, List.nodup_cons] at hnd
        have hgx : g ≠ x := by
          intro e; subst e; simp [List.nodup_append, List.nodup_cons] at hnd
        simp [List.nodup_append, List.nodup_cons] at hnd
        have hDr : gn.left ≠ some r := by
          rw [hD.ptr_eq]; exact T.ptr_ne (by simp [hnd])
        simp [rotateRight, State.load, State.store, hrn, hrl, hxn, hB, hxr, hxr.symm, hrp,
          Function.update_noteq, Rep_node, Rep_update, RepCtx_update, RepCtx_R,
          chainGrandParent, hgn, hgl, hgr, hgx, hgr.symm, hgx.symm, hDr,
          hnd, hA, hC, hD, hc, hxk, hrk, hgk]
  | node Bl b kb Br =>
    simp only [Rep_node] at hB
    obtain ⟨hxr2, bn, hbn, hbk, hbp, hBl, hBr⟩ := hB
    cases c with
    | nil =>
      simp only [RepCtx_nil] at hc
      obtain ⟨hroot, hpar⟩ := hc
      subst hpar
      have hbr : b ≠ r := by
        intro e; subst e; simp [List.nodup_append, List.nodup_cons] at hnd
      have hbx : b ≠ x := by
        intro e; subst e; simp [List.nodup_append, List.nodup_cons] at hnd
      simp [List.nodup_append, List.nodup_cons] at hnd
      simp [rotateRight, State.load, State.store, hrn, hrl, hxn, hxr, hxr.symm, hrp,
        Function.update_noteq, Rep_node, Rep_update, RepCtx_nil, hxr2, hbn, hbr, hbx,
        hbr.symm, hbx.symm, hbk, hBl, hBr,
        hnd, hA, hC, hxk, hrk]
    | cons f c =>
      cases f with
      | L g kg D =>
        simp only [RepCtx_L] at hc
        obtain ⟨hpar, gn, hgn, hgk, hgl, hD, hc⟩ := hc
        subst hpar
        have hgr : g ≠ r := by
          intro e; subst e; simp [List.nodup_append, List.nodup_cons] at hnd
        have hgx : g ≠ x := by
          intro e; subst e; simp [List.nodup_append, List.nodup_cons] at hnd
        have hbr : b ≠ r := by
          intro e; subst e; simp [List.nodup_append, List.nodup_cons] at hnd
        have hbx : b ≠ x := by
          intro e; subst e; simp [List.nodup_append, List.nodup_cons] at hnd
        have hbg : b ≠ g := by
          intro e; subst e; simp [List.nodup_append, List.nodup_cons] at hnd
        simp [List.nodup_append, List.nodup_cons] at hnd
        simp [rotateRight, State.load, State.store, hrn, hrl, hxn, hxr, hxr.symm, hrp,
          Function.update_noteq, Rep_node, Rep_update, RepCtx_update, RepCtx_L,
          chainGrandParent, hgn, hgl, hgr, hgx, hgr.symm, hgx.symm,
          hxr2, hbn, hbr, hbx, hbg, hbg.symm, hbr.symm, hbx.symm, hbk, hBl, hBr,
          hnd, hA, hC, hD, hc, hxk, hrk, hgk]
      | R D g kg =>
        simp only [RepCtx_R] at hc
        obtain ⟨hpar, gn, hgn, hgk, hgl, hD, hc⟩ := hc
        subst hpar
        have hgr : g ≠ r := by
          intro e; subst e; simp [List.nodup_append, List.nodup_cons] at hnd
        have hgx : g ≠ x := by
          intro e; subst e; simp [List.nodup_append, List.nodup_cons] at hnd
        have hbr : b ≠ r := by
          intro e; subst e; simp [List.nodup_append, List.nodup_cons] at hnd
        have hbx : b ≠ x := by
          intro e; subst e; simp [List.nodup_append, List.nodup_cons] at hnd
        have hbg : b ≠ g := by
          intro e; subst e; simp [List.nodup_append, List.nodup_cons] at hnd
        simp [List.nodup_append, List.nodup_cons] at hnd
        have hDr : gn.left ≠ some r := by
          rw [hD.ptr_eq]; exact T.ptr_ne (by simp [hnd])
        simp [rotateRight, State.load, State.store, hrn, hrl, hxn, hxr, hxr.symm, hrp,
          Function.update_noteq, Rep_node, Rep_update, RepCtx_update, RepCtx_R,
          chainGrandParent, hgn, hgl, hgr, hgx, hgr.symm, hgx.symm, hDr,
          hxr2, hbn, hbr, hbx, hbg, hbg.symm, hbr.symm, hbx.symm, hbk, hBl, hBr,
          hnd, hA, hC, hD, hc, hxk, hrk, hgk]

set_option maxHeartbeats 2000000 in
theorem rotateLeft_spec (s : State) (c : Ctx) (A B C : T) (r x : Addr) (kr kx : Int) (par : Ptr)
    (hc : RepCtx s.heap s.root c (some r) par)
    (ht : Rep s.heap (some r) par (.node A r kr (.node B x kx C)))
    (hnd : (plug c (.node A r kr (.node B x kx C))).addrs.Nodup) :
    ∃ s2, rotateLeft s (some r) = some (s2, some x) ∧
      RepCtx s2.heap s2.root c (some x) par ∧
      Rep s2.heap (some x) par (.node (.node A r kr B) x kx C) ∧
      s2.next = s.next := by
  simp only [Rep_node] at ht
  obtain ⟨-, rn, hrn, hrk, hrp, hA, ⟨hrl, xn, hxn, hxk, hxp, hB, hC⟩⟩ := ht
  rw [nodup_plug] at hnd
  have hxr : x ≠ r := by
    intro e; subst e
    simp [List.nodup_append, List.nodup_cons] at hnd
  cases B with
  | leaf =>
    simp only [Rep_leaf] at hB
    cases c with
    | nil =>
      simp only [RepCtx_nil] at hc
      obtain ⟨hroot, hpar⟩ := hc
      subst hpar
      simp [List.nodup_append, List.nodup_cons] at hnd
      simp [rotateLeft, State.load, State.store, hrn, hrl, hxn, hB, hxr, hxr.symm, hrp,
        Function.update_noteq, Rep_node, Rep_update, RepCtx_nil, hnd, hA, hC, hxk, hrk]
    | cons f c =>
      cases f with
      | L g kg D =>
        simp only [RepCtx_L] at hc
        obtain ⟨hpar, gn, hgn, hgk, hgl, hD, hc⟩ := hc
        subst hpar
        have hgr : g ≠ r := by
          intro e; subst e; simp [List.nodup_append, List.nodup_cons] at hnd
        have hgx : g ≠ x := by
          intro e; subst e; simp [List.nodup_append, List.nodup_cons] at hnd
        simp [List.nodup_append, List.nodup_cons] at hnd
        simp [rotateLeft, State.load, State.store, hrn, hrl, hxn, hB, hxr, hxr.symm, hrp,
          Function.update_noteq, Rep_node, Rep_update, RepCtx_update, RepCtx_L,
          chainGrandParent, hgn, hgl, hgr, hgx, hgr.symm, hgx.symm,
          hnd, hA, hC, hD, hc, hxk, hrk, hgk]
      | R D g kg =>
        simp only [RepCtx_R] at hc
        obtain ⟨hpar, gn, hgn, hgk, hgl, hD, hc⟩ := hc
        subst hpar
        have hgr : g ≠ r := by
          intro e; subst e; simp [List.nodup_append, List.nodup_cons] at hnd
        have hgx : g ≠ x := by
          intro e; subst e; simp [List.nodup_append, List.nodup_cons] at hnd
        simp [List.nodup_append, List.nodup_cons] at hnd
        have hDr : gn.left ≠ some r := by
          rw [hD.ptr_eq]; exact T.ptr_ne (by simp [hnd])
        simp [rotateLeft, State.load, State.store, hrn, hrl, hxn, hB, hxr, hxr.symm, hrp,
          Function.update_noteq, Rep_node, Rep_update, RepCtx_update, RepCtx_R,
          chainGrandParent, hgn, hgl, hgr, hgx, hgr.symm, hgx.symm, hDr,
          hnd, hA, hC, hD, hc, hxk, hrk, hgk]
  | node Bl b kb Br =>
    simp only [Rep_node] at hB
    obtain ⟨hxr2, bn, hbn, hbk, hbp, hBl, hBr⟩ := hB
    cases c with
    | nil =>
      simp only [RepCtx_nil] at hc
      obtain ⟨hroot, hpar⟩ := hc
      subst hpar
      have hbr : b ≠ r := by
        intro e; subst e; simp [List.nodup_append, List.nodup_cons] at hnd
      have hbx : b ≠ x := by
        intro e; subst e; simp [List.nodup_append, List.nodup_cons] at hnd
      simp [List.nodup_append, List.nodup_cons] at hnd
      simp [rotateLeft, State.load, State.store, hrn, hrl, hxn, hxr, hxr.symm, hrp,
        Function.update_noteq, Rep_node, Rep_update, RepCtx_nil, hxr2, hbn, hbr, hbx,
        hbr.symm, hbx.symm, hbk, hBl, hBr,
        hnd, hA, hC, hxk, hrk]
    | cons f c =>
      cases f with
      | L g kg D =>
        simp only [RepCtx_L] at hc
        obtain ⟨hpar, gn, hgn, hgk, hgl, hD, hc⟩ := hc
        subst hpar
        have hgr : g ≠ r := by
          intro e; subst e; simp [List.nodup_append, List.nodup_cons] at hnd
        have hgx : g ≠ x := by
          intro e; subst e; simp [List.nodup_append, List.nodup_cons] at hnd
        have hbr : b ≠ r := by
          intro e; subst e; simp [List.nodup_append, List.nodup_cons] at hnd
        have hbx : b ≠ x := by
          intro e; subst e; simp [List.nodup_append, List.nodup_cons] at hnd
        have hbg : b ≠ g := by
          intro e; subst e; simp [List.nodup_append, List.nodup_cons] at hnd
        simp [List.nodup_append, List.nodup_cons] at hnd
        simp [rotateLeft, State.load, State.store, hrn, hrl, hxn, hxr, hxr.symm, hrp,
          Function.update_noteq, Rep_node, Rep_update, RepCtx_update, RepCtx_L,
          chainGrandParent, hgn, hgl, hgr, hgx, hgr.symm, hgx.symm,
          hxr2, hbn, hbr, hbx, hbg, hbg.symm, hbr.symm, hbx.symm, hbk, hBl, hBr,
          hnd, hA, hC, hD, hc, hxk, hrk, hgk]
      | R D g kg =>
        simp only [RepCtx_R] at hc
        obtain ⟨hpar, gn, hgn, hgk, hgl, hD, hc⟩ := hc
        subst hpar
        have hgr : g ≠ r := by
          intro e; subst e; simp [List.nodup_append, List.nodup_cons] at hnd
        have hgx : g ≠ x := by
          intro e; subst e; simp [List.nodup_append, List.nodup_cons] at hnd
        have hbr : b ≠ r := by
          intro e; subst e; simp [List.nodup_append, List.nodup_cons] at hnd
        have hbx : b ≠ x := by
          intro e; subst e; simp [List.nodup_append, List.nodup_cons] at hnd
        have hbg : b ≠ g := by
          intro e; subst e; simp [List.nodup_append, List.nodup_cons] at hnd
        simp [List.nodup_append, List.nodup_cons] at hnd
        have hDr : gn.left ≠ some r := by
          rw [hD.ptr_eq]; exact T.ptr_ne (by simp [hnd])
        simp [rotateLeft, State.load, State.store, hrn, hrl, hxn, hxr, hxr.symm, hrp,
          Function.update_noteq, Rep_node, Rep_update, RepCtx_update, RepCtx_R,
          chainGrandParent, hgn, hgl, hgr, hgx, hgr.symm, hgx.symm, hDr,
          hxr2, hbn, hbr, hbx, hbg, hbg.symm, hbr.symm, hbx.symm, hbk, hBl, hBr,
          hnd, hA, hC, hD, hc, hxk, hrk, hgk]

/-! ## Splay steps -/

theorem addrs_plug_congr (c : Ctx) {t u : T} (h : t.nodes = u.nodes) :
    (plug c t).addrs = (plug c u).addrs := by
  simp [T.addrs, nodes_plug, h]

theorem nodes_plug_congr (c : Ctx) {t u : T} (h : t.nodes = u.nodes) :
    (plug c t).nodes = (plug c u).nodes := by
  simp [nodes_plug, h]

/-- Heap facts at the innermost frame when the hole is a left child. -/
theorem RepCtx_L_up {h : Heap} {root p par : Ptr} {a : Addr} {k : Int} {r t : T} {c : Ctx}
    (hc : RepCtx h root (.L a k r :: c) p par) (ht : Rep h p par t) :
    ∃ n, h a = some n ∧ n.left = p ∧ par = some a ∧ n.right = r.ptr ∧
      RepCtx h root c (some a) n.parent ∧ Rep h (some a) n.parent (.node t a k r) := by
  rw [RepCtx_L] at hc
  obtain ⟨hp, n, hn, hk, hl, hr, hc⟩ := hc
  refine ⟨n, hn, hl, hp, hr.ptr_eq, hc, ?_⟩
  rw [Rep_node]
  exact ⟨rfl, n, hn, hk, rfl, by rw [hl, ← hp]; exact ht, hr⟩

/-- Heap facts at the innermost frame when the hole is a right child. -/
theorem RepCtx_R_up {h : Heap} {root p par : Ptr} {a : Addr} {k : Int} {l t : T} {c : Ctx}
    (hc : RepCtx h root (.R l a k :: c) p par) (ht : Rep h p par t) :
    ∃ n, h a = some n ∧ n.right = p ∧ par = some a ∧ n.left = l.ptr ∧
      RepCtx h root c (some a) n.parent ∧ Rep h (some a) n.parent (.node l a k t) := by
  rw [RepCtx_R] at hc
  obtain ⟨hp, n, hn, hk, hr, hl, hc⟩ := hc
  refine ⟨n, hn, hr, hp, hl.ptr_eq, hc, ?_⟩
  rw [Rep_node]
  exact ⟨rfl, n, hn, hk, rfl, hl, by rw [hr, ← hp]; exact ht⟩

theorem Rep_root_node {h : Heap} {par : Ptr} {a : Addr} {k : Int} {l r : T}
    (ht : Rep h (some a) par (.node l a k r)) :
    ∃ n, h a = some n ∧ n.parent = par ∧ n.key = k := by
  rw [Rep_node] at ht
  obtain ⟨-, n, hn, hk, hp, -, -⟩ := ht
  exact ⟨n, hn, hp, hk⟩

theorem zig_L (s : State) (c : Ctx) (A B C : T) (x p : Addr) (k kp : Int) (par : Ptr)
    (hc : RepCtx s.heap s.root (.L p kp C :: c) (some x) par)
    (ht : Rep s.heap (some x) par (.node A x k B))
    (hnd : (plug (.L p kp C :: c) (.node A x k B)).addrs.Nodup) :
    ∃ s2 par2, zig s (some x) = some s2 ∧
      RepCtx s2.heap s2.root c (some x) par2 ∧
      Rep s2.heap (some x) par2 (.node A x k (.node B p kp C)) ∧
      s2.next = s.next := by
  obtain ⟨pn, hpn, hpl, hpar, -, hc2, ht2⟩ := RepCtx_L_up hc ht
  obtain ⟨xn, hxn, hxp, -⟩ := Rep_root_node ht
  obtain ⟨s2, h1, h2, h3, h4⟩ := rotateRight_spec s c A B C p x kp k pn.parent hc2 ht2 hnd
  refine ⟨s2, pn.parent, ?_, h2, h3, h4⟩
  simp [zig, State.load, hxn, hxp, hpar, hpn, hpl, h1]

theorem zig_R (s : State) (c : Ctx) (A B C : T) (x p : Addr) (k kp : Int) (par : Ptr)
    (hc : RepCtx s.heap s.root (.R C p kp :: c) (some x) par)
    (ht : Rep s.heap (some x) par (.node A x k B))
    (hnd : (plug (.R C p kp :: c) (.node A x k B)).addrs.Nodup) :
    ∃ s2 par2, zig s (some x) = some s2 ∧
      RepCtx s2.heap s2.root c (some x) par2 ∧
      Rep s2.heap (some x) par2 (.node (.node C p kp A) x k B) ∧
      s2.next = s.next := by
  obtain ⟨pn, hpn, hpr, hpar, hpl, hc2, ht2⟩ := RepCtx_R_up hc ht
  obtain ⟨xn, hxn, hxp, -⟩ := Rep_root_node ht
  obtain ⟨s2, h1, h2, h3, h4⟩ := rotateLeft_spec s c C A B p x kp k pn.parent hc2 ht2 hnd
  refine ⟨s2, pn.parent, ?_, h2, h3, h4⟩
  have hxC : C.ptr ≠ some x := by
    apply T.ptr_ne
    simp [nodup_plug, List.nodup_append, List.nodup_cons] at hnd
    simp [hnd]
  simp [zig, State.load, hxn, hxp, hpar, hpn, hpl, hxC, h1]

theorem zigZig_LL (s : State) (c : Ctx) (A B C D : T) (x p g : Addr) (k kp kg : Int) (par : Ptr)
    (hc : RepCtx s.heap s.root (.L p kp C :: .L g kg D :: c) (some x) par)
    (ht : Rep s.heap (some x) par (.node A x k B))
    (hnd : (plug (.L p kp C :: .L g kg D :: c) (.node A x k B)).addrs.Nodup) :
    ∃ s2 par2, isZigZag s (some x) = some false ∧ zigZig s (some x) = some s2 ∧
      RepCtx s2.heap s2.root c (some x) par2 ∧
      Rep s2.heap (some x) par2 (.node A x k (.node B p kp (.node C g kg D))) ∧
      s2.next = s.next := by
  obtain ⟨pn, hpn, hpl, hpar, hpr, hc2, ht2⟩ := RepCtx_L_up hc ht
  obtain ⟨gn, hgn, hgl, hgpar, hgr, hc3, ht3⟩ := RepCtx_L_up hc2 ht2
  obtain ⟨xn, hxn, hxp, -⟩ := Rep_root_node ht
  obtain ⟨s1, h1, h2, h3, h4⟩ :=
    rotateRight_spec s c (.node A x k B) C D g p kg kp gn.parent hc3 ht3 hnd
  have hnd2 : (plug c (.node (.node A x k B) p kp (.node C g kg D))).addrs.Nodup := by
    have := addrs_plug_congr c
      (t := .node (.node A x k B) p kp (.node C g kg D))
      (u := .node (.node (.node A x k B) p kp C) g kg D) (by simp)
    rw [this]; exact hnd
  obtain ⟨s2, h5, h6, h7, h8⟩ :=
    rotateRight_spec s1 c A B (.node C g kg D) p x kp k gn.parent h2 h3 hnd2
  refine ⟨s2, gn.parent, ?_, ?_, h6, h7, h8.trans h4⟩
  · have hxC : C.ptr ≠ some x := by
      apply T.ptr_ne
      simp [nodup_plug, List.nodup_append, List.nodup_cons] at hnd
      simp [hnd]
    have hpD : D.ptr ≠ some p := by
      apply T.ptr_ne
      simp [nodup_plug, List.nodup_append, List.nodup_cons] at hnd
      simp [hnd]
    simp [isZigZag, State.load, hxn, hxp, hpar, hpn, hpl, hpr, hgpar, hgn, hgr, hxC, hpD]
  · simp [zigZig, State.load, hxn, hxp, hpar, hpn, hpl, hgpar, hgn, hgl, h1, h5]

theorem zigZig_RR (s : State) (c : Ctx) (A B C D : T) (x p g : Addr) (k kp kg : Int) (par : Ptr)
    (hc : RepCtx s.heap s.root (.R C p kp :: .R D g kg :: c) (some x) par)
    (ht : Rep s.heap (some x) par (.node A x k B))
    (hnd : (plug (.R C p kp :: .R D g kg :: c) (.node A x k B)).addrs.Nodup) :
    ∃ s2 par2, isZigZag s (some x) = some false ∧ zigZig s (some x) = some s2 ∧
      RepCtx s2.heap s2.root c (some x) par2 ∧
      Rep s2.heap (some x) par2 (.node (.node (.node D g kg C) p kp A) x k B) ∧
      s2.next = s.next := by
  obtain ⟨pn, hpn, hpr, hpar, hpl, hc2, ht2⟩ := RepCtx_R_up hc ht
  obtain ⟨gn, hgn, hgr, hgpar, hgl, hc3, ht3⟩ := RepCtx_R_up hc2 ht2
  obtain ⟨xn, hxn, hxp, -⟩ := Rep_root_node ht
  obtain ⟨s1, h1, h2, h3, h4⟩ :=
    rotateLeft_spec s c D C (.node A x k B) g p kg kp gn.parent hc3 ht3 hnd
  have hnd2 : (plug c (.node (.node D g kg C) p kp (.node A x k B))).addrs.Nodup := by
    have := addrs_plug_congr c
      (t := .node (.node D g kg C) p kp (.node A x k B))
      (u := .node D g kg (.node C p kp (.node A x k B))) (by simp)
    rw [this]; exact hnd
  obtain ⟨s2, h5, h6, h7, h8⟩ :=
    rotateLeft_spec s1 c (.node D g kg C) A B p x kp k gn.parent h2 h3 hnd2
  refine ⟨s2, gn.parent, ?_, ?_, h6, h7, h8.trans h4⟩
  · have hxC : C.ptr ≠ some x := by
      apply T.ptr_ne
      simp [nodup_plug, List.nodup_append, List.nodup_cons] at hnd
      simp [hnd]
    have hpD : D.ptr ≠ some p := by
      apply T.ptr_ne
      simp [nodup_plug, List.nodup_append, List.nodup_cons] at hnd
      simp [hnd]
    simp [isZigZag, State.load, hxn, hxp, hpar, hpn, hpl, hpr, hgpar, hgn, hgl, hxC, hpD]
  · have hxC : C.ptr ≠ some x := by
      apply T.ptr_ne
      simp [nodup_plug, List.nodup_append, List.nodup_cons] at hnd
      simp [hnd]
    simp [zigZig, State.load, hxn, hxp, hpar, hpn, hpl, hxC, hgpar, hgn, hgl, h1, h5]

theorem zigZag_LR (s : State) (c : Ctx) (A B C D : T) (x p g : Addr) (k kp kg : Int) (par : Ptr)
    (hc : RepCtx s.heap s.root (.R C p kp :: .L g kg D :: c) (some x) par)
    (ht : Rep s.heap (some x) par (.node A x k B))
    (hnd : (plug (.R C p kp :: .L g kg D :: c) (.node A x k B)).addrs.Nodup) :
    ∃ s2 par2, isZigZag s (some x) = some true ∧ zigZag s (some x) = some s2 ∧
      RepCtx s2.heap s2.root c (some x) par2 ∧
      Rep s2.heap (some x) par2 (.node (.node C p kp A) x k (.node B g kg D)) ∧
      s2.next = s.next := by
  obtain ⟨pn, hpn, hpr, hpar, hpl, hc2, ht2⟩ := RepCtx_R_up hc ht
  obtain ⟨gn, hgn, hgl, hgpar, hgr, hc3, ht3⟩ := RepCtx_L_up hc2 ht2
  obtain ⟨xn, hxn, hxp, -⟩ := Rep_root_node ht
  have hnd1 : (plug (.L g kg D :: c) (.node C p kp (.node A x k B))).addrs.Nodup := hnd
  obtain ⟨s1, h1, h2, h3, h4⟩ :=
    rotateLeft_spec s (.L g kg D :: c) C A B p x kp k pn.parent hc2 ht2 hnd1
  obtain ⟨gn1, hgn1, hgl1, hgpar1, hgr1, hc4, ht4⟩ := RepCtx_L_up h2 h3
  obtain ⟨xn1, hxn1, hxp1, -⟩ := Rep_root_node h3
  have hnd2 : (plug c (.node (.node (.node C p kp A) x k B) g kg D)).addrs.Nodup := by
    have := addrs_plug_congr c
      (t := .node (.node (.node C p kp A) x k B) g kg D)
      (u := .node (.node C p kp (.node A x k B)) g kg D) (by simp)
    rw [this]; exact hnd
  obtain ⟨s2, h5, h6, h7, h8⟩ :=
    rotateRight_spec s1 c (.node C p kp A) B D g x kg k gn1.parent hc4 ht4 hnd2
  refine ⟨s2, gn1.parent, ?_, ?_, h6, h7, h8.trans h4⟩
  · simp [isZigZag, State.load, hxn, hxp, hpar, hpn, hpr, hgpar, hgn, hgl]
  · simp [zigZag, State.load, hxn, hxp, hpar, hpn, hpr, hgpar, hgn, hgl, h1, hxn1, hxp1,
      h5]

theorem zigZag_RL (s : State) (c : Ctx) (A B C D : T) (x p g : Addr) (k kp kg : Int) (par : Ptr)
    (hc : RepCtx s.heap s.root (.L p kp C :: .R D g kg :: c) (some x) par)
    (ht : Rep s.heap (some x) par (.node A x k B))
    (hnd : (plug (.L p kp C :: .R D g kg :: c) (.node A x k B)).addrs.Nodup) :
    ∃ s2 par2, isZigZag s (some x) = some true ∧ zigZag s (some x) = some s2 ∧
      RepCtx s2.heap s2.root c (some x) par2 ∧
      Rep s2.heap (some x) par2 (.node (.node D g kg A) x k (.node B p kp C)) ∧
      s2.next = s.next := by
  obtain ⟨pn, hpn, hpl, hpar, hpr, hc2, ht2⟩ := RepCtx_L_up hc ht
  obtain ⟨gn, hgn, hgr, hgpar, hgl, hc3, ht3⟩ := RepCtx_R_up hc2 ht2
  obtain ⟨xn, hxn, hxp, -⟩ := Rep_root_node ht
  have hnd1 : (plug (.R D g kg :: c) (.node (.node A x k B) p kp C)).addrs.Nodup := hnd
  obtain ⟨s1, h1, h2, h3, h4⟩ :=
    rotateRight_spec s (.R D g kg :: c) A B C p x kp k pn.parent hc2 ht2 hnd1
  obtain ⟨gn1, hgn1, hgr1, hgpar1, hgl1, hc4, ht4⟩ := RepCtx_R_up h2 h3
  obtain ⟨xn1, hxn1, hxp1, -⟩ := Rep_root_node h3
  have hnd2 : (plug c (.node D g kg (.node A x k (.node B p kp C)))).addrs.Nodup := by
    have := addrs_plug_congr c
      (t := .node D g kg (.node A x k (.node B p kp C)))
      (u := .node D g kg (.node (.node A x k B) p kp C)) (by simp)
    rw [this]; exact hnd
  obtain ⟨s2, h5, h6, h7, h8⟩ :=
    rotateLeft_spec s1 c D A (.node B p kp C) g x kg k gn1.parent hc4 ht4 hnd2
  have hxC : C.ptr ≠ some x := by
    apply T.ptr_ne
    simp [nodup_plug, List.nodup_append, List.nodup_cons] at hnd
    simp [hnd]
  refine ⟨s2, gn1.parent, ?_, ?_, h6, h7, h8.trans h4⟩
  · simp [isZigZag, State.load, hxn, hxp, hpar, hpn, hpl, hpr, hxC, hgpar, hgn, hgr]
  · simp [zigZag, State.load, hxn, hxp, hpar, hpn, hpr, hxC, hgpar, hgn, hgl, h1, hxn1, hxp1,
      h5]

/-! ## The splay loop -/

theorem splayLoop_spec : ∀ (c : Ctx) (s : State) (A B : T) (x : Addr) (k : Int) (par : Ptr)
    (fuel : Nat),
    RepCtx s.heap s.root c (some x) par →
    Rep s.heap (some x) par (.node A x k B) →
    (plug c (.node A x k B)).addrs.Nodup →
    c.length < fuel →
    ∃ s2 A2 B2, splayLoop fuel s (some x) = some s2 ∧ s2.root = some x ∧
      Rep s2.heap (some x) none (.node A2 x k B2) ∧
      (T.node A2 x k B2).nodes = (plug c (.node A x k B)).nodes ∧
      s2.next = s.next
  | [], s, A, B, x, k, par, fuel, hc, ht, _, hf => by
    obtain ⟨xn, hxn, hxp, -⟩ := Rep_root_node ht
    rw [RepCtx_nil] at hc
    obtain ⟨hroot, hpar⟩ := hc
    subst hpar
    obtain ⟨fuel, rfl⟩ : ∃ n, fuel = n + 1 := ⟨fuel - 1, by omega⟩
    exact ⟨s, A, B, by simp [splayLoop, State.load, hxn, hxp], hroot.symm, ht, rfl, rfl⟩
  | [.L p kp C], s, A, B, x, k, par, fuel, hc, ht, hnd, hf => by
    obtain ⟨xn, hxn, hxp, -⟩ := Rep_root_node ht
    obtain ⟨pn, hpn, -, hpar, -, hc2, -⟩ := RepCtx_L_up hc ht
    rw [RepCtx_nil] at hc2
    obtain ⟨s1, par1, h1, h2, h3, h4⟩ := zig_L s [] A B C x p k kp par hc ht hnd
    obtain ⟨fuel, rfl⟩ : ∃ n, fuel = n + 1 := ⟨fuel - 1, by omega⟩
    obtain ⟨s2, A2, B2, h5, h6, h7, h8, h9⟩ :=
      splayLoop_spec [] s1 A (.node B p kp C) x k par1 fuel h2 h3
        (by simpa using hnd) (by simpa using hf)
    refine ⟨s2, A2, B2, ?_, h6, h7, ?_, h9.trans h4⟩
    · simp [splayLoop, State.load, hxn, hxp, hpar, hpn, hc2.2, h1, h5]
    · rw [h8]; simp
  | [.R C p kp], s, A, B, x, k, par, fuel, hc, ht, hnd, hf => by
    obtain ⟨xn, hxn, hxp, -⟩ := Rep_root_node ht
    obtain ⟨pn, hpn, -, hpar, -, hc2, -⟩ := RepCtx_R_up hc ht
    rw [RepCtx_nil] at hc2
    obtain ⟨s1, par1, h1, h2, h3, h4⟩ := zig_R s [] A B C x p k kp par hc ht hnd
    obtain ⟨fuel, rfl⟩ : ∃ n, fuel = n + 1 := ⟨fuel - 1, by omega⟩
    obtain ⟨s2, A2, B2, h5, h6, h7, h8, h9⟩ :=
      splayLoop_spec [] s1 (.node C p kp A) B x k par1 fuel h2 h3
        (by simpa using hnd) (by simpa using hf)
    refine ⟨s2, A2, B2, ?_, h6, h7, ?_, h9.trans h4⟩
    · simp [splayLoop, State.load, hxn, hxp, hpar, hpn, hc2.2, h1, h5]
    · rw [h8]; simp
  | .L p kp C :: .L g kg D :: c, s, A, B, x, k, par, fuel, hc, ht, hnd, hf => by
    obtain ⟨xn, hxn, hxp, -⟩ := Rep_root_node ht
    obtain ⟨pn, hpn, -, hpar, -, hc2, ht2⟩ := RepCtx_L_up hc ht
    obtain ⟨gn, hgn, -, hgpar, -, -, -⟩ := RepCtx_L_up hc2 ht2
    obtain ⟨s1, par1, h0, h1, h2, h3, h4⟩ := zigZig_LL s c A B C D x p g k kp kg par hc ht hnd
    obtain ⟨fuel, rfl⟩ : ∃ n, fuel = n + 1 := ⟨fuel - 1, by omega⟩
    have hnd2 : (plug c (.node A x k (.node B p kp (.node C g kg D)))).addrs.Nodup := by
      have := addrs_plug_congr c
        (t := .node A x k (.node B p kp (.node C g kg D)))
        (u := .node (.node (.node A x k B) p kp C) g kg D) (by simp)
      rw [this]; exact hnd
    obtain ⟨s2, A2, B2, h5, h6, h7, h8, h9⟩ :=
      splayLoop_spec c s1 A (.node B p kp (.node C g kg D)) x k par1 fuel h2 h3 hnd2
        (by simp at hf; omega)
    refine ⟨s2, A2, B2, ?_, h6, h7, ?_, h9.trans h4⟩
    · simp [splayLoop, State.load, hxn, hxp, hpar, hpn, hgpar, h0, h1, h5]
    · rw [h8]; simp [nodes_plug]
  | .R C p kp :: .R D g kg :: c, s, A, B, x, k, par, fuel, hc, ht, hnd, hf => by
    obtain ⟨xn, hxn, hxp, -⟩ := Rep_root_node ht
    obtain ⟨pn, hpn, -, hpar, -, hc2, ht2⟩ := RepCtx_R_up hc ht
    obtain ⟨gn, hgn, -, hgpar, -, -, -⟩ := RepCtx_R_up hc2 ht2
    obtain ⟨s1, par1, h0, h1, h2, h3, h4⟩ := zigZig_RR s c A B C D x p g k kp kg par hc ht hnd
    obtain ⟨fuel, rfl⟩ : ∃ n, fuel = n + 1 := ⟨fuel - 1, by omega⟩
    have hnd2 : (plug c (.node (.node (.node D g kg C) p kp A) x k B)).addrs.Nodup := by
      have := addrs_plug_congr c
        (t := .node (.node (.node D g kg C) p kp A) x k B)
        (u := .node D g kg (.node C p kp (.node A x k B))) (by simp)
      rw [this]; exact hnd
    obtain ⟨s2, A2, B2, h5, h6, h7, h8, h9⟩ :=
      splayLoop_spec c s1 (.node (.node D g kg C) p kp A) B x k par1 fuel h2 h3 hnd2
        (by simp at hf; omega)
    refine ⟨s2, A2, B2, ?_, h6, h7, ?_, h9.trans h4⟩
    · simp [splayLoop, State.load, hxn, hxp, hpar, hpn, hgpar, h0, h1, h5]
    · rw [h8]; simp [nodes_plug]
  | .R C p kp :: .L g kg D :: c, s, A, B, x, k, par, fuel, hc, ht, hnd, hf => by
    obtain ⟨xn, hxn, hxp, -⟩ := Rep_root_node ht
    obtain ⟨pn, hpn, -, hpar, -, hc2, ht2⟩ := RepCtx_R_up hc ht
    obtain ⟨gn, hgn, -, hgpar, -, -, -⟩ := RepCtx_L_up hc2 ht2
    obtain ⟨s1, par1, h0, h1, h2, h3, h4⟩ := zigZag_LR s c A B C D x p g k kp kg par hc ht hnd
    obtain ⟨fuel, rfl⟩ : ∃ n, fuel = n + 1 := ⟨fuel - 1, by omega⟩
    have hnd2 : (plug c (.node (.node C p kp A) x k (.node B g kg D))).addrs.Nodup := by
      have := addrs_plug_congr c
        (t := .node (.node C p kp A) x k (.node B g kg D))
        (u := .node (.node C p kp (.node A x k B)) g kg D) (by simp)
      rw [this]; exact hnd
    obtain ⟨s2, A2, B2, h5, h6, h7, h8, h9⟩ :=
      splayLoop_spec c s1 (.node C p kp A) (.node B g kg D) x k par1 fuel h2 h3 hnd2
        (by simp at hf; omega)
    refine ⟨s2, A2, B2, ?_, h6, h7, ?_, h9.trans h4⟩
    · simp [splayLoop, State.load, hxn, hxp, hpar, hpn, hgpar, h0, h1, h5]
    · rw [h8]; simp [nodes_plug]
  | .L p kp C :: .R D g kg :: c, s, A, B, x, k, par, fuel, hc, ht, hnd, hf => by
    obtain ⟨xn, hxn, hxp, -⟩ := Rep_root_node ht
    obtain ⟨pn, hpn, -, hpar, -, hc2, ht2⟩ := RepCtx_L_up hc ht
    obtain ⟨gn, hgn, -, hgpar, -, -, -⟩ := RepCtx_R_up hc2 ht2
    obtain ⟨s1, par1, h0, h1, h2, h3, h4⟩ := zigZag_RL s c A B C D x p g k kp kg par hc ht hnd
    obtain ⟨fuel, rfl⟩ : ∃ n, fuel = n + 1 := ⟨fuel - 1, by omega⟩
    have hnd2 : (plug c (.node (.node D g kg A) x k (.node B p kp C))).addrs.Nodup := by
      have := addrs_plug_congr c
        (t := .node (.node D g kg A) x k (.node B p kp C))
        (u := .node D g kg (.node (.node A x k B) p kp C)) (by simp)
      rw [this]; exact hnd
    obtain ⟨s2, A2, B2, h5, h6, h7, h8, h9⟩ :=
      splayLoop_spec c s1 (.node D g kg A) (.node B p kp C) x k par1 fuel h2 h3 hnd2
        (by simp at hf; omega)
    refine ⟨s2, A2, B2, ?_, h6, h7, ?_, h9.trans h4⟩
    · simp [splayLoop, State.load, hxn, hxp, hpar, hpn, hgpar, h0, h1, h5]
    · rw [h8]; simp [nodes_plug]

/-! ## Search paths -/

theorem Ctx.before_append (c d : Ctx) : Ctx.before (c ++ d) = Ctx.before d ++ Ctx.before c := by
  induction c with
  | nil => simp
  | cons f c ih => simp [Ctx.before, ih]

theorem Ctx.after_append (c d : Ctx) : Ctx.after (c ++ d) = Ctx.after c ++ Ctx.after d := by
  induction c with
  | nil => simp
  | cons f c ih => simp [Ctx.after, ih]

theorem size_plug (c : Ctx) (t : T) : c.length + t.size ≤ (plug c t).size := by
  induction c generalizing t with
  | nil => simp
  | cons f c ih =>
    have := ih (f.fill t)
    cases f <;> simp at this ⊢ <;> omega

/-- A node that occurs in a shape splits it into a context and a subtree. -/
theorem exists_plug_of_mem {t : T} {x : Addr} (hx : x ∈ t.addrs) :
    ∃ c A k B, t = plug c (.node A x k B) := by
  induction t with
  | leaf => simp at hx
  | node l a k r ihl ihr =>
    simp only [T.addrs_node, List.mem_append, List.mem_cons] at hx
    rcases hx with h | h | h
    · obtain ⟨c, A, k2, B, e⟩ := ihl h
      exact ⟨c ++ [.L a k r], A, k2, B, by simp [plug_append, e]⟩
    · subst h
      exact ⟨[], l, k, r, rfl⟩
    · obtain ⟨c, A, k2, B, e⟩ := ihr h
      exact ⟨c ++ [.R l a k], A, k2, B, by simp [plug_append, e]⟩

theorem descend_plug (key : Int) (t : T) : plug (descend key t).1 (descend key t).2 = t := by
  induction t with
  | leaf => rfl
  | node l a k r ihl ihr =>
    unfold descend
    split_ifs with h1 h2
    · rfl
    · simp [plug_append, ihl]
    · simp [plug_append, ihr]

theorem descend_target (key : Int) (t : T) :
    (descend key t).2 = .leaf ∨ ∃ l a r, (descend key t).2 = .node l a key r := by
  induction t with
  | leaf => left; rfl
  | node l a k r ihl ihr =>
    unfold descend
    split_ifs with h1 h2
    · right; exact ⟨l, a, r, by simp [h1]⟩
    · simpa using ihl
    · simpa using ihr

theorem descend_length (key : Int) (t : T) :
    (descend key t).1.length + (descend key t).2.size ≤ t.size := by
  have := size_plug (descend key t).1 (descend key t).2
  rwa [descend_plug] at this

theorem descendPrev_eq (key : Int) (t : T) (prev : Ptr) :
    descendPrev key t prev =
      match (descend key t).1 with
      | [] => prev
      | f :: _ => some f.addr := by
  induction t generalizing prev with
  | leaf => rfl
  | node l a k r ihl ihr =>
    unfold descend descendPrev
    split_ifs with h1 h2
    · rfl
    · rw [ihl]
      cases (descend key l).1 <;> simp [Frame.addr]
    · rw [ihr]
      cases (descend key r).1 <;> simp [Frame.addr]

/-- In a search path every frame entered to the left holds a larger key and
every frame entered to the right a smaller one. -/
theorem descend_frames (key : Int) (t : T) :
    ∀ f ∈ (descend key t).1,
      (∃ a k r, f = .L a k r ∧ key < k) ∨ (∃ l a k, f = .R l a k ∧ k < key) := by
  induction t with
  | leaf => simp [descend]
  | node l a k r ihl ihr =>
    unfold descend
    split_ifs with h1 h2
    · simp
    · intro f hf
      simp only [List.mem_append, List.mem_singleton] at hf
      rcases hf with hf | hf
      · exact ihl f hf
      · left; exact ⟨a, k, r, hf, h2⟩
    · intro f hf
      simp only [List.mem_append, List.mem_singleton] at hf
      rcases hf with hf | hf
      · exact ihr f hf
      · right; exact ⟨l, a, k, hf, by omega⟩

/-- In a search tree the keys before the place where the search stops are
smaller than the key searched and the keys after it are larger. -/
theorem descend_bounds (key : Int) (t : T) (hs : t.keys.Sorted (· < ·)) :
    (∀ k ∈ (Ctx.before (descend key t).1).map Prod.snd, k < key) ∧
    (∀ k ∈ (Ctx.after (descend key t).1).map Prod.snd, key < k) := by
  induction t with
  | leaf => simp [descend]
  | node l a k r ihl ihr =>
    simp only [T.keys_node] at hs
    have hs2 := hs
    simp only [List.Sorted, List.pairwise_append, List.pairwise_cons] at hs2
    obtain ⟨hl, ⟨hkr, hr⟩, hlr⟩ := hs2
    unfold descend
    split_ifs with h1 h2
    · simp
    · obtain ⟨ih1, ih2⟩ := ihl hl
      refine ⟨by simpa [Ctx.before_append] using ih1, ?_⟩
      intro k2 hk2
      simp only [Ctx.after_append, Ctx.after_L, Ctx.after_nil, List.append_nil, List.map_append,
        List.map_cons, List.mem_append, List.mem_cons] at hk2
      rcases hk2 with h | h | h
      · exact ih2 k2 h
      · omega
      · have := hkr k2 (by simpa [T.keys] using h); omega
    · obtain ⟨ih1, ih2⟩ := ihr hr
      refine ⟨?_, by simpa [Ctx.after_append] using ih2⟩
      intro k2 hk2
      simp only [Ctx.before_append, Ctx.before_R, Ctx.before_nil, List.nil_append,
        List.map_append, List.map_cons, List.map_nil, List.mem_append, List.mem_cons,
        List.mem_singleton, List.not_mem_nil, or_false] at hk2
      rcases hk2 with (h | h) | h
      · have := hlr k2 (by simpa [T.keys] using h) k (by simp); omega
      · omega
      · exact ih1 k2 h

/-- In a search tree the search finds a node exactly when the key is stored. -/
theorem descend_leaf_iff (key : Int) (t : T) (hs : t.keys.Sorted (· < ·)) :
    (descend key t).2 = .leaf ↔ key ∉ t.keys := by
  obtain ⟨hb, ha⟩ := descend_bounds key t hs
  have hk : t.keys = (Ctx.before (descend key t).1).map Prod.snd ++ (descend key t).2.keys ++
      (Ctx.after (descend key t).1).map Prod.snd := by
    conv_lhs => rw [← descend_plug key t]
    exact keys_plug _ _
  constructor
  · intro h hmem
    rw [hk, h] at hmem
    simp only [T.keys_leaf, List.append_nil, List.mem_append] at hmem
    rcases hmem with h | h
    · exact lt_irrefl _ (hb _ h)
    · exact lt_irrefl _ (ha _ h)
  · intro h
    rcases descend_target key t with h2 | ⟨l, a, r, h2⟩
    · exact h2
    · exfalso; apply h; rw [hk, h2]; simp

/-! ## `findNode` -/

theorem findNode_spec (key : Int) (s : State) : ∀ (t : T) (cur par prev : Ptr) (fuel : Nat),
    Rep s.heap cur par t → t.size < fuel →
    findNode fuel s cur prev key = some ((descend key t).2.ptr, descendPrev key t prev) := by
  intro t
  induction t with
  | leaf =>
    intro cur par prev fuel hr hf
    obtain ⟨fuel, rfl⟩ : ∃ n, fuel = n + 1 := ⟨fuel - 1, by omega⟩
    simp only [Rep_leaf] at hr
    subst hr
    simp [findNode, descend, descendPrev]
  | node l a k r ihl ihr =>
    intro cur par prev fuel hr hf
    obtain ⟨fuel, rfl⟩ : ∃ n, fuel = n + 1 := ⟨fuel - 1, by omega⟩
    rw [Rep_node] at hr
    obtain ⟨hcur, n, hn, hk, hp, hl, hrr⟩ := hr
    subst hcur
    simp only [T.size_node] at hf
    unfold descend descendPrev
    simp only [findNode, hn, hk]
    split_ifs with h1 h2
    · rfl
    · exact ihl _ _ _ _ hl (by omega)
    · exact ihr _ _ _ _ hrr (by omega)

/-! ## `splay` and `findKey` -/

theorem WF.root_eq {s : State} {t : T} (h : WF s t) : s.root = t.ptr := h.1.ptr_eq

theorem T.addrs_eq_of_nodes {t u : T} (h : t.nodes = u.nodes) : t.addrs = u.addrs := by
  simp [T.addrs, h]

theorem T.keys_eq_of_nodes {t u : T} (h : t.nodes = u.nodes) : t.keys = u.keys := by
  simp [T.keys, h]

theorem T.size_eq_of_nodes {t u : T} (h : t.nodes = u.nodes) : t.size = u.size := by
  simp [T.size, h]

/-- Splaying a node of a well-formed tree: the node becomes the root, the
in-order node list is unchanged. -/
theorem splay_spec (s : State) (c : Ctx) (A B : T) (x : Addr) (k : Int) (fuel : Nat)
    (hwf : WF s (plug c (.node A x k B))) (hf : c.length < fuel) :
    ∃ s2 A2 B2, splay fuel s (some x) = some (s2, some x) ∧
      WF s2 (.node A2 x k B2) ∧
      (T.node A2 x k B2).nodes = (plug c (.node A x k B)).nodes ∧
      s2.next = s.next := by
  obtain ⟨hrep, hnd, hlt⟩ := hwf
  rw [Rep_plug] at hrep
  obtain ⟨par, hc, ht⟩ := hrep
  obtain ⟨s2, A2, B2, h1, h2, h3, h4, h5⟩ :=
    splayLoop_spec c s A B x k par fuel hc ht hnd hf
  refine ⟨s2, A2, B2, by simp [splay, h1], ⟨?_, ?_, ?_⟩, h4, h5⟩
  · rw [h2]; exact h3
  · rw [T.addrs_eq_of_nodes h4]; exact hnd
  · rw [T.addrs_eq_of_nodes h4, h5]; exact hlt

/-- The node `findKey` and `removeKey` splay on a search for `key`: the node
found, or else the last node visited. -/
theorem findKey_spec (s : State) (t : T) (key : Int) (fuel : Nat)
    (hwf : WF s t) (hf : t.size < fuel) :
    ∃ s2 t2, findKey fuel s key = some (s2, (descend key t).2.ptr) ∧
      WF s2 t2 ∧ t2.nodes = t.nodes ∧ s2.next = s.next ∧
      s2.root = (match (descend key t).2.ptr with
                 | some a => some a
                 | none => descendPrev key t none) ∧
      (∀ l a r, (descend key t).2 = .node l a key r → ∃ A2 B2, t2 = .node A2 a key B2) ∧
      (∀ f c, (descend key t).1 = f :: c → (descend key t).2 = .leaf →
        ∃ A2 B2, t2 = .node A2 f.addr f.key B2) := by
  have hfind := findNode_spec key s t s.root none none fuel hwf.1 hf
  have hplug := descend_plug key t
  have hlen := descend_length key t
  rcases descend_target key t with hu | ⟨l, a, r, hu⟩
  · rw [hu] at hplug
    rw [descendPrev_eq] at hfind ⊢
    rw [hu]
    cases hd : (descend key t).1 with
    | nil =>
      rw [hd] at hplug hfind
      simp only [plug_nil] at hplug
      subst hplug
      refine ⟨s, .leaf, ?_, hwf, rfl, rfl, ?_, ?_, ?_⟩
      · simp [findKey, hfind, hu]
      · simpa using hwf.root_eq
      · intro l a r e; simp at e
      · intro f c e; simp at e
    | cons f c =>
      rw [hd] at hplug hfind hlen
      obtain ⟨s2, A2, B2, h1, h2, h3, h4⟩ : ∃ s2 A2 B2,
          splay fuel s (some f.addr) = some (s2, some f.addr) ∧
          WF s2 (.node A2 f.addr f.key B2) ∧
          (T.node A2 f.addr f.key B2).nodes = t.nodes ∧ s2.next = s.next := by
        cases f with
        | L a k r =>
          simp only [plug_cons, Frame.fill_L] at hplug
          have := splay_spec s c .leaf r a k fuel (by rw [hplug]; exact hwf)
            (by simp at hlen; omega)
          rw [hplug] at this
          exact this
        | R l a k =>
          simp only [plug_cons, Frame.fill_R] at hplug
          have := splay_spec s c l .leaf a k fuel (by rw [hplug]; exact hwf)
            (by simp at hlen; omega)
          rw [hplug] at this
          exact this
      refine ⟨s2, _, ?_, h2, h3, h4, ?_, ?_, ?_⟩
      · simp [findKey, hfind, hu, h1]
      · simpa using h2.root_eq
      · intro l a r e; simp at e
      · intro f2 c2 e _
        simp only [List.cons.injEq] at e
        obtain ⟨rfl, -⟩ := e
        exact ⟨A2, B2, rfl⟩
  · rw [hu] at hplug hfind hlen ⊢
    obtain ⟨s2, A2, B2, h1, h2, h3, h4⟩ :=
      splay_spec s (descend key t).1 l r a key fuel (by rw [hplug]; exact hwf)
        (by simp at hlen; omega)
    refine ⟨s2, _, ?_, h2, by rw [h3, hplug], h4, ?_, ?_, ?_⟩
    · simp [findKey, hfind, h1]
    · simpa using h2.root_eq
    · intro l2 a2 r2 e
      simp only [T.node.injEq] at e
      obtain ⟨-, rfl, -, -⟩ := e
      exact ⟨A2, B2, rfl⟩
    · intro f c _ e; simp at e

/-! ## `addNode` and `insertKey` -/

theorem addNode_spec (key : Int) : ∀ (t : T) (s : State) (c : Ctx) (cur par : Ptr) (fuel : Nat),
    t ≠ .leaf →
    RepCtx s.heap s.root c cur par → Rep s.heap cur par t →
    (plug c t).addrs.Nodup → (∀ a ∈ (plug c t).addrs, a < s.next) → t.size ≤ fuel →
    (∀ l a r, (descend key t).2 = .node l a key r → addNode fuel s cur key = some (s, some a)) ∧
    ((descend key t).2 = .leaf →
      ∃ s2 par2, addNode fuel s cur key = some (s2, some s.next) ∧ s2.next = s.next + 1 ∧
        RepCtx s2.heap s2.root ((descend key t).1 ++ c) (some s.next) par2 ∧
        Rep s2.heap (some s.next) par2 (.node .leaf s.next key .leaf)) := by
  intro t
  induction t with
  | leaf => intro s c cur par fuel h; exact absurd rfl h
  | node l a k r ihl ihr =>
    intro s c cur par fuel _ hc ht hnd hlt hf
    obtain ⟨fuel, rfl⟩ : ∃ n, fuel = n + 1 := ⟨fuel - 1, by simp at hf; omega⟩
    have ht0 := ht
    rw [Rep_node] at ht
    obtain ⟨hcur, n, hn, hk, hp, hl, hr⟩ := ht
    subst hcur
    simp only [T.size_node] at hf
    have hlt2 : ∀ b, b ∈ T.addrs (.node l a k r) ∨ b ∈ Ctx.addrs c → b < s.next := by
      intro b hb; exact hlt b ((mem_addrs_plug _ _ _).2 hb)
    have hnd2 := (nodup_plug _ _).1 hnd
    unfold descend
    split_ifs with h1 h2
    · constructor
      · intro l2 a2 r2 e
        simp only [T.node.injEq] at e
        obtain ⟨-, rfl, -, -⟩ := e
        simp [addNode, State.load, hn, hk, h1]
      · intro e; simp at e
    · -- descend to the left
      cases l with
      | leaf =>
        simp only [Rep_leaf] at hl
        constructor
        · intro l2 a2 r2 e; simp [descend] at e
        · intro _
          have ha : a ≠ s.next := by
            exact Nat.ne_of_lt (hlt2 a (by simp))
          have hnr : s.next ∉ r.addrs := by
            intro hm; exact absurd (hlt2 s.next (by simp [hm])) (Nat.lt_irrefl _)
          have hnc : s.next ∉ Ctx.addrs c := by
            intro hm; exact absurd (hlt2 s.next (by simp [hm])) (Nat.lt_irrefl _)
          simp [List.nodup_append, List.nodup_cons] at hnd2
          simp [addNode, State.load, State.store, makeNode, hn, hk, h1, h2, hl, ha, ha.symm,
            Function.update_noteq, descend, RepCtx_L, Rep_node, Rep_update, RepCtx_update,
            hnd2, hnr, hnc, hr, hp, hc]
      | node ll la lk lr =>
        have hl0 := hl
        rw [Rep_node] at hl
        obtain ⟨hnl, -⟩ := hl
        have hc2 : RepCtx s.heap s.root (.L a k r :: c) n.left (some a) := by
          rw [RepCtx_L]; exact ⟨rfl, n, hn, hk, rfl, hr, hp ▸ hc⟩
        obtain ⟨ih1, ih2⟩ := ihl s (.L a k r :: c) n.left (some a) fuel (by simp) hc2 hl0
          hnd hlt (by simp at hf ⊢; omega)
        constructor
        · intro l2 a2 r2 e
          simp only at e
          rw [← ih1 l2 a2 r2 e]
          simp [addNode, State.load, hn, hk, h1, h2, hnl]
        · intro e
          simp only at e
          obtain ⟨s2, par2, h3, h4, h5, h6⟩ := ih2 e
          refine ⟨s2, par2, ?_, h4, by simpa using h5, h6⟩
          rw [← h3]
          simp [addNode, State.load, hn, hk, h1, h2, hnl]
    · -- descend to the right
      cases r with
      | leaf =>
        simp only [Rep_leaf] at hr
        constructor
        · intro l2 a2 r2 e; simp [descend] at e
        · intro _
          have ha : a ≠ s.next := by
            exact Nat.ne_of_lt (hlt2 a (by simp))
          have hnr : s.next ∉ l.addrs := by
            intro hm; exact absurd (hlt2 s.next (by simp [hm])) (Nat.lt_irrefl _)
          have hnc : s.next ∉ Ctx.addrs c := by
            intro hm; exact absurd (hlt2 s.next (by simp [hm])) (Nat.lt_irrefl _)
          simp [List.nodup_append, List.nodup_cons] at hnd2
          simp [addNode, State.load, State.store, makeNode, hn, hk, h1, h2, hr, ha, ha.symm,
            Function.update_noteq, descend, RepCtx_R, Rep_node, Rep_update, RepCtx_update,
            hnd2, hnr, hnc, hl, hp, hc]
      | node rl ra rk rr =>
        have hr0 := hr
        rw [Rep_node] at hr
        obtain ⟨hnr, -⟩ := hr
        have hc2 : RepCtx s.heap s.root (.R l a k :: c) n.right (some a) := by
          rw [RepCtx_R]; exact ⟨rfl, n, hn, hk, rfl, hl, hp ▸ hc⟩
        obtain ⟨ih1, ih2⟩ := ihr s (.R l a k :: c) n.right (some a) fuel (by simp) hc2 hr0
          hnd hlt (by simp at hf ⊢; omega)
        constructor
        · intro l2 a2 r2 e
          simp only at e
          rw [← ih1 l2 a2 r2 e]
          simp [addNode, State.load, hn, hk, h1, h2, hnr]
        · intro e
          simp only at e
          obtain ⟨s2, par2, h3, h4, h5, h6⟩ := ih2 e
          refine ⟨s2, par2, ?_, h4, by simpa using h5, h6⟩
          rw [← h3]
          simp [addNode, State.load, hn, hk, h1, h2, hnr]

/-- Effect of `insertKey` on a well-formed tree, in terms of the search path
for `key`: a stored key is splayed to the root, a new key gets a fresh node at
the place where the search falls off the tree, which is then splayed. -/
theorem insertKey_spec (s : State) (t : T) (key : Int) (fuel : Nat)
    (hwf : WF s t) (hf : t.size < fuel) :
    ∃ s2 A2 B2 x, insertKey fuel s key = some (s2, some x) ∧ WF s2 (.node A2 x key B2) ∧
      ((descend key t).2.ptr = some x ∧ (T.node A2 x key B2).nodes = t.nodes ∧
          s2.next = s.next ∨
       (descend key t).2 = .leaf ∧ x = s.next ∧ s2.next = s.next + 1 ∧
          t.nodes = Ctx.before (descend key t).1 ++ Ctx.after (descend key t).1 ∧
          (T.node A2 x key B2).nodes =
            Ctx.before (descend key t).1 ++ (s.next, key) :: Ctx.after (descend key t).1) := by
  obtain ⟨hrep, hnd, hlt⟩ := hwf
  cases t with
  | leaf =>
    simp only [Rep_leaf] at hrep
    obtain ⟨fuel, rfl⟩ : ∃ n, fuel = n + 1 := ⟨fuel - 1, by omega⟩
    refine ⟨{ heap := Function.update s.heap s.next
                (some { key := key, size := 1, left := none, right := none, parent := none })
              next := s.next + 1
              root := some s.next }, .leaf, .leaf, s.next, ?_, ⟨?_, ?_, ?_⟩, ?_⟩
    · simp [insertKey, hrep, makeNode, addNode, State.load, splay, splayLoop]
    · simp [Rep_node]
    · simp
    · simp
    · right; simp [descend]
  | node l a k r =>
    have hroot : s.root = some a := hrep.ptr_eq
    have hc0 : RepCtx s.heap s.root [] s.root none := by simp [RepCtx_nil]
    obtain ⟨h1, h2⟩ := addNode_spec key (.node l a k r) s [] s.root none fuel (by simp) hc0 hrep
      hnd hlt (by omega)
    have hplug := descend_plug key (.node l a k r)
    have hlen := descend_length key (.node l a k r)
    rcases descend_target key (.node l a k r) with hu | ⟨l2, a2, r2, hu⟩
    · obtain ⟨s2, par2, h3, h4, h5, h6⟩ := h2 hu
      rw [hu] at hplug hlen
      have hnodes : (T.node l a k r).nodes = Ctx.before (descend key (.node l a k r)).1 ++
          Ctx.after (descend key (.node l a k r)).1 := by
        conv_lhs => rw [← hplug]
        simp [nodes_plug]
      have hwf2 : WF s2 (plug (descend key (.node l a k r)).1 (.node .leaf s.next key .leaf)) := by
        refine ⟨?_, ?_, ?_⟩
        · rw [Rep_plug]
          simp only [List.append_nil] at h5
          exact ⟨par2, h5, h6⟩
        · have hn : s.next ∉ (T.node l a k r).addrs := fun hm =>
            absurd (hlt _ hm) (Nat.lt_irrefl _)
          rw [T.addrs, hnodes] at hnd hn
          simp only [T.addrs, nodes_plug, T.nodes_node, T.nodes_leaf, List.nil_append,
            List.append_assoc, List.singleton_append, List.map_append, List.map_cons]
          rw [List.nodup_middle, List.nodup_cons]
          simp only [List.map_append] at hnd hn
          exact ⟨hn, hnd⟩
        · intro b hb
          rw [h4]
          simp only [T.addrs, nodes_plug, T.nodes_node, T.nodes_leaf, List.nil_append,
            List.append_assoc, List.singleton_append, List.map_append, List.map_cons,
            List.mem_append, List.mem_cons] at hb
          have : b = s.next ∨ b ∈ (T.node l a k r).addrs := by
            rw [T.addrs, hnodes]
            simp only [List.map_append, List.mem_append]
            tauto
          rcases this with h | h
          · rw [h]; exact Nat.lt_succ_self _
          · exact Nat.lt_succ_of_lt (hlt b h)
      obtain ⟨s3, A3, B3, h7, h8, h9, h10⟩ :=
        splay_spec s2 _ .leaf .leaf s.next key fuel hwf2 (by omega)
      refine ⟨s3, A3, B3, s.next, ?_, h8, Or.inr ⟨hu, rfl, h10.trans h4, hnodes, ?_⟩⟩
      · rw [hroot] at h3
        simp [insertKey, hroot, h3, h7]
      · rw [h9]; simp [nodes_plug]
    · have h3 := h1 l2 a2 r2 hu
      rw [hu] at hplug hlen
      obtain ⟨s3, A3, B3, h7, h8, h9, h10⟩ :=
        splay_spec s _ l2 r2 a2 key fuel (by rw [hplug]; exact ⟨hrep, hnd, hlt⟩)
          (by simp only [T.size_node] at hlen hf; omega)
      refine ⟨s3, A3, B3, a2, ?_, h8, Or.inl ⟨by rw [hu]; rfl, by rw [h9, hplug], h10⟩⟩
      rw [hroot] at h3
      simp [insertKey, hroot, h3, h7]

/-! ## `removeNode` -/

theorem State.free_some {s : State} {a : Addr} {n : Node} (h : s.heap a = some n) :
    s.free (some a) = some { s with heap := Function.update s.heap a none } := by
  simp [State.free, h]

set_option maxHeartbeats 2000000 in
/-- Unlinking a node that has at most one child: its child subtree `Ch` takes
its place. -/
theorem removeNodeOne_spec (s : State) (c : Ctx) (A B Ch : T) (x : Addr) (k : Int) (par : Ptr)
    (n : Node) (hn : s.heap x = some n)
    (hc : RepCtx s.heap s.root c (some x) par)
    (ht : Rep s.heap (some x) par (.node A x k B))
    (hnd : (plug c (.node A x k B)).addrs.Nodup)
    (hch : A = .leaf ∧ Ch = B ∨ B = .leaf ∧ Ch = A) :
    ∃ s2, removeNodeOne s (some x) n = some (s2, par) ∧
      RepCtx s2.heap s2.root c Ch.ptr par ∧ Rep s2.heap Ch.ptr par Ch ∧
      s2.next = s.next := by
  rw [Rep_node] at ht
  obtain ⟨-, n2, hn2, hk, hp, hA, hB⟩ := ht
  rw [hn] at hn2
  obtain rfl : n = n2 := by simpa using hn2
  rw [nodup_plug] at hnd
  have hsel : (if n.left.isSome then n.left else n.right) = Ch.ptr := by
    rcases hch with ⟨h1, h2⟩ | ⟨h1, h2⟩
    · subst h1 h2
      simp only [Rep_leaf] at hA
      simp [hA, hB.ptr_eq]
    · subst h1 h2
      simp only [Rep_leaf] at hB
      rw [hA.ptr_eq, hB]
      cases Ch <;> simp
  have hCh : Rep s.heap Ch.ptr (some x) Ch := by
    rcases hch with ⟨h1, h2⟩ | ⟨h1, h2⟩
    · subst h2; rw [← hB.ptr_eq]; exact hB
    · subst h2; rw [← hA.ptr_eq]; exact hA
  have hnd2 : (Ch.addrs ++ x :: Ctx.addrs c).Nodup := by
    rcases hch with ⟨h1, h2⟩ | ⟨h1, h2⟩
    · subst h1 h2
      simp [List.nodup_append, List.nodup_cons] at hnd ⊢
      tauto
    · subst h1 h2
      simp [List.nodup_append, List.nodup_cons] at hnd ⊢
      tauto
  clear hch hnd hA hB
  unfold removeNodeOne
  simp only [hsel]
  cases Ch with
  | leaf =>
    cases c with
    | nil =>
      simp only [RepCtx_nil] at hc
      obtain ⟨hroot, hpar⟩ := hc
      subst hpar
      simp [State.free, hn, hp, RepCtx_nil]
    | cons f c =>
      cases f with
      | L g kg D =>
        simp only [RepCtx_L] at hc
        obtain ⟨hpar, gn, hgn, hgk, hgl, hD, hc⟩ := hc
        subst hpar
        have hgx : g ≠ x := by
          intro e; subst e; simp [List.nodup_append, List.nodup_cons] at hnd2
        simp [List.nodup_append, List.nodup_cons] at hnd2
        simp [State.load, State.store, State.free, hn, hp, hgn, hgl, hgx, hgx.symm,
          Function.update_noteq, RepCtx_L, Rep_update, RepCtx_update, hnd2, hD, hc, hgk]
      | R D g kg =>
        simp only [RepCtx_R] at hc
        obtain ⟨hpar, gn, hgn, hgk, hgl, hD, hc⟩ := hc
        subst hpar
        have hgx : g ≠ x := by
          intro e; subst e; simp [List.nodup_append, List.nodup_cons] at hnd2
        simp [List.nodup_append, List.nodup_cons] at hnd2
        have hDx : gn.left ≠ some x := by
          rw [hD.ptr_eq]; exact T.ptr_ne (by simp [hnd2])
        simp [State.load, State.store, State.free, hn, hp, hgn, hgl, hgx, hgx.symm, hDx,
          Function.update_noteq, RepCtx_R, Rep_update, RepCtx_update, hnd2, hD, hc, hgk]
  | node Cl b kb Cr =>
    simp only [Rep_node] at hCh
    obtain ⟨-, bn, hbn, hbk, hbp, hCl, hCr⟩ := hCh
    have hbx : b ≠ x := by
      intro e; subst e; simp [List.nodup_append, List.nodup_cons] at hnd2
    cases c with
    | nil =>
      simp only [RepCtx_nil] at hc
      obtain ⟨hroot, hpar⟩ := hc
      subst hpar
      simp [List.nodup_append, List.nodup_cons] at hnd2
      simp [State.load, State.store, State.free, hn, hp, hbn, hbx, hbx.symm,
        Function.update_noteq, RepCtx_nil, Rep_node, Rep_update, hnd2, hCl, hCr, hbk]
    | cons f c =>
      cases f with
      | L g kg D =>
        simp only [RepCtx_L] at hc
        obtain ⟨hpar, gn, hgn, hgk, hgl, hD, hc⟩ := hc
        subst hpar
        have hgx : g ≠ x := by
          intro e; subst e; simp [List.nodup_append, List.nodup_cons] at hnd2
        have hgb : g ≠ b := by
          intro e; subst e; simp [List.nodup_append, List.nodup_cons] at hnd2
        simp [List.nodup_append, List.nodup_cons] at hnd2
        simp [State.load, State.store, State.free, hn, hp, hgn, hgl, hgx, hgx.symm,
          hbn, hbx, hbx.symm, hgb, hgb.symm, Rep_node, hCl, hCr, hbk,
          Function.update_noteq, RepCtx_L, Rep_update, RepCtx_update, hnd2, hD, hc, hgk]
      | R D g kg =>
        simp only [RepCtx_R] at hc
        obtain ⟨hpar, gn, hgn, hgk, hgl, hD, hc⟩ := hc
        subst hpar
        have hgx : g ≠ x := by
          intro e; subst e; simp [List.nodup_append, List.nodup_cons] at hnd2
        have hgb : g ≠ b := by
          intro e; subst e; simp [List.nodup_append, List.nodup_cons] at hnd2
        simp [List.nodup_append, List.nodup_cons] at hnd2
        have hDx : gn.left ≠ some x := by
          rw [hD.ptr_eq]; exact T.ptr_ne (by simp [hnd2])
        simp [State.load, State.store, State.free, hn, hp, hgn, hgl, hgx, hgx.symm, hDx,
          hbn, hbx, hbx.symm, hgb, hgb.symm, Rep_node, hCl, hCr, hbk,
          Function.update_noteq, RepCtx_R, Rep_update, RepCtx_update, hnd2, hD, hc, hgk]

@[simp] theorem Frame.addr_setKey (F : Frame) (k2 : Int) : (F.setKey k2).addr = F.addr := by
  cases F <;> rfl

theorem Ctx.addrs_setKey (e : Ctx) (F : Frame) (c : Ctx) (k2 : Int) :
    Ctx.addrs (e ++ F.setKey k2 :: c) = Ctx.addrs (e ++ F :: c) := by
  rw [Ctx.addrs_append, Ctx.addrs_append]
  cases F <;> simp [Frame.setKey]

theorem Ctx.addr_mem (e : Ctx) (F : Frame) (c : Ctx) : F.addr ∈ Ctx.addrs (e ++ F :: c) := by
  rw [Ctx.addrs_append]
  cases F <;> simp [Frame.addr]

/-- Overwriting the key of a node on the path changes that frame only. -/
theorem RepCtx_setKey (h : Heap) (root : Ptr) (F : Frame) (c : Ctx) (n : Node) (k2 : Int)
    (hn : h F.addr = some n) :
    ∀ (e : Ctx) (q par : Ptr), RepCtx h root (e ++ F :: c) q par →
      (Ctx.addrs (e ++ F :: c)).Nodup →
      RepCtx (Function.update h F.addr (some { n with key := k2 })) root
        (e ++ F.setKey k2 :: c) q par := by
  intro e
  induction e with
  | nil =>
    intro q par hc hnd
    cases F with
    | L a k r =>
      simp only [List.nil_append, RepCtx_L, Frame.addr, Frame.setKey] at hc hn ⊢
      obtain ⟨hp, n2, hn2, hk, hl, hr, hc⟩ := hc
      rw [hn] at hn2
      obtain rfl : n = n2 := by simpa using hn2
      simp [List.nodup_append, List.nodup_cons] at hnd
      simp [hp, hl, Rep_update, RepCtx_update, hnd, hr, hc]
    | R l a k =>
      simp only [List.nil_append, RepCtx_R, Frame.addr, Frame.setKey] at hc hn ⊢
      obtain ⟨hp, n2, hn2, hk, hl, hr, hc⟩ := hc
      rw [hn] at hn2
      obtain rfl : n = n2 := by simpa using hn2
      simp [List.nodup_append, List.nodup_cons] at hnd
      simp [hp, hl, Rep_update, RepCtx_update, hnd, hr, hc]
  | cons f e ih =>
    intro q par hc hnd
    have hin := Ctx.addr_mem e F c
    cases f with
    | L b kb rb =>
      simp only [List.cons_append, RepCtx_L, Ctx.addrs_L] at hc hnd ⊢
      obtain ⟨hp, bn, hbn, hk, hl, hr, hc⟩ := hc
      simp only [List.nodup_append, List.nodup_cons, List.mem_append, not_or] at hnd
      obtain ⟨⟨hb1, hb2⟩, hrb, hrest, hdis⟩ := hnd
      have hne : b ≠ F.addr := fun e2 => hb2 (e2 ▸ hin)
      have hnr : F.addr ∉ rb.addrs := fun hm => hdis hm hin
      refine ⟨hp, bn, ?_, hk, hl, (Rep_update hnr).2 hr, ih _ _ hc hrest⟩
      simp [Function.update_noteq hne, hbn]
    | R lb b kb =>
      simp only [List.cons_append, RepCtx_R, Ctx.addrs_R] at hc hnd ⊢
      obtain ⟨hp, bn, hbn, hk, hl, hr, hc⟩ := hc
      simp only [List.nodup_append, List.nodup_cons, List.mem_append, not_or] at hnd
      obtain ⟨⟨hb1, hb2⟩, hrb, hrest, hdis⟩ := hnd
      have hne : b ≠ F.addr := fun e2 => hb2 (e2 ▸ hin)
      have hnr : F.addr ∉ lb.addrs := fun hm => hdis hm hin
      refine ⟨hp, bn, ?_, hk, hl, (Rep_update hnr).2 hr, ih _ _ hc hrest⟩
      simp [Function.update_noteq hne, hbn]

theorem RepCtx_frame_alloc (h : Heap) (root : Ptr) (F : Frame) (c : Ctx) :
    ∀ (e : Ctx) (q par : Ptr), RepCtx h root (e ++ F :: c) q par → ∃ n, h F.addr = some n := by
  intro e
  induction e with
  | nil =>
    intro q par hc
    cases F with
    | L a k r =>
      simp only [List.nil_append, RepCtx_L] at hc
      obtain ⟨-, n, hn, -⟩ := hc
      exact ⟨n, hn⟩
    | R l a k =>
      simp only [List.nil_append, RepCtx_R] at hc
      obtain ⟨-, n, hn, -⟩ := hc
      exact ⟨n, hn⟩
  | cons f e ih =>
    intro q par hc
    cases f with
    | L a k r =>
      simp only [List.cons_append, RepCtx_L] at hc
      obtain ⟨-, n, -, -, -, -, hc⟩ := hc
      exact ih _ _ hc
    | R l a k =>
      simp only [List.cons_append, RepCtx_R] at hc
      obtain ⟨-, n, -, -, -, -, hc⟩ := hc
      exact ih _ _ hc

set_option maxHeartbeats 2000000 in
/-- The two-children branch when `higherClosest` is a child of `node` itself. -/
theorem removeNodeTwo_spec_nil (s : State) (F : Frame) (c : Ctx)
    (HL HR : T) (hc : Addr) (khc : Int) (par : Ptr)
    (hC : RepCtx s.heap s.root (F :: c) (some hc) par)
    (hT : Rep s.heap (some hc) par (.node HL hc khc HR))
    (hnd : (plug (F :: c) (.node HL hc khc HR)).addrs.Nodup) :
    ∃ s2, removeNodeTwo s (some F.addr) (some hc) par = some (s2, par) ∧
      RepCtx s2.heap s2.root (F.setKey khc :: c) HR.ptr par ∧
      Rep s2.heap HR.ptr par HR ∧ s2.next = s.next := by
  rw [Rep_node] at hT
  obtain ⟨-, hn, hhn, hhk, hhp, hHL, hHR⟩ := hT
  rw [nodup_plug] at hnd
  unfold removeNodeTwo
  cases F with
  | L x k S =>
    simp only [RepCtx_L] at hC
    obtain ⟨hpar, xn, hxn, hxk, hxl, hS, hC⟩ := hC
    subst hpar
    have hxh : x ≠ hc := by
      intro e; subst e; simp [List.nodup_append, List.nodup_cons] at hnd
    cases HR with
    | leaf =>
      simp only [Rep_leaf] at hHR
      simp [List.nodup_append, List.nodup_cons] at hnd
      simp [State.load, State.store, State.free, Frame.addr, Frame.setKey, hhn, hxn, hxh,
        hxh.symm, hxl, hHR, hhk, Function.update_noteq, RepCtx_L, Rep_update, RepCtx_update,
        hnd, hS, hC]
    | node Rl b kb Rr =>
      simp only [Rep_node] at hHR
      obtain ⟨hhr, bn, hbn, hbk, hbp, hRl, hRr⟩ := hHR
      have hbx : b ≠ x := by
        intro e; subst e; simp [List.nodup_append, List.nodup_cons] at hnd
      have hbh : b ≠ hc := by
        intro e; subst e; simp [List.nodup_append, List.nodup_cons] at hnd
      simp [List.nodup_append, List.nodup_cons] at hnd
      simp [State.load, State.store, State.free, Frame.addr, Frame.setKey, hhn, hxn, hxh,
        hxh.symm, hxl, hhr, hhk, hbn, hbx, hbx.symm, hbh, hbh.symm, hbk, hRl, hRr,
        Function.update_noteq, RepCtx_L, Rep_node, Rep_update, RepCtx_update,
        hnd, hS, hC]
  | R S x k =>
    simp only [RepCtx_R] at hC
    obtain ⟨hpar, xn, hxn, hxk, hxl, hS, hC⟩ := hC
    subst hpar
    have hxh : x ≠ hc := by
      intro e; subst e; simp [List.nodup_append, List.nodup_cons] at hnd
    have hSh : ¬ some hc = xn.left := by
      rw [hS.ptr_eq]; intro e
      have := T.ptr_mem e.symm
      simp [List.nodup_append, List.nodup_cons] at hnd
      simp [hnd] at this
    cases HR with
    | leaf =>
      simp only [Rep_leaf] at hHR
      simp [List.nodup_append, List.nodup_cons] at hnd
      simp [State.load, State.store, State.free, Frame.addr, Frame.setKey, hhn, hxn, hxh,
        hxh.symm, hxl, hSh, hHR, hhk, Function.update_noteq, RepCtx_R, Rep_update,
        RepCtx_update, hnd, hS, hC]
    | node Rl b kb Rr =>
      simp only [Rep_node] at hHR
      obtain ⟨hhr, bn, hbn, hbk, hbp, hRl, hRr⟩ := hHR
      have hbx : b ≠ x := by
        intro e; subst e; simp [List.nodup_append, List.nodup_cons] at hnd
      have hbh : b ≠ hc := by
        intro e; subst e; simp [List.nodup_append, List.nodup_cons] at hnd
      simp [List.nodup_append, List.nodup_cons] at hnd
      simp [State.load, State.store, State.free, Frame.addr, Frame.setKey, hhn, hxn, hxh,
        hxh.symm, hxl, hSh, hhr, hhk, hbn, hbx, hbx.symm, hbh, hbh.symm, hbk, hRl, hRr,
        Function.update_noteq, RepCtx_R, Rep_node, Rep_update, RepCtx_update,
        hnd, hS, hC]

set_option maxHeartbeats 2000000 in
/-- The two-children branch when `higherClosest` lies deeper below `node`. -/
theorem removeNodeTwo_spec_cons (s : State) (f : Frame) (e : Ctx) (F : Frame) (c : Ctx)
    (HL HR : T) (hc : Addr) (khc : Int) (par : Ptr)
    (hC : RepCtx s.heap s.root (f :: (e ++ F :: c)) (some hc) par)
    (hT : Rep s.heap (some hc) par (.node HL hc khc HR))
    (hnd : (plug (f :: (e ++ F :: c)) (.node HL hc khc HR)).addrs.Nodup) :
    ∃ s2, removeNodeTwo s (some F.addr) (some hc) par = some (s2, par) ∧
      RepCtx s2.heap s2.root (f :: (e ++ F.setKey khc :: c)) HR.ptr par ∧
      Rep s2.heap HR.ptr par HR ∧ s2.next = s.next := by
  rw [Rep_node] at hT
  obtain ⟨-, hn, hhn, hhk, hhp, hHL, hHR⟩ := hT
  rw [nodup_plug] at hnd
  have hin := Ctx.addr_mem e F c
  unfold removeNodeTwo
  cases f with
  | L p kp S =>
    simp only [RepCtx_L] at hC
    obtain ⟨hpar, pn, hpn, hpk, hpl, hS, hC⟩ := hC
    subst hpar
    obtain ⟨xn, hxn⟩ := RepCtx_frame_alloc _ _ _ _ _ _ _ hC
    have hndr : (Ctx.addrs (e ++ F :: c)).Nodup := by
      simp only [Ctx.addrs_L, Ctx.addrs_R] at hnd
      exact hnd.of_append_right.of_cons.of_append_right
    have hrest := RepCtx_setKey s.heap s.root F c xn khc hxn e _ _ hC hndr
    simp only [Ctx.addrs_L] at hnd
    rw [← Ctx.addrs_setKey e F c khc] at hnd hin
    generalize e ++ F.setKey khc :: c = rest at hnd hin hrest ⊢
    generalize F.addr = x at hin hxn hrest ⊢
    have hd1 := List.disjoint_of_nodup_append hnd
    have hnd3 := List.nodup_cons.1 hnd.of_append_right
    have hxin2 : x ∈ p :: (S.addrs ++ Ctx.addrs rest) := by simp [hin]
    have hxh : x ≠ hc := fun e => hd1 (by simp [e]) hxin2
    have hxp : x ≠ p := fun e => hnd3.1 (by simp [← e, hin])
    have hph : p ≠ hc := by
      intro e; subst e; simp [List.nodup_append, List.nodup_cons] at hnd
    have hxS : x ∉ S.addrs := fun hm => List.disjoint_of_nodup_append hnd3.2 hm hin
    have hxR : x ∉ HR.addrs := fun hm => hd1 (by simp [hm]) hxin2
    cases HR with
    | leaf =>
      simp only [Rep_leaf] at hHR
      simp [List.nodup_append, List.nodup_cons] at hnd
      simp [State.load, State.store, State.free, hhn, hxn, hxh, hpn, hpl, hxp, hxp.symm,
        hph, hph.symm, hxS,
        hxh.symm, hHR, hhk, Function.update_noteq, RepCtx_L, Rep_update, RepCtx_update,
        hnd, hS, hrest, hpk]
    | node Rl b kb Rr =>
      simp only [Rep_node] at hHR
      obtain ⟨hhr, bn, hbn, hbk, hbp, hRl, hRr⟩ := hHR
      simp only [T.addrs_node, List.mem_append, List.mem_cons, not_or] at hxR
      have hbx : b ≠ x := fun e => hxR.2.1 e.symm
      have hbh : b ≠ hc := by
        intro e; subst e; simp [List.nodup_append, List.nodup_cons] at hnd
      have hbp2 : b ≠ p := by
        intro e; subst e; simp [List.nodup_append, List.nodup_cons] at hnd
      simp [List.nodup_append, List.nodup_cons] at hnd
      simp [State.load, State.store, State.free, hhn, hxn, hxh, hpn, hpl, hxp, hxp.symm,
        hph, hph.symm, hxS, hxR,
        hxh.symm, hhr, hhk, hbn, hbx, hbx.symm, hbh, hbh.symm, hbp2, hbp2.symm, hbk, hRl, hRr,
        Function.update_noteq, RepCtx_L, Rep_node, Rep_update, RepCtx_update,
        hnd, hS, hrest, hpk]
  | R S p kp =>
    simp only [RepCtx_R] at hC
    obtain ⟨hpar, pn, hpn, hpk, hpl, hS, hC⟩ := hC
    subst hpar
    obtain ⟨xn, hxn⟩ := RepCtx_frame_alloc _ _ _ _ _ _ _ hC
    have hndr : (Ctx.addrs (e ++ F :: c)).Nodup := by
      simp only [Ctx.addrs_L, Ctx.addrs_R] at hnd
      exact hnd.of_append_right.of_cons.of_append_right
    have hrest := RepCtx_setKey s.heap s.root F c xn khc hxn e _ _ hC hndr
    simp only [Ctx.addrs_R] at hnd
    rw [← Ctx.addrs_setKey e F c khc] at hnd hin
    generalize e ++ F.setKey khc :: c = rest at hnd hin hrest ⊢
    generalize F.addr = x at hin hxn hrest ⊢
    have hd1 := List.disjoint_of_nodup_append hnd
    have hnd3 := List.nodup_cons.1 hnd.of_append_right
    have hxin2 : x ∈ p :: (S.addrs ++ Ctx.addrs rest) := by simp [hin]
    have hxh : x ≠ hc := fun e => hd1 (by simp [e]) hxin2
    have hxp : x ≠ p := fun e => hnd3.1 (by simp [← e, hin])
    have hph : p ≠ hc := by
      intro e; subst e; simp [List.nodup_append, List.nodup_cons] at hnd
    have hxS : x ∉ S.addrs := fun hm => List.disjoint_of_nodup_append hnd3.2 hm hin
    have hxR : x ∉ HR.addrs := fun hm => hd1 (by simp [hm]) hxin2
    have hSh : ¬ some hc = pn.left := by
      rw [hS.ptr_eq]; intro e
      have := T.ptr_mem e.symm
      simp [List.nodup_append, List.nodup_cons] at hnd
      simp [hnd] at this
    cases HR with
    | leaf =>
      simp only [Rep_leaf] at hHR
      simp [List.nodup_append, List.nodup_cons] at hnd
      simp [State.load, State.store, State.free, hhn, hxn, hxh, hpn, hpl, hxp, hxp.symm,
        hph, hph.symm, hxS, hSh,
        hxh.symm, hHR, hhk, Function.update_noteq, RepCtx_R, Rep_update, RepCtx_update,
        hnd, hS, hrest, hpk]
    | node Rl b kb Rr =>
      simp only [Rep_node] at hHR
      obtain ⟨hhr, bn, hbn, hbk, hbp, hRl, hRr⟩ := hHR
      simp only [T.addrs_node, List.mem_append, List.mem_cons, not_or] at hxR
      have hbx : b ≠ x := fun e => hxR.2.1 e.symm
      have hbh : b ≠ hc := by
        intro e; subst e; simp [List.nodup_append, List.nodup_cons] at hnd
      have hbp2 : b ≠ p := by
        intro e; subst e; simp [List.nodup_append, List.nodup_cons] at hnd
      simp [List.nodup_append, List.nodup_cons] at hnd
      simp [State.load, State.store, State.free, hhn, hxn, hxh, hpn, hpl, hxp, hxp.symm,
        hph, hph.symm, hxS, hxR, hSh,
        hxh.symm, hhr, hhk, hbn, hbx, hbx.symm, hbh, hbh.symm, hbp2, hbp2.symm, hbk, hRl, hRr,
        Function.update_noteq, RepCtx_R, Rep_node, Rep_update, RepCtx_update,
        hnd, hS, hrest, hpk]

/-! ## Choice of `higherClosest` -/

theorem stopAt_plug (key : Int) (t : T) : plug (stopAt key t).1 (stopAt key t).2 = t := by
  have h := descend_plug key t
  unfold stopAt
  rcases hd : descend key t with ⟨d, u⟩
  rw [hd] at h
  cases u <;> cases d <;> simpa using h

theorem descend_nil_of_leaf {key : Int} {t : T} (h1 : (descend key t).1 = [])
    (h2 : (descend key t).2 = .leaf) : t = .leaf := by
  have := descend_plug key t
  rw [h1, h2] at this
  exact this.symm

theorem RepCtx_par {h : Heap} {root p par : Ptr} {f : Frame} {c : Ctx}
    (hc : RepCtx h root (f :: c) p par) : par = some f.addr := by
  cases f with
  | L a k r => rw [RepCtx_L] at hc; exact hc.1
  | R l a k => rw [RepCtx_R] at hc; exact hc.1

/-- Below a node with two children the search for another key stops at a
proper descendant. -/
theorem stopAt_two (A B : T) (x : Addr) (k key : Int)
    (hA : A ≠ .leaf) (hB : B ≠ .leaf) (hk : k ≠ key) :
    ∃ e F HL hc khc HR,
      stopAt key (.node A x k B) = (e ++ [F], .node HL hc khc HR) ∧
      (F = .L x k B ∧ key < k ∨ F = .R A x k ∧ k < key) ∧
      (descend key (.node A x k B) = (e ++ [F], .node HL hc khc HR) ∧ khc = key ∨
        ∃ f, descend key (.node A x k B) = (f :: (e ++ [F]), .leaf) ∧
          f.fill .leaf = .node HL hc khc HR ∧ f.addr = hc) := by
  have key_step : ∀ (C : T) (F : Frame), C ≠ .leaf →
      descend key (.node A x k B) = ((descend key C).1 ++ [F], (descend key C).2) →
      ∃ e HL hc khc HR,
        stopAt key (.node A x k B) = (e ++ [F], .node HL hc khc HR) ∧
        (descend key (.node A x k B) = (e ++ [F], .node HL hc khc HR) ∧ khc = key ∨
          ∃ f, descend key (.node A x k B) = (f :: (e ++ [F]), .leaf) ∧
            f.fill .leaf = .node HL hc khc HR ∧ f.addr = hc) := by
    intro C F hC hd
    rcases descend_target key C with hu | ⟨l, a, r, hu⟩
    · cases hd1 : (descend key C).1 with
      | nil => exact absurd (descend_nil_of_leaf hd1 hu) hC
      | cons f e =>
        rw [hd1, hu] at hd
        cases f with
        | L a k2 r =>
          refine ⟨e, .leaf, a, k2, r, ?_, Or.inr ⟨.L a k2 r, hd, rfl, rfl⟩⟩
          simp [stopAt, hd]
        | R l a k2 =>
          refine ⟨e, l, a, k2, .leaf, ?_, Or.inr ⟨.R l a k2, hd, rfl, rfl⟩⟩
          simp [stopAt, hd]
    · rw [hu] at hd
      refine ⟨(descend key C).1, l, a, key, r, ?_, Or.inl ⟨hd, rfl⟩⟩
      simp [stopAt, hd]
  by_cases h2 : k > key
  · obtain ⟨e, HL, hc, khc, HR, h3, h4⟩ := key_step A (.L x k B) hA (by
      conv_lhs => unfold descend
      simp [hk, h2])
    exact ⟨e, _, HL, hc, khc, HR, h3, Or.inl ⟨rfl, h2⟩, h4⟩
  · obtain ⟨e, HL, hc, khc, HR, h3, h4⟩ := key_step B (.R A x k) hB (by
      conv_lhs => unfold descend
      simp [hk, h2])
    exact ⟨e, _, HL, hc, khc, HR, h3, Or.inr ⟨rfl, by omega⟩, h4⟩

theorem intWrap_succ_ne (k : Int) : k ≠ intWrap (k + 1) := by
  unfold intWrap; omega

theorem intWrap_of_range {z : Int} (h1 : -2147483648 ≤ z) (h2 : z ≤ 2147483647) :
    intWrap z = z := by
  unfold intWrap; omega

/-- A tree obtained by shrinking the subtree in the hole is well formed. -/
theorem WF_of_sub {s s2 : State} {cc cc2 : Ctx} {u u2 : T} {par : Ptr}
    (hnd : (plug cc u).addrs.Nodup) (hlt : ∀ a ∈ (plug cc u).addrs, a < s.next)
    (hcc : Ctx.addrs cc2 = Ctx.addrs cc) (hsub : u2.addrs.Sublist u.addrs)
    (hC : RepCtx s2.heap s2.root cc2 u2.ptr par) (hT : Rep s2.heap u2.ptr par u2)
    (hnext : s2.next = s.next) : WF s2 (plug cc2 u2) := by
  refine ⟨(Rep_plug _ _ _ _).2 ⟨par, hC, hT⟩, ?_, ?_⟩
  · rw [nodup_plug] at hnd ⊢
    rw [hcc]
    exact hnd.sublist (hsub.append_right _)
  · intro a ha
    rw [hnext]
    apply hlt
    rw [mem_addrs_plug] at ha ⊢
    rw [hcc] at ha
    rcases ha with h | h
    · exact Or.inl (hsub.subset h)
    · exact Or.inr h

/-- Effect of `removeNode` on the node `x` of a well-formed tree: either `x`
has at most one child and that child subtree takes its place, or the node at
which the search for `x->key + 1` stops below `x` gives its key to `x` and is
replaced by its right subtree.  The pointer returned is the parent of the
node unlinked. -/
theorem removeNode_spec (s : State) (c : Ctx) (A B : T) (x : Addr) (k : Int) (fuel : Nat)
    (hwf : WF s (plug c (.node A x k B))) (hf : (T.node A x k B).size < fuel) :
    ∃ s2 c2 Ch par, removeNode fuel s (some x) = some (s2, par) ∧
      RepCtx s2.heap s2.root c2 Ch.ptr par ∧ WF s2 (plug c2 Ch) ∧ s2.next = s.next ∧
      c2.length < (plug c (.node A x k B)).size ∧
      ((A = .leaf ∧ Ch = B ∨ B = .leaf ∧ Ch = A) ∧ c2 = c ∨
       A ≠ .leaf ∧ B ≠ .leaf ∧ ∃ e F HL hc khc,
         stopAt (intWrap (k + 1)) (.node A x k B) = (e ++ [F], .node HL hc khc Ch) ∧
         c2 = e ++ F.setKey khc :: c ∧
         (F = .L x k B ∧ intWrap (k + 1) < k ∨ F = .R A x k ∧ k < intWrap (k + 1)) ∧
         (descend (intWrap (k + 1)) (.node A x k B) = (e ++ [F], .node HL hc khc Ch) ∧
            khc = intWrap (k + 1) ∨
          ∃ f, descend (intWrap (k + 1)) (.node A x k B) = (f :: (e ++ [F]), .leaf) ∧
            f.fill .leaf = .node HL hc khc Ch ∧ f.addr = hc)) := by
  obtain ⟨hrep, hnd, hlt⟩ := hwf
  have hrep0 := hrep
  rw [Rep_plug] at hrep
  obtain ⟨par, hC, hT⟩ := hrep
  simp only [T.ptr_node] at hC hT
  have hT0 := hT
  rw [Rep_node] at hT
  obtain ⟨-, n, hn, hk, hp, hA, hB⟩ := hT
  have hone : ∀ Ch, (A = .leaf ∧ Ch = B ∨ B = .leaf ∧ Ch = A) →
      ¬ (n.left.isSome ∧ n.right.isSome) →
      ∃ s2 c2 Ch par, removeNode fuel s (some x) = some (s2, par) ∧
      RepCtx s2.heap s2.root c2 Ch.ptr par ∧ WF s2 (plug c2 Ch) ∧ s2.next = s.next ∧
      c2.length < (plug c (.node A x k B)).size ∧
      ((A = .leaf ∧ Ch = B ∨ B = .leaf ∧ Ch = A) ∧ c2 = c ∨
       A ≠ .leaf ∧ B ≠ .leaf ∧ ∃ e F HL hc khc,
         stopAt (intWrap (k + 1)) (.node A x k B) = (e ++ [F], .node HL hc khc Ch) ∧
         c2 = e ++ F.setKey khc :: c ∧
         (F = .L x k B ∧ intWrap (k + 1) < k ∨ F = .R A x k ∧ k < intWrap (k + 1)) ∧
         (descend (intWrap (k + 1)) (.node A x k B) = (e ++ [F], .node HL hc khc Ch) ∧
            khc = intWrap (k + 1) ∨
          ∃ f, descend (intWrap (k + 1)) (.node A x k B) = (f :: (e ++ [F]), .leaf) ∧
            f.fill .leaf = .node HL hc khc Ch ∧ f.addr = hc)) := by
    intro Ch hch hnot
    obtain ⟨s2, h1, h2, h3, h4⟩ := removeNodeOne_spec s c A B Ch x k par n hn hC hT0 hnd hch
    have hlen : c.length < (plug c (.node A x k B)).size := by
      have := size_plug c (.node A x k B)
      simp only [T.size_node] at this; omega
    refine ⟨s2, c, Ch, par, ?_, h2, ?_, h4, hlen, Or.inl ⟨hch, rfl⟩⟩
    · simp only [removeNode, State.load, hn]
      rw [if_neg hnot]; exact h1
    · refine WF_of_sub hnd hlt rfl ?_ h2 h3 h4
      rcases hch with ⟨-, rfl⟩ | ⟨-, rfl⟩
      · simp
      · simp
  by_cases hAl : A = .leaf
  · apply hone B (Or.inl ⟨hAl, rfl⟩)
    subst hAl
    simp only [Rep_leaf] at hA
    simp [hA]
  by_cases hBl : B = .leaf
  · apply hone A (Or.inr ⟨hBl, rfl⟩)
    subst hBl
    simp only [Rep_leaf] at hB
    simp [hB]
  clear hone
  have htwo : n.left.isSome ∧ n.right.isSome := by
    rw [hA.ptr_eq, hB.ptr_eq]
    cases A <;> cases B <;> simp_all
  obtain ⟨e, F, HL, hc, khc, HR, hstop, hF, hdesc⟩ :=
    stopAt_two A B x k (intWrap (k + 1)) hAl hBl (intWrap_succ_ne k)
  have hFa : F.addr = x := by
    rcases hF with ⟨rfl, -⟩ | ⟨rfl, -⟩ <;> rfl
  have hplug := stopAt_plug (intWrap (k + 1)) (.node A x k B)
  rw [hstop] at hplug
  simp only at hplug
  have hrep2 : Rep s.heap s.root none (plug (e ++ F :: c) (.node HL hc khc HR)) := by
    have : e ++ F :: c = (e ++ [F]) ++ c := by simp
    rw [this, plug_append, hplug]; exact hrep0
  have hplug2 : plug (e ++ F :: c) (.node HL hc khc HR) = plug c (.node A x k B) := by
    have : e ++ F :: c = (e ++ [F]) ++ c := by simp
    rw [this, plug_append, hplug]
  rw [Rep_plug] at hrep2
  obtain ⟨par2, hC2, hT2⟩ := hrep2
  simp only [T.ptr_node] at hC2 hT2
  have hfind := findNode_spec (intWrap (k + 1)) s (.node A x k B) (some x) par none fuel hT0 hf
  rw [descendPrev_eq] at hfind
  have hsel : ∃ found prev,
      findNode fuel s (some x) none (intWrap (n.key + 1)) = some (found, prev) ∧
      (if found.isNone then (s.load prev).map (fun pn => (prev, pn.parent))
        else some (found, prev)) = some (some hc, par2) := by
    rw [hk]
    rcases hdesc with ⟨hd, -⟩ | ⟨f, hd, hfill, hfa⟩
    · rw [hd] at hfind
      refine ⟨_, _, hfind, ?_⟩
      cases e with
      | nil => simp [RepCtx_par hC2]
      | cons f e => simp [RepCtx_par hC2]
    · rw [hd] at hfind
      refine ⟨_, _, hfind, ?_⟩
      obtain ⟨hn2, hhn, hhp, -⟩ := Rep_root_node hT2
      simp [State.load, hfa, hhn, hhp]
  obtain ⟨found, prev, hf1, hf2⟩ := hsel
  obtain ⟨s2, h1, h2, h3, h4⟩ : ∃ s2,
      removeNodeTwo s (some F.addr) (some hc) par2 = some (s2, par2) ∧
      RepCtx s2.heap s2.root (e ++ F.setKey khc :: c) HR.ptr par2 ∧
      Rep s2.heap HR.ptr par2 HR ∧ s2.next = s.next := by
    cases e with
    | nil =>
      simp only [List.nil_append] at hplug2 hC2
      exact removeNodeTwo_spec_nil s F c HL HR hc khc par2 hC2 hT2 (by rw [hplug2]; exact hnd)
    | cons f e =>
      exact removeNodeTwo_spec_cons s f e F c HL HR hc khc par2 hC2 hT2
        (by rw [show f :: (e ++ F :: c) = (f :: e) ++ F :: c from rfl, hplug2]; exact hnd)
  have hlen : (e ++ F.setKey khc :: c).length < (plug c (.node A x k B)).size := by
    have := size_plug (e ++ F :: c) (.node HL hc khc HR)
    rw [hplug2] at this
    simp only [T.size_node, List.length_append, List.length_cons] at this ⊢; omega
  refine ⟨s2, e ++ F.setKey khc :: c, HR, par2, ?_, h2, ?_, h4, hlen,
    Or.inr ⟨hAl, hBl, e, F, HL, hc, khc, hstop, rfl, hF, hdesc⟩⟩
  · unfold removeNode
    simp only [State.load_some, hn]
    rw [if_pos htwo, hf1]
    simp only [hf2]
    rw [← hFa]; exact h1
  · rw [← hplug2] at hnd hlt
    exact WF_of_sub hnd hlt (Ctx.addrs_setKey e F c khc) (by simp) h2 h3 h4

/-! ## `removeKey` -/

/-- On a miss `removeKey` does what `findKey` does. -/
theorem removeKey_miss (s : State) (key : Int) (fuel : Nat) (prev : Ptr)
    (h : findNode fuel s s.root none key = some (none, prev)) :
    removeKey fuel s key = (findKey fuel s key).map (fun r => (r.1, 0)) := by
  simp only [removeKey, findKey, h]
  cases prev with
  | none => simp
  | some p =>
    cases splay fuel s (some p) <;> simp

/-- Effect of `removeKey` when the key is found at node `x`. -/
theorem removeKey_hit (s : State) (t : T) (key : Int) (fuel : Nat) (A B : T) (x : Addr)
    (hwf : WF s t) (hf : t.size < fuel)
    (hd : (descend key t).2 = .node A x key B) :
    ∃ s2 t2 c2 Ch, removeKey fuel s key = some (s2, 1) ∧ WF s2 t2 ∧
      t2.nodes = (plug c2 Ch).nodes ∧ s2.next = s.next ∧
      s2.root = (match c2 with
                 | [] => Ch.ptr
                 | f :: _ => some f.addr) ∧
      ((A = .leaf ∧ Ch = B ∨ B = .leaf ∧ Ch = A) ∧ c2 = (descend key t).1 ∨
       A ≠ .leaf ∧ B ≠ .leaf ∧ ∃ e F HL hc khc,
         stopAt (intWrap (key + 1)) (.node A x key B) = (e ++ [F], .node HL hc khc Ch) ∧
         c2 = e ++ F.setKey khc :: (descend key t).1 ∧
         (F = .L x key B ∧ intWrap (key + 1) < key ∨ F = .R A x key ∧ key < intWrap (key + 1)) ∧
         (descend (intWrap (key + 1)) (.node A x key B) = (e ++ [F], .node HL hc khc Ch) ∧
            khc = intWrap (key + 1) ∨
          ∃ f, descend (intWrap (key + 1)) (.node A x key B) = (f :: (e ++ [F]), .leaf) ∧
            f.fill .leaf = .node HL hc khc Ch ∧ f.addr = hc)) := by
  have hfind := findNode_spec key s t s.root none none fuel hwf.1 hf
  have hplug := descend_plug key t
  rw [hd] at hplug hfind
  have hlen := size_plug (descend key t).1 (.node A x key B)
  rw [hplug] at hlen
  obtain ⟨s1, c2, Ch, par, h1, h2, h3, h4, h5, h6⟩ :=
    removeNode_spec s (descend key t).1 A B x key fuel (by rw [hplug]; exact hwf) (by omega)
  rw [hplug] at h5
  cases c2 with
  | nil =>
    rw [RepCtx_nil] at h2
    obtain ⟨-, rfl⟩ := h2
    refine ⟨s1, Ch, [], Ch, ?_, h3, rfl, h4, h3.root_eq, h6⟩
    simp [removeKey, hfind, h1, splay]
  | cons f c3 =>
    have hp := RepCtx_par h2
    subst hp
    obtain ⟨s2, A2, B2, h7, h8, h9, h10⟩ : ∃ s2 A2 B2,
        splay fuel s1 (some f.addr) = some (s2, some f.addr) ∧
        WF s2 (.node A2 f.addr f.key B2) ∧
        (T.node A2 f.addr f.key B2).nodes = (plug (f :: c3) Ch).nodes ∧ s2.next = s1.next := by
      simp only [List.length_cons] at h5
      cases f with
      | L a k r => exact splay_spec s1 c3 Ch r a k fuel h3 (by omega)
      | R l a k => exact splay_spec s1 c3 l Ch a k fuel h3 (by omega)
    refine ⟨s2, _, f :: c3, Ch, ?_, h8, h9, h10.trans h4, by simpa using h8.root_eq, h6⟩
    simp [removeKey, hfind, h1, h7]

/-! ## Search-tree facts about the stored keys -/

theorem erase_mid {l1 l2 : List Int} {k : Int} (hs : (l1 ++ k :: l2).Sorted (· < ·)) :
    (l1 ++ k :: l2).erase k = l1 ++ l2 := by
  have hk : k ∉ l1 := by
    intro hm
    have := (List.pairwise_append.1 hs).2.2 k hm k (by simp)
    exact lt_irrefl _ this
  rw [List.erase_append_right _ hk, List.erase_cons_head]

theorem sorted_insert_mid {l1 l2 : List Int} {k : Int} (hs : (l1 ++ l2).Sorted (· < ·))
    (h1 : ∀ a ∈ l1, a < k) (h2 : ∀ a ∈ l2, k < a) : (l1 ++ k :: l2).Sorted (· < ·) := by
  have h := List.pairwise_append.1 hs
  refine List.pairwise_append.2 ⟨h.1, List.pairwise_cons.2 ⟨h2, h.2.1⟩, ?_⟩
  intro a ha b hb
  rcases List.mem_cons.1 hb with rfl | hb
  · exact h1 a ha
  · exact h.2.2 a ha b hb

theorem orderedInsert_mid {l1 l2 : List Int} {k : Int} (hs : (l1 ++ l2).Sorted (· < ·))
    (h1 : ∀ a ∈ l1, a < k) (h2 : ∀ a ∈ l2, k < a) :
    (l1 ++ l2).orderedInsert (· ≤ ·) k = l1 ++ k :: l2 := by
  have hs2 := sorted_insert_mid hs h1 h2
  apply List.eq_of_perm_of_sorted (r := (· ≤ ·))
  · exact (List.perm_orderedInsert _ _ _).trans List.perm_middle.symm
  · exact List.Sorted.orderedInsert k _ (hs.imp le_of_lt)
  · exact hs2.imp le_of_lt

/-- Keys after `insertKey` of a key that is not stored. -/
theorem insert_keys (key : Int) (t : T) (hs : t.keys.Sorted (· < ·)) (a : Addr)
    (hn : t.nodes = Ctx.before (descend key t).1 ++ Ctx.after (descend key t).1) :
    ((Ctx.before (descend key t).1 ++ (a, key) :: Ctx.after (descend key t).1).map Prod.snd
        = t.keys.orderedInsert (· ≤ ·) key) ∧
    ((Ctx.before (descend key t).1 ++ (a, key) :: Ctx.after (descend key t).1).map
        Prod.snd).Sorted (· < ·) := by
  obtain ⟨hb, ha⟩ := descend_bounds key t hs
  have hk : t.keys = (Ctx.before (descend key t).1).map Prod.snd ++
      (Ctx.after (descend key t).1).map Prod.snd := by
    rw [T.keys, hn, List.map_append]
  rw [hk] at hs ⊢
  simp only [List.map_append, List.map_cons]
  exact ⟨(orderedInsert_mid hs hb ha).symm, sorted_insert_mid hs hb ha⟩

theorem T.nodes_eq_nil {t : T} : t.nodes = [] ↔ t = .leaf := by
  cases t <;> simp

theorem T.keys_eq_nil {t : T} : t.keys = [] ↔ t = .leaf := by
  cases t <;> simp

theorem T.exists_key_of_ne_leaf {t : T} (h : t ≠ .leaf) : ∃ k, k ∈ t.keys := by
  cases t with
  | leaf => exact absurd rfl h
  | node l a k r => exact ⟨k, by simp⟩

/-- In a search tree, below a node with two children, the node chosen as
`higherClosest` is the first node of the right subtree in-order and has no
left child. -/
theorem successor_shape (A B : T) (x : Addr) (key : Int)
    (hs : (T.node A x key B).keys.Sorted (· < ·))
    (hr : ∀ k ∈ (T.node A x key B).keys, -2147483648 ≤ k ∧ k ≤ 2147483647)
    (hB : B ≠ .leaf) (e : Ctx) (F : Frame) (HL HR : T) (hc : Addr) (khc : Int)
    (hF : F = .L x key B ∧ intWrap (key + 1) < key ∨ F = .R A x key ∧ key < intWrap (key + 1))
    (hdesc : descend (intWrap (key + 1)) (.node A x key B) = (e ++ [F], .node HL hc khc HR) ∧
            khc = intWrap (key + 1) ∨
          ∃ f, descend (intWrap (key + 1)) (.node A x key B) = (f :: (e ++ [F]), .leaf) ∧
            f.fill .leaf = .node HL hc khc HR ∧ f.addr = hc) :
    intWrap (key + 1) = key + 1 ∧ F = .R A x key ∧ HL = .leaf ∧ Ctx.before e = [] ∧
      B.nodes = (hc, khc) :: HR.nodes ++ Ctx.after e := by
  simp only [T.keys_node] at hs hr
  have hsp := List.pairwise_append.1 hs
  have hsB := (List.pairwise_cons.1 hsp.2.1)
  obtain ⟨kb, hkb⟩ := T.exists_key_of_ne_leaf hB
  have h1 : key < kb := hsB.1 kb hkb
  have h2 := hr kb (by simp [hkb])
  have h3 := hr key (by simp)
  have hw : intWrap (key + 1) = key + 1 := intWrap_of_range (by omega) (by omega)
  rw [hw] at hF hdesc
  have hFR : F = .R A x key := by
    rcases hF with ⟨-, h⟩ | ⟨h, -⟩
    · omega
    · exact h
  subst hFR
  have hdB : descend (key + 1) (.node A x key B) =
      ((descend (key + 1) B).1 ++ [.R A x key], (descend (key + 1) B).2) := by
    conv_lhs => unfold descend
    simp
  obtain ⟨hb, -⟩ := descend_bounds (key + 1) B hsB.2
  have hplugB := descend_plug (key + 1) B
  have hnodesB : B.nodes = Ctx.before (descend (key + 1) B).1 ++ (descend (key + 1) B).2.nodes ++
      Ctx.after (descend (key + 1) B).1 := by
    conv_lhs => rw [← hplugB]
    exact nodes_plug _ _
  have hbefore : Ctx.before (descend (key + 1) B).1 = [] := by
    rw [List.eq_nil_iff_forall_not_mem]
    intro p hp
    have hp1 : p.2 ∈ B.keys := by
      rw [T.keys, hnodesB]
      simp only [List.map_append, List.mem_append, List.mem_map]
      exact Or.inl (Or.inl ⟨p, hp, rfl⟩)
    have := hsB.1 p.2 hp1
    have := hb p.2 (List.mem_map.2 ⟨p, hp, rfl⟩)
    omega
  rw [hbefore, List.nil_append] at hnodesB
  refine ⟨hw, rfl, ?_⟩
  rcases hdesc with ⟨hd, hk⟩ | ⟨f, hd, hfill, hfa⟩
  · rw [hdB] at hd
    simp only [Prod.mk.injEq] at hd
    obtain ⟨hd1, hd2⟩ := hd
    have hd1 : (descend (key + 1) B).1 = e := by
      simpa using hd1
    rw [hd1] at hnodesB hbefore
    rw [hd2] at hnodesB
    have hHL : HL = .leaf := by
      rw [← T.keys_eq_nil, List.eq_nil_iff_forall_not_mem]
      intro k hk2
      have hkB : k ∈ B.keys := by
        rw [T.keys, hnodesB]
        simp only [T.nodes_node, List.map_append, List.map_cons, List.mem_append,
          List.mem_cons]
        exact Or.inl (Or.inl (by simpa [T.keys] using hk2))
      have := hsB.1 k hkB
      have hsB2 := hsB.2
      rw [T.keys, hnodesB] at hsB2
      simp only [T.nodes_node, List.map_append, List.map_cons, List.append_assoc] at hsB2
      have := (List.pairwise_append.1 hsB2).2.2 k (by simpa [T.keys] using hk2) khc (by simp)
      omega
    refine ⟨hHL, hbefore, ?_⟩
    rw [hnodesB, hHL]; simp
  · rw [hdB] at hd
    simp only [Prod.mk.injEq] at hd
    obtain ⟨hd1, hd2⟩ := hd
    have hd1 : (descend (key + 1) B).1 = f :: e := by
      have : (descend (key + 1) B).1 ++ [Frame.R A x key] = (f :: e) ++ [Frame.R A x key] := by
        simpa using hd1
      exact List.append_cancel_right this
    rw [hd1] at hnodesB hbefore
    rw [hd2] at hnodesB
    cases f with
    | L a k r =>
      simp only [Frame.fill_L, T.node.injEq] at hfill
      obtain ⟨rfl, rfl, rfl, rfl⟩ := hfill
      simp only [Ctx.before_L] at hbefore
      refine ⟨rfl, hbefore, ?_⟩
      rw [hnodesB]; simp
    | R l a k =>
      simp at hbefore

/-- Keys left by a successful `removeKey` in a search tree: the key removed is
erased, the others are kept in order. -/
theorem remove_keys (t : T) (key : Int) (A B : T) (x : Addr) (c2 : Ctx) (Ch : T)
    (hs : t.keys.Sorted (· < ·)) (hr : ∀ k ∈ t.keys, -2147483648 ≤ k ∧ k ≤ 2147483647)
    (hd : (descend key t).2 = .node A x key B)
    (hshape : (A = .leaf ∧ Ch = B ∨ B = .leaf ∧ Ch = A) ∧ c2 = (descend key t).1 ∨
       A ≠ .leaf ∧ B ≠ .leaf ∧ ∃ e F HL hc khc,
         stopAt (intWrap (key + 1)) (.node A x key B) = (e ++ [F], .node HL hc khc Ch) ∧
         c2 = e ++ F.setKey khc :: (descend key t).1 ∧
         (F = .L x key B ∧ intWrap (key + 1) < key ∨ F = .R A x key ∧ key < intWrap (key + 1)) ∧
         (descend (intWrap (key + 1)) (.node A x key B) = (e ++ [F], .node HL hc khc Ch) ∧
            khc = intWrap (key + 1) ∨
          ∃ f, descend (intWrap (key + 1)) (.node A x key B) = (f :: (e ++ [F]), .leaf) ∧
            f.fill .leaf = .node HL hc khc Ch ∧ f.addr = hc)) :
    (plug c2 Ch).keys = t.keys.erase key := by
  have hplug := descend_plug key t
  rw [hd] at hplug
  have hk : t.keys = (Ctx.before (descend key t).1).map Prod.snd ++ (A.keys ++ key :: B.keys) ++
      (Ctx.after (descend key t).1).map Prod.snd := by
    conv_lhs => rw [← hplug]
    rw [keys_plug, T.keys_node]
  rw [hk] at hs hr ⊢
  have herase : ((Ctx.before (descend key t).1).map Prod.snd ++ (A.keys ++ key :: B.keys) ++
      (Ctx.after (descend key t).1).map Prod.snd).erase key =
      (Ctx.before (descend key t).1).map Prod.snd ++ (A.keys ++ B.keys) ++
      (Ctx.after (descend key t).1).map Prod.snd := by
    have := @erase_mid ((Ctx.before (descend key t).1).map Prod.snd ++ A.keys)
      (B.keys ++ (Ctx.after (descend key t).1).map Prod.snd) key (by simpa using hs)
    simpa using this
  rw [herase]
  rcases hshape with ⟨hch, rfl⟩ | ⟨hA, hB, e, F, HL, hc, khc, -, rfl, hF, hdesc⟩
  · rw [keys_plug]
    rcases hch with ⟨rfl, rfl⟩ | ⟨rfl, rfl⟩ <;> simp
  · have hsub : (T.node A x key B).keys.Sorted (· < ·) := by
      rw [T.keys_node]
      exact ((List.pairwise_append.1 ((List.pairwise_append.1 hs).1)).2.1)
    have hrsub : ∀ k ∈ (T.node A x key B).keys, -2147483648 ≤ k ∧ k ≤ 2147483647 := by
      intro k hk2
      apply hr
      rw [T.keys_node] at hk2
      simp only [List.mem_append]
      exact Or.inl (Or.inr (by simpa using hk2))
    obtain ⟨-, rfl, -, hbe, hBn⟩ :=
      successor_shape A B x key hsub hrsub hB e F HL Ch hc khc hF hdesc
    rw [keys_plug]
    simp only [Frame.setKey, Ctx.before_append, Ctx.after_append, Ctx.before_R, Ctx.after_R, hbe,
      T.keys, hBn]
    simp

/-! ## Consequences for the public operations -/

theorem WF.heap_root {s : State} {A B : T} {x : Addr} {k : Int} (h : WF s (.node A x k B)) :
    s.root = some x ∧ ∃ n, s.heap x = some n ∧ n.key = k ∧ n.parent = none := by
  have h1 := h.1
  have hr : s.root = some x := h.root_eq
  rw [hr] at h1
  obtain ⟨n, hn, hp, hk⟩ := Rep_root_node h1
  exact ⟨hr, n, hn, hk, hp⟩

/-- In a well-formed tree the parent back-links are consistent. -/
theorem WF.parentLinks {s : State} {t : T} (h : WF s t) : ParentLinks s t := by
  obtain ⟨hrep, hnd, -⟩ := h
  constructor
  · intro r n hr hn
    cases t with
    | leaf => simp only [Rep_leaf] at hrep; rw [hrep] at hr; simp at hr
    | node l a k rr =>
      have := hrep.ptr_eq
      rw [this] at hr
      simp only [T.ptr_node, Option.some.injEq] at hr
      subst hr
      rw [this] at hrep
      obtain ⟨n2, hn2, hp, -⟩ := Rep_root_node hrep
      rw [hn] at hn2
      simp only [Option.some.injEq] at hn2
      rw [hn2]; exact hp
  · intro a ha hroot
    obtain ⟨c, A, k, B, rfl⟩ := exists_plug_of_mem ha
    rw [Rep_plug] at hrep
    obtain ⟨par, hc, ht⟩ := hrep
    simp only [T.ptr_node] at hc ht
    obtain ⟨n, hn, hp, -⟩ := Rep_root_node ht
    rw [nodup_plug] at hnd
    cases c with
    | nil =>
      rw [RepCtx_nil] at hc
      exact absurd hc.1.symm hroot
    | cons f c =>
      cases f with
      | L p kp r =>
        obtain ⟨pn, hpn, hpl, hpar, hpr, -, -⟩ := RepCtx_L_up hc ht
        refine ⟨n, p, pn, hn, hp.trans hpar, ?_, hpn, Or.inl ⟨hpl, ?_⟩⟩
        · rw [mem_addrs_plug]; right; simp
        · rw [hpr]; apply T.ptr_ne
          simp [List.nodup_append, List.nodup_cons] at hnd
          simp [hnd]
      | R l p kp =>
        obtain ⟨pn, hpn, hpl, hpar, hpr, -, -⟩ := RepCtx_R_up hc ht
        refine ⟨n, p, pn, hn, hp.trans hpar, ?_, hpn, Or.inr ⟨?_, hpl⟩⟩
        · rw [mem_addrs_plug]; right; simp
        · rw [hpr]; apply T.ptr_ne
          simp [List.nodup_append, List.nodup_cons] at hnd
          simp [hnd]

theorem descend_hit_iff (key : Int) (t : T) (hs : t.keys.Sorted (· < ·)) :
    (∃ A x B, (descend key t).2 = .node A x key B) ↔ key ∈ t.keys := by
  have h := descend_leaf_iff key t hs
  constructor
  · rintro ⟨A, x, B, e⟩
    by_contra hk
    rw [h.2 hk] at e
    simp at e
  · intro hk
    rcases descend_target key t with h2 | h2
    · exact absurd hk (h.1 h2)
    · obtain ⟨l, a, r, e⟩ := h2; exact ⟨l, a, r, e⟩

/-- `insertKey` on a search tree. -/
theorem insertKey_bst (s : State) (t : T) (k : Int) (fuel : Nat)
    (hwf : WF s t) (hs : t.keys.Sorted (· < ·)) (hf : t.size < fuel) :
    ∃ s2 A2 B2 x, insertKey fuel s k = some (s2, some x) ∧ WF s2 (.node A2 x k B2) ∧
      (T.node A2 x k B2).keys.Sorted (· < ·) ∧
      (k ∈ t.keys → (T.node A2 x k B2).nodes = t.nodes ∧ s2.next = s.next) ∧
      (k ∉ t.keys → (T.node A2 x k B2).keys = t.keys.orderedInsert (· ≤ ·) k ∧
        (T.node A2 x k B2).size = t.size + 1 ∧ x = s.next ∧ s2.next = s.next + 1) := by
  obtain ⟨s2, A2, B2, x, h1, h2, h3⟩ := insertKey_spec s t k fuel hwf hf
  refine ⟨s2, A2, B2, x, h1, h2, ?_⟩
  rcases h3 with ⟨h4, h5, h6⟩ | ⟨h4, h5, h6, h7, h8⟩
  · have hk : k ∈ t.keys := by
      by_contra hk
      rw [(descend_leaf_iff k t hs).2 hk] at h4
      simp at h4
    refine ⟨?_, fun _ => ⟨h5, h6⟩, fun h => absurd hk h⟩
    rw [T.keys_eq_of_nodes h5]; exact hs
  · have hk : k ∉ t.keys := (descend_leaf_iff k t hs).1 h4
    obtain ⟨h9, h10⟩ := insert_keys k t hs s.next h7
    refine ⟨?_, fun h => absurd h hk, fun _ => ⟨?_, ?_, h5, h6⟩⟩
    · rw [T.keys, h8]; exact h10
    · rw [T.keys, h8]; exact h9
    · rw [T.size, h8, T.size, h7]; simp; omega

theorem findKey_miss (s : State) (t : T) (k : Int) (fuel : Nat)
    (hwf : WF s t) (hs : t.keys.Sorted (· < ·)) (hk : k ∉ t.keys) (hf : t.size < fuel) :
    ∃ s2 t2, findKey fuel s k = some (s2, none) ∧ removeKey fuel s k = some (s2, 0) ∧
      WF s2 t2 ∧ t2.nodes = t.nodes ∧ s2.next = s.next ∧ s2.root = descendPrev k t none := by
  have hleaf := (descend_leaf_iff k t hs).2 hk
  obtain ⟨s2, t2, h1, h2, h3, h4, h5, -⟩ := findKey_spec s t k fuel hwf hf
  have hfind := findNode_spec k s t s.root none none fuel hwf.1 hf
  rw [hleaf] at h1 h5 hfind
  refine ⟨s2, t2, h1, ?_, h2, h3, h4, h5⟩
  rw [removeKey_miss s k fuel _ hfind, h1]
  rfl

/-- `removeKey` on a search tree: the result tells whether the key was stored,
and the key is erased from the in-order key list. -/
theorem removeKey_bst (s : State) (t : T) (k : Int) (fuel : Nat)
    (hwf : WF s t) (hbst : BST t) (hf : t.size < fuel) :
    ∃ s2 t2, removeKey fuel s k = some (s2, if k ∈ t.keys then 1 else 0) ∧ WF s2 t2 ∧
      t2.keys = t.keys.erase k ∧ s2.next = s.next := by
  by_cases hk : k ∈ t.keys
  · obtain ⟨A, x, B, hd⟩ := (descend_hit_iff k t hbst.1).2 hk
    obtain ⟨s2, t2, c2, Ch, h1, h2, h3, h4, -, h6⟩ := removeKey_hit s t k fuel A B x hwf hf hd
    refine ⟨s2, t2, by simp [hk, h1], h2, ?_, h4⟩
    rw [T.keys_eq_of_nodes h3]
    exact remove_keys t k A B x c2 Ch hbst.1 hbst.2 hd h6
  · obtain ⟨s2, t2, -, h1, h2, h3, h4, -⟩ := findKey_miss s t k fuel hwf hbst.1 hk hf
    refine ⟨s2, t2, by simp [hk, h1], h2, ?_, h4⟩
    rw [T.keys_eq_of_nodes h3, List.erase_of_not_mem hk]

theorem BST.erase {t t2 : T} {k : Int} (h : BST t) (he : t2.keys = t.keys.erase k) : BST t2 := by
  constructor
  · rw [he]; exact h.1.sublist (List.erase_sublist _ _)
  · intro a ha; rw [he] at ha; exact h.2 a (List.mem_of_mem_erase ha)

theorem BST.insert {t t2 : T} {k : Int} (h : BST t) (hk : isInt k)
    (hs : t2.keys.Sorted (· < ·))
    (he : t2.keys = t.keys ∨ t2.keys = t.keys.orderedInsert (· ≤ ·) k) : BST t2 := by
  refine ⟨hs, ?_⟩
  intro a ha
  rcases he with he | he
  · rw [he] at ha; exact h.2 a ha
  · rw [he, List.mem_orderedInsert] at ha
    rcases ha with rfl | ha
    · exact hk
    · exact h.2 a ha

theorem BST.nodup {t : T} (h : BST t) : t.keys.Nodup :=
  h.1.imp (fun hab => ne_of_lt hab)

theorem T.size_eq_length_keys (t : T) : t.size = t.keys.length := by
  simp [T.size, T.keys]

/-- Each public operation keeps a well-formed search tree well formed and
ordered. -/
theorem step_bst (s : State) (t : T) (k : Int) (fuel : Nat)
    (hwf : WF s t) (hbst : BST t) (hk : isInt k) (hf : t.size < fuel) :
    (∃ s2 r t2, insertKey fuel s k = some (s2, r) ∧ WF s2 t2 ∧ BST t2 ∧
        t2.size ≤ t.size + 1) ∧
    (∃ s2 r t2, findKey fuel s k = some (s2, r) ∧ WF s2 t2 ∧ BST t2 ∧
        t2.size ≤ t.size + 1) ∧
    (∃ s2 r t2, removeKey fuel s k = some (s2, r) ∧ WF s2 t2 ∧ BST t2 ∧
        t2.size ≤ t.size + 1) := by
  refine ⟨?_, ?_, ?_⟩
  · obtain ⟨s2, A2, B2, x, h1, h2, h3, h4, h5⟩ := insertKey_bst s t k fuel hwf hbst.1 hf
    refine ⟨s2, _, _, h1, h2, ?_, ?_⟩
    · apply hbst.insert hk h3
      by_cases hm : k ∈ t.keys
      · exact Or.inl (T.keys_eq_of_nodes (h4 hm).1)
      · exact Or.inr (h5 hm).1
    · by_cases hm : k ∈ t.keys
      · rw [T.size_eq_of_nodes (h4 hm).1]; omega
      · rw [(h5 hm).2.1]
  · obtain ⟨s2, t2, h1, h2, h3, -⟩ := findKey_spec s t k fuel hwf hf
    refine ⟨s2, _, t2, h1, h2, ?_, ?_⟩
    · unfold BST; rw [T.keys_eq_of_nodes h3]; exact hbst
    · rw [T.size_eq_of_nodes h3]; omega
  · obtain ⟨s2, t2, h1, h2, h3, -⟩ := removeKey_bst s t k fuel hwf hbst hf
    refine ⟨s2, _, t2, h1, h2, hbst.erase h3, ?_⟩
    rw [T.size_eq_length_keys, T.size_eq_length_keys, h3]
    have := (List.erase_sublist k t.keys).length_le
    omega

theorem menuLoop_bst (fuel : Nat) : ∀ (cmds : List (Int × Int)) (s : State) (t : T),
    WF s t → BST t → (∀ c ∈ cmds, isInt c.2) → t.size + cmds.length < fuel →
    ∃ s2 t2, menuLoop fuel cmds s = some s2 ∧ WF s2 t2 ∧ BST t2
  | [], s, t, hwf, hbst, _, _ => ⟨s, t, rfl, hwf, hbst⟩
  | (choice, key) :: rest, s, t, hwf, hbst, hc, hf => by
    simp only [List.length_cons] at hf
    have hkey : isInt key := hc (choice, key) (by simp)
    have hrest : ∀ c ∈ rest, isInt c.2 := fun c hm => hc c (by simp [hm])
    obtain ⟨⟨s1, r1, t1, h1, h2, h3, h4⟩, ⟨s3, r3, t3, h5, h6, h7, h8⟩,
      ⟨s5, r5, t5, h9, h10, h11, h12⟩⟩ := step_bst s t key fuel hwf hbst hkey (by omega)
    unfold menuLoop
    split_ifs with c1 c2 c3
    · rw [h1]
      exact menuLoop_bst fuel rest s1 t1 h2 h3 hrest (by omega)
    · rw [h9]
      exact menuLoop_bst fuel rest s5 t5 h10 h11 hrest (by omega)
    · rw [h5]
      exact menuLoop_bst fuel rest s3 t3 h6 h7 hrest (by omega)
    · exact ⟨s, t, rfl, hwf, hbst⟩

/-- Each public operation keeps a well-formed tree well formed, whatever its
keys. -/
theorem step_wf (s : State) (t : T) (k : Int) (fuel : Nat)
    (hwf : WF s t) (hf : t.size < fuel) :
    (∃ s2 r t2, insertKey fuel s k = some (s2, r) ∧ WF s2 t2) ∧
    (∃ s2 r t2, findKey fuel s k = some (s2, r) ∧ WF s2 t2) ∧
    (∃ s2 r t2, removeKey fuel s k = some (s2, r) ∧ WF s2 t2) := by
  obtain ⟨s1, A1, B1, x1, h1, h2, -⟩ := insertKey_spec s t k fuel hwf hf
  obtain ⟨s3, t3, h3, h4, -⟩ := findKey_spec s t k fuel hwf hf
  refine ⟨⟨s1, _, _, h1, h2⟩, ⟨s3, _, t3, h3, h4⟩, ?_⟩
  rcases descend_target k t with hu | ⟨l, a, r, hu⟩
  · have hfind := findNode_spec k s t s.root none none fuel hwf.1 hf
    rw [hu] at hfind
    refine ⟨s3, 0, t3, ?_, h4⟩
    rw [removeKey_miss s k fuel _ hfind, h3]
    rfl
  · obtain ⟨s2, t2, c2, Ch, h5, h6, -⟩ := removeKey_hit s t k fuel l r a hwf hf hu
    exact ⟨s2, 1, t2, h5, h6⟩

/-- A node returned by `findKey` is the root afterwards, holds the key
searched and has no parent. -/
theorem findKey_found (s : State) (t : T) (k : Int) (fuel : Nat)
    (hwf : WF s t) (hf : t.size < fuel) :
    ∃ s2, findKey fuel s k = some (s2, (descend k t).2.ptr) ∧
      ∀ x, (descend k t).2.ptr = some x → s2.root = some x ∧
        ∃ n, s2.heap x = some n ∧ n.key = k ∧ n.parent = none := by
  obtain ⟨s2, t2, h1, h2, -, -, -, h6, -⟩ := findKey_spec s t k fuel hwf hf
  refine ⟨s2, h1, ?_⟩
  intro x hx
  rcases descend_target k t with hu | ⟨l, a, r, hu⟩
  · rw [hu] at hx; simp at hx
  · rw [hu] at hx
    simp only [T.ptr_node, Option.some.injEq] at hx
    subst hx
    obtain ⟨A2, B2, rfl⟩ := h6 l a r hu
    exact h2.heap_root

/-! ## The claims -/

/-- C1: binary-search-tree ordering is an invariant of the public operations.
For every well-formed tree whose in-order keys are strictly increasing (the
empty tree included) and every `int` key `k`, each of `insertKey`, `findKey`
and `removeKey` returns and leaves a well-formed tree whose in-order keys are
again strictly increasing, hence without duplicates; so the same holds after
any finite sequence of menu commands, in particular one that starts from
`initSplayTree()`. -/
theorem bst_order_invariant (s : State) (t : T) (k : Int) (cmds : List (Int × Int))
    (fuel : Nat) (hwf : WF s t) (hbst : BST t) (hk : isInt k)
    (hcmds : ∀ c ∈ cmds, isInt c.2) (hf : t.size + cmds.length < fuel) :
    (∃ s2 r t2, insertKey fuel s k = some (s2, r) ∧ WF s2 t2 ∧
        t2.keys.Sorted (· < ·) ∧ t2.keys.Nodup) ∧
    (∃ s2 r t2, findKey fuel s k = some (s2, r) ∧ WF s2 t2 ∧
        t2.keys.Sorted (· < ·) ∧ t2.keys.Nodup) ∧
    (∃ s2 r t2, removeKey fuel s k = some (s2, r) ∧ WF s2 t2 ∧
        t2.keys.Sorted (· < ·) ∧ t2.keys.Nodup) ∧
    (∃ s2 t2, menuLoop fuel cmds s = some s2 ∧ WF s2 t2 ∧
        t2.keys.Sorted (· < ·) ∧ t2.keys.Nodup) ∧
    (∃ s2 t2, menuLoop fuel cmds initSplayTree = some s2 ∧ WF s2 t2 ∧
        t2.keys.Sorted (· < ·) ∧ t2.keys.Nodup) := by
  obtain ⟨⟨s1, r1, t1, h1, h2, h3, -⟩, ⟨s3, r3, t3, h5, h6, h7, -⟩,
    ⟨s5, r5, t5, h9, h10, h11, -⟩⟩ := step_bst s t k fuel hwf hbst hk (by omega)
  obtain ⟨s7, t7, h13, h14, h15⟩ := menuLoop_bst fuel cmds s t hwf hbst hcmds hf
  have hwf0 : WF initSplayTree .leaf := by
    refine ⟨by simp [initSplayTree], by simp, by simp⟩
  have hbst0 : BST .leaf := by
    refine ⟨by simp, by simp⟩
  obtain ⟨s8, t8, h16, h17, h18⟩ :=
    menuLoop_bst fuel cmds initSplayTree .leaf hwf0 hbst0 hcmds (by simp; omega)
  exact ⟨⟨s1, r1, t1, h1, h2, h3.1, h3.nodup⟩, ⟨s3, r3, t3, h5, h6, h7.1, h7.nodup⟩,
    ⟨s5, r5, t5, h9, h10, h11.1, h11.nodup⟩, ⟨s7, t7, h13, h14, h15.1, h15.nodup⟩,
    ⟨s8, t8, h16, h17, h18.1, h18.nodup⟩⟩

set_option maxRecDepth 100000 in
/-- C1 at scenario A with key 7 and the commands find 8, remove 3, remove 99. -/
theorem bst_order_invariant_witness :
    (WF scenarioA shapeA ∧ BST shapeA ∧ isInt 7) ∧
    (∃ s2 r t2, insertKey 10 scenarioA 7 = some (s2, r) ∧ WF s2 t2 ∧
        t2.keys.Sorted (· < ·) ∧ t2.keys.Nodup) ∧
    (∃ s2 r t2, findKey 10 scenarioA 7 = some (s2, r) ∧ WF s2 t2 ∧
        t2.keys.Sorted (· < ·) ∧ t2.keys.Nodup) ∧
    (∃ s2 r t2, removeKey 10 scenarioA 7 = some (s2, r) ∧ WF s2 t2 ∧
        t2.keys.Sorted (· < ·) ∧ t2.keys.Nodup) ∧
    (∃ s2 t2, menuLoop 10 [(3, 8), (2, 3), (2, 99)] scenarioA = some s2 ∧ WF s2 t2 ∧
        t2.keys.Sorted (· < ·) ∧ t2.keys.Nodup) ∧
    (∃ s2 t2, menuLoop 10 [(3, 8), (2, 3), (2, 99)] initSplayTree = some s2 ∧ WF s2 t2 ∧
        t2.keys.Sorted (· < ·) ∧ t2.keys.Nodup) :=
  ⟨by decide,
   bst_order_invariant scenarioA shapeA 7 [(3, 8), (2, 3), (2, 99)] 10
    (by decide) (by decide) (by decide) (by decide) (by decide)⟩

/-- C2: parent back-link consistency is an invariant of the public
operations.  If the heap holds a tree in which the root's parent is absent
and every other node is held in exactly one child slot of the node its
`parent` field names (`WF`), then `insertKey`, `findKey` and `removeKey`
return, for every key, and leave a tree with the same property: it is again
well formed, so its parent links are consistent (`ParentLinks`) for every
node still in the tree. -/
theorem parent_links_invariant (s : State) (t : T) (k : Int) (fuel : Nat)
    (hwf : WF s t) (hf : t.size < fuel) :
    ParentLinks s t ∧
    (∃ s2 r t2, insertKey fuel s k = some (s2, r) ∧ WF s2 t2 ∧ ParentLinks s2 t2) ∧
    (∃ s2 r t2, findKey fuel s k = some (s2, r) ∧ WF s2 t2 ∧ ParentLinks s2 t2) ∧
    (∃ s2 r t2, removeKey fuel s k = some (s2, r) ∧ WF s2 t2 ∧ ParentLinks s2 t2) := by
  obtain ⟨⟨s1, r1, t1, h1, h2⟩, ⟨s3, r3, t3, h3, h4⟩, ⟨s5, r5, t5, h5, h6⟩⟩ :=
    step_wf s t k fuel hwf hf
  exact ⟨hwf.parentLinks, ⟨s1, r1, t1, h1, h2, h2.parentLinks⟩,
    ⟨s3, r3, t3, h3, h4, h4.parentLinks⟩, ⟨s5, r5, t5, h5, h6, h6.parentLinks⟩⟩

set_option maxRecDepth 100000 in
/-- C2 at scenario A with key 4 (the node removed has two children). -/
theorem parent_links_invariant_witness :
    WF scenarioA shapeA ∧
    ParentLinks scenarioA shapeA ∧
    (∃ s2 r t2, insertKey 10 scenarioA 4 = some (s2, r) ∧ WF s2 t2 ∧ ParentLinks s2 t2) ∧
    (∃ s2 r t2, findKey 10 scenarioA 4 = some (s2, r) ∧ WF s2 t2 ∧ ParentLinks s2 t2) ∧
    (∃ s2 r t2, removeKey 10 scenarioA 4 = some (s2, r) ∧ WF s2 t2 ∧ ParentLinks s2 t2) :=
  ⟨by decide, parent_links_invariant scenarioA shapeA 4 10 (by decide) (by decide)⟩

/-- C3: postcondition of `insertKey` on the stored keys.  On a well-formed
search tree `insertKey(k)` returns; if `k` is already stored the in-order key
list and the node count are unchanged and no node is allocated; if `k` is not
stored the new key list is the old one with `k` inserted at its sorted
position and the node count grows by one.  On the empty tree the result is a
single root node holding `k`, and inserting `k` a second time changes neither
the key list nor the node count. -/
theorem insertKey_keys (s : State) (t : T) (k : Int) (fuel : Nat)
    (hwf : WF s t) (hs : t.keys.Sorted (· < ·)) (hf : t.size + 1 < fuel) :
    ∃ s2 r t2, insertKey fuel s k = some (s2, r) ∧ WF s2 t2 ∧
      (k ∈ t.keys → t2.keys = t.keys ∧ t2.size = t.size ∧ s2.next = s.next) ∧
      (k ∉ t.keys → t2.keys = t.keys.orderedInsert (· ≤ ·) k ∧ t2.size = t.size + 1) ∧
      (t = .leaf → ∃ x, t2 = .node .leaf x k .leaf) ∧
      (∃ s3 r3 t3, insertKey fuel s2 k = some (s3, r3) ∧ WF s3 t3 ∧
        t3.keys = t2.keys ∧ t3.size = t2.size ∧ s3.next = s2.next) := by
  obtain ⟨s2, A2, B2, x, h1, h2, h3, h4, h5⟩ := insertKey_bst s t k fuel hwf hs (by omega)
  have hsize : (T.node A2 x k B2).size < fuel := by
    by_cases hm : k ∈ t.keys
    · rw [T.size_eq_of_nodes (h4 hm).1]; omega
    · rw [(h5 hm).2.1]; omega
  obtain ⟨s3, A3, B3, x3, h6, h7, -, h8, -⟩ :=
    insertKey_bst s2 (.node A2 x k B2) k fuel h2 h3 hsize
  have hmem : k ∈ (T.node A2 x k B2).keys := by simp
  refine ⟨s2, _, _, h1, h2, ?_, ?_, ?_, ⟨s3, _, _, h6, h7, ?_⟩⟩
  · intro hm
    exact ⟨T.keys_eq_of_nodes (h4 hm).1, T.size_eq_of_nodes (h4 hm).1, (h4 hm).2⟩
  · intro hm
    exact ⟨(h5 hm).1, (h5 hm).2.1⟩
  · rintro rfl
    have h9 := (h5 (by simp)).2.1
    simp only [T.size_node, T.size_leaf] at h9
    have hA : A2.size = 0 := by omega
    have hB : B2.size = 0 := by omega
    rw [T.size, List.length_eq_zero, T.nodes_eq_nil] at hA hB
    exact ⟨x, by rw [hA, hB]⟩
  · exact ⟨T.keys_eq_of_nodes (h8 hmem).1, T.size_eq_of_nodes (h8 hmem).1, (h8 hmem).2⟩

set_option maxRecDepth 100000 in
/-- C3 at scenario A with the new key 7. -/
theorem insertKey_keys_witness :
    (WF scenarioA shapeA ∧ shapeA.keys = [1, 3, 4, 5, 8] ∧ (7 : Int) ∉ shapeA.keys) ∧
    ∃ s2 r t2, insertKey 10 scenarioA 7 = some (s2, r) ∧ WF s2 t2 ∧
      ((7 : Int) ∈ shapeA.keys →
        t2.keys = shapeA.keys ∧ t2.size = shapeA.size ∧ s2.next = scenarioA.next) ∧
      ((7 : Int) ∉ shapeA.keys →
        t2.keys = shapeA.keys.orderedInsert (· ≤ ·) 7 ∧ t2.size = shapeA.size + 1) ∧
      (shapeA = .leaf → ∃ x, t2 = .node .leaf x 7 .leaf) ∧
      (∃ s3 r3 t3, insertKey 10 s2 7 = some (s3, r3) ∧ WF s3 t3 ∧
        t3.keys = t2.keys ∧ t3.size = t2.size ∧ s3.next = s2.next) :=
  ⟨by decide, insertKey_keys scenarioA shapeA 7 10 (by decide) (by decide) (by decide)⟩

/-- C4: round trip insert then find.  For every well-formed tree and every
key `k`, `insertKey(tree, k)` returns and the following `findKey(tree, k)`
returns a node, not `NULL`, whose key is `k`. -/
theorem insert_then_find (s : State) (t : T) (k : Int) (fuel : Nat)
    (hwf : WF s t) (hf : t.size + 1 < fuel) :
    ∃ s1 r1 s2 x n, insertKey fuel s k = some (s1, r1) ∧
      findKey fuel s1 k = some (s2, some x) ∧ s2.heap x = some n ∧ n.key = k := by
  obtain ⟨s1, A1, B1, x, h1, h2, h3⟩ := insertKey_spec s t k fuel hwf (by omega)
  have hsize : (T.node A1 x k B1).size < fuel := by
    rcases h3 with ⟨-, h, -⟩ | ⟨-, -, -, h4, h5⟩
    · rw [T.size_eq_of_nodes h]; omega
    · have e1 : (T.node A1 x k B1).size = (T.node A1 x k B1).nodes.length := rfl
      have e2 : t.size = t.nodes.length := rfl
      rw [e1, h5]
      rw [e2, h4] at hf
      simp only [List.length_append, List.length_cons] at hf ⊢
      omega
  have hd : descend k (.node A1 x k B1) = ([], .node A1 x k B1) := by
    unfold descend; simp
  obtain ⟨s2, t2, h4, h5, -, -, -, h6, -⟩ := findKey_spec s1 (.node A1 x k B1) k fuel h2 hsize
  rw [hd] at h4 h6
  obtain ⟨A2, B2, rfl⟩ := h6 A1 x B1 rfl
  obtain ⟨-, n, hn, hk, -⟩ := h5.heap_root
  exact ⟨s1, _, s2, x, n, h1, h4, hn, hk⟩

set_option maxRecDepth 100000 in
/-- C4 at scenario A with the new key 7. -/
theorem insert_then_find_witness :
    WF scenarioA shapeA ∧
    ∃ s1 r1 s2 x n, insertKey 10 scenarioA 7 = some (s1, r1) ∧
      findKey 10 s1 7 = some (s2, some x) ∧ s2.heap x = some n ∧ n.key = 7 :=
  ⟨by decide, insert_then_find scenarioA shapeA 7 10 (by decide) (by decide)⟩

/-- C5: postcondition of a successful `removeKey` on the stored keys.  On a
well-formed search tree with `int` keys, for every stored key `k`,
`removeKey(k)` returns 1 and the in-order key list afterwards is the old list
with `k` erased: `k` is gone, every other key is kept, exactly one node
disappears, whatever the number of children of the target node. -/
theorem removeKey_keys (s : State) (t : T) (k : Int) (fuel : Nat)
    (hwf : WF s t) (hbst : BST t) (hk : k ∈ t.keys) (hf : t.size < fuel) :
    ∃ s2 t2, removeKey fuel s k = some (s2, 1) ∧ WF s2 t2 ∧
      t2.keys = t.keys.erase k ∧ t2.size + 1 = t.size ∧ k ∉ t2.keys ∧
      (∀ a ∈ t.keys, a ≠ k → a ∈ t2.keys) := by
  obtain ⟨s2, t2, h1, h2, h3, -⟩ := removeKey_bst s t k fuel hwf hbst hf
  rw [if_pos hk] at h1
  refine ⟨s2, t2, h1, h2, h3, ?_, ?_, ?_⟩
  · rw [T.size_eq_length_keys, T.size_eq_length_keys, h3, List.length_erase_of_mem hk]
    have : 0 < t.keys.length := List.length_pos_of_mem hk
    omega
  · rw [h3]; exact fun h => (hbst.nodup.mem_erase_iff.1 h).1 rfl
  · intro a ha hne
    rw [h3]; exact (List.mem_erase_of_ne hne).2 ha

set_option maxRecDepth 100000 in
/-- C5 at scenario B: `remove(3)` succeeds and leaves the keys 1, 4, 5, 8. -/
theorem removeKey_keys_witness :
    (WF scenarioB shapeB ∧ BST shapeB ∧ shapeB.keys.erase 3 = [1, 4, 5, 8]) ∧
    ∃ s2 t2, removeKey 10 scenarioB 3 = some (s2, 1) ∧ WF s2 t2 ∧
      t2.keys = shapeB.keys.erase 3 ∧ t2.size + 1 = shapeB.size ∧ (3 : Int) ∉ t2.keys ∧
      (∀ a ∈ shapeB.keys, a ≠ 3 → a ∈ t2.keys) :=
  ⟨by decide,
   removeKey_keys scenarioB shapeB 3 10 (by decide) (by decide) (by decide) (by decide)⟩

/-- C6: round trip remove then find.  On a well-formed search tree with `int`
keys, `removeKey(tree, k)` returns, with result 1 when `k` is stored, and
whenever it returns 1 the `findKey(tree, k)` that follows returns `NULL`. -/
theorem remove_then_find (s : State) (t : T) (k : Int) (fuel : Nat)
    (hwf : WF s t) (hbst : BST t) (hf : t.size < fuel) :
    ∃ s1 r, removeKey fuel s k = some (s1, r) ∧ (k ∈ t.keys → r = 1) ∧
      (r = 1 → ∃ s2, findKey fuel s1 k = some (s2, none)) := by
  obtain ⟨s1, t1, h1, h2, h3, -⟩ := removeKey_bst s t k fuel hwf hbst hf
  have hb1 : BST t1 := hbst.erase h3
  have hk1 : k ∉ t1.keys := by
    rw [h3]; exact fun h => (hbst.nodup.mem_erase_iff.1 h).1 rfl
  have hsz : t1.size < fuel := by
    rw [T.size_eq_length_keys, h3]
    have := (List.erase_sublist k t.keys).length_le
    rw [T.size_eq_length_keys] at hf
    omega
  obtain ⟨s2, t2, h4, -⟩ := findKey_miss s1 t1 k fuel h2 hb1.1 hk1 hsz
  refine ⟨s1, _, h1, ?_, fun _ => ⟨s2, h4⟩⟩
  intro hk; rw [if_pos hk]

set_option maxRecDepth 100000 in
/-- C6 at scenario B with the stored key 3. -/
theorem remove_then_find_witness :
    (WF scenarioB shapeB ∧ BST shapeB ∧ (3 : Int) ∈ shapeB.keys) ∧
    ∃ s1 r, removeKey 10 scenarioB 3 = some (s1, r) ∧ ((3 : Int) ∈ shapeB.keys → r = 1) ∧
      (r = 1 → ∃ s2, findKey 10 s1 3 = some (s2, none)) :=
  ⟨by decide, remove_then_find scenarioB shapeB 3 10 (by decide) (by decide) (by decide)⟩

/-- C7: root after access.  For every well-formed tree, `insertKey(k1)`
returns a node that is the tree's root afterwards, holds `k1` and has no
parent; and whenever `findKey(k2)` returns a node, that node is the tree's
root afterwards, holds `k2` and has no parent. -/
theorem root_after_access (s : State) (t : T) (k1 k2 : Int) (fuel : Nat)
    (hwf : WF s t) (hf : t.size < fuel) :
    (∃ s2 x n, insertKey fuel s k1 = some (s2, some x) ∧ s2.root = some x ∧
        s2.heap x = some n ∧ n.key = k1 ∧ n.parent = none) ∧
    (∃ s2 r, findKey fuel s k2 = some (s2, r) ∧
        ∀ x, r = some x → s2.root = some x ∧
          ∃ n, s2.heap x = some n ∧ n.key = k2 ∧ n.parent = none) := by
  constructor
  · obtain ⟨s2, A2, B2, x, h1, h2, -⟩ := insertKey_spec s t k1 fuel hwf hf
    obtain ⟨h3, n, h4, h5, h6⟩ := h2.heap_root
    exact ⟨s2, x, n, h1, h3, h4, h5, h6⟩
  · obtain ⟨s2, h1, h2⟩ := findKey_found s t k2 fuel hwf hf
    exact ⟨s2, _, h1, h2⟩

set_option maxRecDepth 100000 in
/-- C7 at scenario A, the tree left by inserting 5, 3, 8, 1, 4: its root is
the node at address 4 holding key 4, and `find(8)` makes the node holding 8
(address 2) the root. -/
theorem root_after_access_witness :
    (WF scenarioA shapeA ∧ scenarioA.root = some 4 ∧
      (scenarioA.load scenarioA.root).map Node.key = some 4 ∧
      (findKey 10 scenarioA 8).map
        (fun r => (r.2, r.1.root, (r.1.load r.1.root).map Node.key)) =
        some (some 2, some 2, some 8)) ∧
    (∃ s2 x n, insertKey 10 scenarioA 4 = some (s2, some x) ∧ s2.root = some x ∧
        s2.heap x = some n ∧ n.key = 4 ∧ n.parent = none) ∧
    (∃ s2 r, findKey 10 scenarioA 8 = some (s2, r) ∧
        ∀ x, r = some x → s2.root = some x ∧
          ∃ n, s2.heap x = some n ∧ n.key = 8 ∧ n.parent = none) :=
  ⟨by decide, root_after_access scenarioA shapeA 4 8 10 (by decide) (by decide)⟩

/-- C8: a miss changes no stored key.  On a well-formed search tree, for
every key `k` that is not stored, `findKey(k)` returns `NULL` and
`removeKey(k)` returns 0, and both leave the in-order list of nodes with
their keys, hence the key list and the node count, exactly as they were; no
node is allocated. -/
theorem miss_keeps_keys (s : State) (t : T) (k : Int) (fuel : Nat)
    (hwf : WF s t) (hs : t.keys.Sorted (· < ·)) (hk : k ∉ t.keys) (hf : t.size < fuel) :
    (∃ s2 t2, findKey fuel s k = some (s2, none) ∧ WF s2 t2 ∧ t2.nodes = t.nodes ∧
        t2.keys = t.keys ∧ t2.size = t.size ∧ s2.next = s.next) ∧
    (∃ s2 t2, removeKey fuel s k = some (s2, 0) ∧ WF s2 t2 ∧ t2.nodes = t.nodes ∧
        t2.keys = t.keys ∧ t2.size = t.size ∧ s2.next = s.next) := by
  obtain ⟨s2, t2, h1, h2, h3, h4, h5, -⟩ := findKey_miss s t k fuel hwf hs hk hf
  exact ⟨⟨s2, t2, h1, h3, h4, T.keys_eq_of_nodes h4, T.size_eq_of_nodes h4, h5⟩,
    ⟨s2, t2, h2, h3, h4, T.keys_eq_of_nodes h4, T.size_eq_of_nodes h4, h5⟩⟩

set_option maxRecDepth 100000 in
/-- C8 at scenario C, the tree with keys 1, 4, 5, 8: `remove(99)` and
`find(99)` leave the traversal 1, 4, 5, 8. -/
theorem miss_keeps_keys_witness :
    (WF scenarioC shapeC ∧ shapeC.keys = [1, 4, 5, 8] ∧ (99 : Int) ∉ shapeC.keys) ∧
    (∃ s2 t2, findKey 10 scenarioC 99 = some (s2, none) ∧ WF s2 t2 ∧
        t2.nodes = shapeC.nodes ∧ t2.keys = shapeC.keys ∧ t2.size = shapeC.size ∧
        s2.next = scenarioC.next) ∧
    (∃ s2 t2, removeKey 10 scenarioC 99 = some (s2, 0) ∧ WF s2 t2 ∧
        t2.nodes = shapeC.nodes ∧ t2.keys = shapeC.keys ∧ t2.size = shapeC.size ∧
        s2.next = scenarioC.next) :=
  ⟨by decide,
   miss_keeps_keys scenarioC shapeC 99 10 (by decide) (by decide) (by decide) (by decide)⟩

/-- C9: key-not-found is reported exactly when the key is absent.  On a
well-formed search tree `findKey(k)` returns a node iff `k` is among the
stored keys, and that node holds `k`; `removeKey(k)` returns 1 iff `k` is
among the stored keys and 0 otherwise.  On the empty tree `findKey` returns
`NULL` and `removeKey` returns 0, the state unchanged, without a fault. -/
theorem found_iff_stored (s : State) (t : T) (k : Int) (fuel : Nat)
    (hwf : WF s t) (hs : t.keys.Sorted (· < ·)) (hf : t.size < fuel) :
    (∃ s2 r, findKey fuel s k = some (s2, r) ∧ (r ≠ none ↔ k ∈ t.keys) ∧
        ∀ x, r = some x → ∃ n, s2.heap x = some n ∧ n.key = k) ∧
    (∃ s2 b, removeKey fuel s k = some (s2, b) ∧ (b = 1 ↔ k ∈ t.keys) ∧
        (b = 0 ↔ k ∉ t.keys)) ∧
    (t = .leaf → findKey fuel s k = some (s, none) ∧ removeKey fuel s k = some (s, 0)) := by
  refine ⟨?_, ?_, ?_⟩
  · obtain ⟨s2, h1, h3⟩ := findKey_found s t k fuel hwf hf
    refine ⟨s2, _, h1, ?_, fun x hx => (h3 x hx).2.imp fun n hn => ⟨hn.1, hn.2.1⟩⟩
    rw [← descend_hit_iff k t hs]
    constructor
    · intro hne
      rcases descend_target k t with hu | hu
      · rw [hu] at hne; simp at hne
      · exact hu
    · rintro ⟨A, x, B, e⟩
      rw [e]; simp
  · by_cases hk : k ∈ t.keys
    · obtain ⟨A, x, B, hd⟩ := (descend_hit_iff k t hs).2 hk
      obtain ⟨s2, t2, c2, Ch, h1, -⟩ := removeKey_hit s t k fuel A B x hwf hf hd
      exact ⟨s2, 1, h1, by simp [hk], by simp [hk]⟩
    · obtain ⟨s2, t2, -, h1, -⟩ := findKey_miss s t k fuel hwf hs hk hf
      exact ⟨s2, 0, h1, by simp [hk], by simp [hk]⟩
  · rintro rfl
    have hroot : s.root = none := by simpa using hwf.1
    obtain ⟨fuel, rfl⟩ : ∃ n, fuel = n + 1 := ⟨fuel - 1, by omega⟩
    simp [findKey, removeKey, findNode, hroot]

set_option maxRecDepth 100000 in
/-- C9 at scenario A with the stored key 5. -/
theorem found_iff_stored_witness :
    (WF scenarioA shapeA ∧ (5 : Int) ∈ shapeA.keys) ∧
    (∃ s2 r, findKey 10 scenarioA 5 = some (s2, r) ∧ (r ≠ none ↔ (5 : Int) ∈ shapeA.keys) ∧
        ∀ x, r = some x → ∃ n, s2.heap x = some n ∧ n.key = 5) ∧
    (∃ s2 b, removeKey 10 scenarioA 5 = some (s2, b) ∧ (b = 1 ↔ (5 : Int) ∈ shapeA.keys) ∧
        (b = 0 ↔ (5 : Int) ∉ shapeA.keys)) ∧
    (shapeA = .leaf →
      findKey 10 scenarioA 5 = some (scenarioA, none) ∧
      removeKey 10 scenarioA 5 = some (scenarioA, 0)) :=
  ⟨by decide, found_iff_stored scenarioA shapeA 5 10 (by decide) (by decide) (by decide)⟩

/-- C10: a miss splays the last visited node.  On a non-empty well-formed
search tree, for every key `k` that is not stored, the descent `findNode`
makes for `k` from the root ends at `NULL` and leaves in `prev` a node `p`
whose child slot on the side of `k` is empty; after `findKey(k)` and after
`removeKey(k)` that node `p` is the tree's root, with its key unchanged and
its parent absent. -/
theorem miss_splays_last_visited (s : State) (t : T) (k : Int) (fuel : Nat)
    (hwf : WF s t) (hs : t.keys.Sorted (· < ·)) (hne : t ≠ .leaf) (hk : k ∉ t.keys)
    (hf : t.size < fuel) :
    ∃ p pn, findNode fuel s s.root none k = some (none, some p) ∧ s.heap p = some pn ∧
      (k < pn.key ∧ pn.left = none ∨ pn.key < k ∧ pn.right = none) ∧
      (∃ s2 n2, findKey fuel s k = some (s2, none) ∧ s2.root = some p ∧
        s2.heap p = some n2 ∧ n2.key = pn.key ∧ n2.parent = none) ∧
      (∃ s2 n2, removeKey fuel s k = some (s2, 0) ∧ s2.root = some p ∧
        s2.heap p = some n2 ∧ n2.key = pn.key ∧ n2.parent = none) := by
  have hleaf := (descend_leaf_iff k t hs).2 hk
  have hfind := findNode_spec k s t s.root none none fuel hwf.1 hf
  rw [hleaf, descendPrev_eq] at hfind
  have hplug := descend_plug k t
  have hframes := descend_frames k t
  obtain ⟨s2, t2, h1, h2, h3, -, -, -⟩ := findKey_miss s t k fuel hwf hs hk hf
  obtain ⟨s3, t3, h4, h5, -, -, -, -, h6⟩ := findKey_spec s t k fuel hwf hf
  rw [hleaf] at h4 hplug
  rw [h1] at h4
  simp only [T.ptr_leaf, Option.some.injEq, Prod.mk.injEq, and_true] at h4
  subst h4
  cases hd : (descend k t).1 with
  | nil => exact absurd (descend_nil_of_leaf hd hleaf) hne
  | cons f c =>
    rw [hd] at hfind hplug hframes
    obtain ⟨A2, B2, rfl⟩ := h6 f c hd hleaf
    obtain ⟨hroot, n2, hn2, hk2, hp2⟩ := h5.heap_root
    have hrep := hwf.1
    rw [← hplug, Rep_plug] at hrep
    obtain ⟨par, hc, -⟩ := hrep
    have hf1 := hframes f (by simp)
    cases f with
    | L a kf r =>
      rw [RepCtx_L] at hc
      obtain ⟨-, pn, hpn, hpk, hpl, -, -⟩ := hc
      have hlt : k < kf := by
        rcases hf1 with ⟨a2, k3, r2, e, h⟩ | ⟨l2, a2, k3, e, h⟩
        · simp only [Frame.L.injEq] at e
          obtain ⟨-, rfl, -⟩ := e
          exact h
        · simp at e
      refine ⟨a, pn, hfind, hpn, Or.inl ⟨hpk ▸ hlt, hpl⟩, ⟨s2, n2, h1, hroot, hn2, ?_, hp2⟩,
        ⟨s2, n2, h2, hroot, hn2, ?_, hp2⟩⟩
      · rw [hk2, hpk]; rfl
      · rw [hk2, hpk]; rfl
    | R l a kf =>
      rw [RepCtx_R] at hc
      obtain ⟨-, pn, hpn, hpk, hpl, -, -⟩ := hc
      have hlt : kf < k := by
        rcases hf1 with ⟨a2, k3, r2, e, h⟩ | ⟨l2, a2, k3, e, h⟩
        · simp at e
        · simp only [Frame.R.injEq] at e
          obtain ⟨-, -, rfl⟩ := e
          exact h
      refine ⟨a, pn, hfind, hpn, Or.inr ⟨hpk ▸ hlt, hpl⟩, ⟨s2, n2, h1, hroot, hn2, ?_, hp2⟩,
        ⟨s2, n2, h2, hroot, hn2, ?_, hp2⟩⟩
      · rw [hk2, hpk]; rfl
      · rw [hk2, hpk]; rfl

set_option maxRecDepth 100000 in
/-- C10 at scenario C with the absent key 99: the search ends below the node
holding 8 (address 2), which becomes the root. -/
theorem miss_splays_last_visited_witness :
    (WF scenarioC shapeC ∧ (99 : Int) ∉ shapeC.keys ∧
      findNode 10 scenarioC scenarioC.root none 99 = some (none, some 2) ∧
      (removeKey 10 scenarioC 99).map (fun r => (r.1.root, r.2)) = some (some 2, 0)) ∧
    ∃ p pn, findNode 10 scenarioC scenarioC.root none 99 = some (none, some p) ∧
      scenarioC.heap p = some pn ∧
      ((99 : Int) < pn.key ∧ pn.left = none ∨ pn.key < 99 ∧ pn.right = none) ∧
      (∃ s2 n2, findKey 10 scenarioC 99 = some (s2, none) ∧ s2.root = some p ∧
        s2.heap p = some n2 ∧ n2.key = pn.key ∧ n2.parent = none) ∧
      (∃ s2 n2, removeKey 10 scenarioC 99 = some (s2, 0) ∧ s2.root = some p ∧
        s2.heap p = some n2 ∧ n2.key = pn.key ∧ n2.parent = none) :=
  ⟨by decide,
   miss_splays_last_visited scenarioC shapeC 99 10 (by decide) (by decide) (by decide)
    (by decide) (by decide)⟩

/-! ## Further claims: splay, rotations, removal -/

/-- C12: postcondition of `splay`.  For every well-formed tree and every node
`x` of it, `splay(&root, x)` returns `x` and leaves `x` as the tree's root
with `x->parent` absent; the in-order sequence of nodes and keys, hence the
node count, is unchanged.  `splay` on an absent node returns `NULL` and
changes nothing. -/
theorem splay_postcondition (s : State) (t : T) (x : Addr) (fuel : Nat)
    (hwf : WF s t) (hx : x ∈ t.addrs) (hf : t.size ≤ fuel) :
    (∃ s2 t2 n, splay fuel s (some x) = some (s2, some x) ∧ WF s2 t2 ∧
        s2.root = some x ∧ s2.heap x = some n ∧ n.parent = none ∧
        t2.nodes = t.nodes ∧ t2.keys = t.keys ∧ t2.size = t.size ∧ s2.next = s.next) ∧
    splay fuel s none = some (s, none) := by
  obtain ⟨c, A, k, B, rfl⟩ := exists_plug_of_mem hx
  have hlen := size_plug c (.node A x k B)
  simp only [T.size_node] at hlen
  obtain ⟨s2, A2, B2, h1, h2, h3, h4⟩ := splay_spec s c A B x k fuel hwf (by omega)
  obtain ⟨h5, n, h6, -, h7⟩ := h2.heap_root
  exact ⟨⟨s2, _, n, h1, h2, h5, h6, h7, h3, T.keys_eq_of_nodes h3, T.size_eq_of_nodes h3, h4⟩,
    by simp [splay]⟩

set_option maxRecDepth 100000 in
/-- C12 at scenario A, splaying the node at address 1 (key 3, depth 2). -/
theorem splay_postcondition_witness :
    (WF scenarioA shapeA ∧ (1 : Addr) ∈ shapeA.addrs) ∧
    (∃ s2 t2 n, splay 10 scenarioA (some 1) = some (s2, some 1) ∧ WF s2 t2 ∧
        s2.root = some 1 ∧ s2.heap 1 = some n ∧ n.parent = none ∧
        t2.nodes = shapeA.nodes ∧ t2.keys = shapeA.keys ∧ t2.size = shapeA.size ∧
        s2.next = scenarioA.next) ∧
    splay 10 scenarioA none = some (scenarioA, none) :=
  ⟨by decide, splay_postcondition scenarioA shapeA 1 10 (by decide) (by decide) (by decide)⟩

theorem WF.plug_congr {s : State} {c : Ctx} {u : T} {par : Ptr} (s2 : State) (u2 : T)
    (hwf : WF s (plug c u)) (hn : u2.nodes = u.nodes)
    (hc : RepCtx s2.heap s2.root c u2.ptr par) (ht : Rep s2.heap u2.ptr par u2)
    (hnext : s2.next = s.next) : WF s2 (plug c u2) := by
  refine ⟨(Rep_plug _ _ _ _).2 ⟨par, hc, ht⟩, ?_, ?_⟩
  · rw [addrs_plug_congr c hn]; exact hwf.2.1
  · rw [addrs_plug_congr c hn, hnext]; exact hwf.2.2

/-- C14: rotation shape and order preservation.  For a node `r` with left
child `x`, where `x = (A, x, B)` and `r = (x, r, C)`, in any position `c` of a
well-formed tree, `rotateRight(&root, r)` returns `x` and puts at that same
position (same child slot of the same parent, or the root) the node `x` with
left subtree `A` and right child `r`, which has left subtree `B` and right
subtree `C`; the rest of the tree (the context `c`) is as before, so the
in-order sequence of nodes and keys of the whole tree is unchanged.
`rotateLeft` is the mirror image for a node with a right child. -/
theorem rotation_shape (s1 : State) (c1 : Ctx) (A1 B1 C1 : T) (r1 x1 : Addr) (kr1 kx1 : Int)
    (s2 : State) (c2 : Ctx) (A2 B2 C2 : T) (r2 x2 : Addr) (kr2 kx2 : Int)
    (h1 : WF s1 (plug c1 (.node (.node A1 x1 kx1 B1) r1 kr1 C1)))
    (h2 : WF s2 (plug c2 (.node A2 r2 kr2 (.node B2 x2 kx2 C2)))) :
    (∃ s3, rotateRight s1 (some r1) = some (s3, some x1) ∧
        WF s3 (plug c1 (.node A1 x1 kx1 (.node B1 r1 kr1 C1))) ∧
        (plug c1 (.node A1 x1 kx1 (.node B1 r1 kr1 C1))).nodes =
          (plug c1 (.node (.node A1 x1 kx1 B1) r1 kr1 C1)).nodes ∧
        (plug c1 (.node A1 x1 kx1 (.node B1 r1 kr1 C1))).keys =
          (plug c1 (.node (.node A1 x1 kx1 B1) r1 kr1 C1)).keys) ∧
    (∃ s3, rotateLeft s2 (some r2) = some (s3, some x2) ∧
        WF s3 (plug c2 (.node (.node A2 r2 kr2 B2) x2 kx2 C2)) ∧
        (plug c2 (.node (.node A2 r2 kr2 B2) x2 kx2 C2)).nodes =
          (plug c2 (.node A2 r2 kr2 (.node B2 x2 kx2 C2))).nodes ∧
        (plug c2 (.node (.node A2 r2 kr2 B2) x2 kx2 C2)).keys =
          (plug c2 (.node A2 r2 kr2 (.node B2 x2 kx2 C2))).keys) := by
  constructor
  · have hrep := h1.1
    rw [Rep_plug] at hrep
    obtain ⟨par, hc, ht⟩ := hrep
    obtain ⟨s3, e1, e2, e3, e4⟩ := rotateRight_spec s1 c1 A1 B1 C1 r1 x1 kr1 kx1 par hc ht h1.2.1
    have hn : (T.node A1 x1 kx1 (.node B1 r1 kr1 C1)).nodes =
        (T.node (.node A1 x1 kx1 B1) r1 kr1 C1).nodes := by simp
    exact ⟨s3, e1, WF.plug_congr s3 _ h1 hn e2 e3 e4, nodes_plug_congr c1 hn,
      T.keys_eq_of_nodes (nodes_plug_congr c1 hn)⟩
  · have hrep := h2.1
    rw [Rep_plug] at hrep
    obtain ⟨par, hc, ht⟩ := hrep
    obtain ⟨s3, e1, e2, e3, e4⟩ := rotateLeft_spec s2 c2 A2 B2 C2 r2 x2 kr2 kx2 par hc ht h2.2.1
    have hn : (T.node (.node A2 r2 kr2 B2) x2 kx2 C2).nodes =
        (T.node A2 r2 kr2 (.node B2 x2 kx2 C2)).nodes := by simp
    exact ⟨s3, e1, WF.plug_congr s3 _ h2 hn e2 e3 e4, nodes_plug_congr c2 hn,
      T.keys_eq_of_nodes (nodes_plug_congr c2 hn)⟩

set_option maxRecDepth 100000 in
/-- C14 at scenario A: `rotateRight` at the node holding 8 (address 2, right
child of the root, left child at address 0) and `rotateLeft` at the root
(address 4, right child at address 2). -/
theorem rotation_shape_witness :
    (WF scenarioA
        (plug [.R (.node .leaf 3 1 (.node .leaf 1 3 .leaf)) 4 4]
          (.node (.node .leaf 0 5 .leaf) 2 8 .leaf)) ∧
      WF scenarioA
        (plug [] (.node (.node .leaf 3 1 (.node .leaf 1 3 .leaf)) 4 4
          (.node (.node .leaf 0 5 .leaf) 2 8 .leaf)))) ∧
    (∃ s3, rotateRight scenarioA (some 2) = some (s3, some 0) ∧
        WF s3 (plug [.R (.node .leaf 3 1 (.node .leaf 1 3 .leaf)) 4 4]
          (.node .leaf 0 5 (.node .leaf 2 8 .leaf))) ∧
        (plug [.R (.node .leaf 3 1 (.node .leaf 1 3 .leaf)) 4 4]
          (.node .leaf 0 5 (.node .leaf 2 8 .leaf))).nodes =
          (plug [.R (.node .leaf 3 1 (.node .leaf 1 3 .leaf)) 4 4]
            (.node (.node .leaf 0 5 .leaf) 2 8 .leaf)).nodes ∧
        (plug [.R (.node .leaf 3 1 (.node .leaf 1 3 .leaf)) 4 4]
          (.node .leaf 0 5 (.node .leaf 2 8 .leaf))).keys =
          (plug [.R (.node .leaf 3 1 (.node .leaf 1 3 .leaf)) 4 4]
            (.node (.node .leaf 0 5 .leaf) 2 8 .leaf)).keys) ∧
    (∃ s3, rotateLeft scenarioA (some 4) = some (s3, some 2) ∧
        WF s3 (plug [] (.node (.node (.node .leaf 3 1 (.node .leaf 1 3 .leaf)) 4 4
          (.node .leaf 0 5 .leaf)) 2 8 .leaf)) ∧
        (plug [] (.node (.node (.node .leaf 3 1 (.node .leaf 1 3 .leaf)) 4 4
          (.node .leaf 0 5 .leaf)) 2 8 .leaf)).nodes =
          (plug [] (.node (.node .leaf 3 1 (.node .leaf 1 3 .leaf)) 4 4
            (.node (.node .leaf 0 5 .leaf) 2 8 .leaf))).nodes ∧
        (plug [] (.node (.node (.node .leaf 3 1 (.node .leaf 1 3 .leaf)) 4 4
          (.node .leaf 0 5 .leaf)) 2 8 .leaf)).keys =
          (plug [] (.node (.node .leaf 3 1 (.node .leaf 1 3 .leaf)) 4 4
            (.node (.node .leaf 0 5 .leaf) 2 8 .leaf))).keys) :=
  ⟨by decide,
   rotation_shape scenarioA [.R (.node .leaf 3 1 (.node .leaf 1 3 .leaf)) 4 4] .leaf .leaf .leaf
    2 0 8 5 scenarioA [] (.node .leaf 3 1 (.node .leaf 1 3 .leaf)) (.node .leaf 0 5 .leaf) .leaf
    4 2 4 8 (by decide) (by decide)⟩

/-- The two calls `removeKey` makes when the key is found at node `x`:
`removeNode` unlinks a node and returns its parent `par`, `splay` brings that
parent to the root (or does nothing when it is absent). -/
theorem removeKey_hit_root (s : State) (t : T) (key : Int) (fuel : Nat) (A B : T) (x : Addr)
    (hwf : WF s t) (hf : t.size < fuel)
    (hd : (descend key t).2 = .node A x key B) :
    ∃ s1 s2 c2 Ch par, removeNode fuel s (some x) = some (s1, par) ∧
      splay fuel s1 par = some (s2, par) ∧ removeKey fuel s key = some (s2, 1) ∧
      WF s1 (plug c2 Ch) ∧
      (c2 = [] → par = none ∧ s2 = s1) ∧
      (∀ f c3, c2 = f :: c3 → par = some f.addr ∧ ∃ A2 B2, WF s2 (.node A2 f.addr f.key B2)) ∧
      ((A = .leaf ∧ Ch = B ∨ B = .leaf ∧ Ch = A) ∧ c2 = (descend key t).1 ∨
       A ≠ .leaf ∧ B ≠ .leaf ∧ ∃ e F HL hc khc,
         stopAt (intWrap (key + 1)) (.node A x key B) = (e ++ [F], .node HL hc khc Ch) ∧
         c2 = e ++ F.setKey khc :: (descend key t).1 ∧
         (F = .L x key B ∧ intWrap (key + 1) < key ∨ F = .R A x key ∧ key < intWrap (key + 1)) ∧
         (descend (intWrap (key + 1)) (.node A x key B) = (e ++ [F], .node HL hc khc Ch) ∧
            khc = intWrap (key + 1) ∨
          ∃ f, descend (intWrap (key + 1)) (.node A x key B) = (f :: (e ++ [F]), .leaf) ∧
            f.fill .leaf = .node HL hc khc Ch ∧ f.addr = hc)) := by
  have hfind := findNode_spec key s t s.root none none fuel hwf.1 hf
  have hplug := descend_plug key t
  rw [hd] at hplug hfind
  have hlen := size_plug (descend key t).1 (.node A x key B)
  rw [hplug] at hlen
  obtain ⟨s1, c2, Ch, par, h1, h2, h3, h4, h5, h6⟩ :=
    removeNode_spec s (descend key t).1 A B x key fuel (by rw [hplug]; exact hwf) (by omega)
  rw [hplug] at h5
  cases c2 with
  | nil =>
    rw [RepCtx_nil] at h2
    obtain ⟨-, rfl⟩ := h2
    refine ⟨s1, s1, [], Ch, none, h1, by simp [splay], ?_, h3, fun _ => ⟨rfl, rfl⟩, ?_, h6⟩
    · simp [removeKey, hfind, h1, splay]
    · intro f c3 e; simp at e
  | cons f c3 =>
    have hp := RepCtx_par h2
    subst hp
    obtain ⟨s2, A2, B2, h7, h8, -, -⟩ : ∃ s2 A2 B2,
        splay fuel s1 (some f.addr) = some (s2, some f.addr) ∧
        WF s2 (.node A2 f.addr f.key B2) ∧
        (T.node A2 f.addr f.key B2).nodes = (plug (f :: c3) Ch).nodes ∧ s2.next = s1.next := by
      simp only [List.length_cons] at h5
      cases f with
      | L a k r => exact splay_spec s1 c3 Ch r a k fuel h3 (by omega)
      | R l a k => exact splay_spec s1 c3 l Ch a k fuel h3 (by omega)
    refine ⟨s1, s2, f :: c3, Ch, some f.addr, h1, h7, ?_, h3, ?_, ?_, h6⟩
    · simp [removeKey, hfind, h1, h7]
    · intro e; simp at e
    · intro f2 c4 e
      simp only [List.cons.injEq] at e
      obtain ⟨rfl, -⟩ := e
      exact ⟨rfl, A2, B2, h8⟩

/-- C11: root after a successful remove.  On a well-formed search tree with
`int` keys, for a stored key `k` found at node `x`, `removeKey(k)` returns 1.
If `x` has fewer than two children the node unlinked is `x`: when `x` has a
parent, that parent is the root afterwards; when `x` is the root,
`removeNode` returns `NULL`, `splay` on it does nothing, and the new root is
the only child of `x` with its parent absent, or the tree is empty.  If `x`
has two children the node unlinked is the in-order successor `u`, the node
that follows `x` in the in-order list: the parent `p` of `u` is the root
afterwards, and when `p` is the target `x` itself the root holds the key of
`u`. -/
theorem root_after_remove (s : State) (t : T) (k : Int) (fuel : Nat)
    (hwf : WF s t) (hbst : BST t) (hk : k ∈ t.keys) (hf : t.size < fuel) :
    ∃ x xn prev s1 s2 par, findNode fuel s s.root none k = some (some x, prev) ∧
      s.heap x = some xn ∧ xn.key = k ∧
      removeNode fuel s (some x) = some (s1, par) ∧ splay fuel s1 par = some (s2, par) ∧
      removeKey fuel s k = some (s2, 1) ∧ s2.root = (if par.isSome then par else s1.root) ∧
      ((xn.left = none ∨ xn.right = none) →
        par = xn.parent ∧ (∀ p, xn.parent = some p → s2.root = some p) ∧
        (xn.parent = none → s2 = s1 ∧
          s2.root = (if xn.left.isSome then xn.left else xn.right) ∧
          ∀ r n, s2.root = some r → s2.heap r = some n → n.parent = none)) ∧
      (xn.left ≠ none → xn.right ≠ none →
        ∃ u un p pre post, t.nodes = pre ++ (x, k) :: (u, un.key) :: post ∧
          s.heap u = some un ∧ un.left = none ∧ un.parent = some p ∧ par = some p ∧
          s2.root = some p ∧ (p = x → ∃ n2, s2.heap x = some n2 ∧ n2.key = un.key)) := by
  obtain ⟨A, x, B, hd⟩ := (descend_hit_iff k t hbst.1).2 hk
  have hfind := findNode_spec k s t s.root none none fuel hwf.1 hf
  have hplug := descend_plug k t
  rw [hd] at hplug hfind
  obtain ⟨s1, s2, c2, Ch, par, h1, h2, h3, h4, h5, h6, h7⟩ :=
    removeKey_hit_root s t k fuel A B x hwf hf hd
  have hrep := hwf.1
  rw [← hplug, Rep_plug] at hrep
  obtain ⟨par0, hC, hT⟩ := hrep
  simp only [T.ptr_node] at hC hT
  have hT0 := hT
  rw [Rep_node] at hT
  obtain ⟨-, xn, hxn, hxk, hxp, hA, hB⟩ := hT
  have hroot2 : s2.root = (if par.isSome then par else s1.root) := by
    cases c2 with
    | nil =>
      obtain ⟨rfl, rfl⟩ := h5 rfl
      simp
    | cons f c3 =>
      obtain ⟨rfl, A2, B2, hw⟩ := h6 f c3 rfl
      simpa using hw.root_eq
  refine ⟨x, xn, _, s1, s2, par, hfind, hxn, hxk, h1, h2, h3, hroot2, ?_, ?_⟩
  · -- fewer than two children
    intro hlt
    have hone : A = .leaf ∨ B = .leaf := by
      rcases hlt with h | h
      · left; rw [hA.ptr_eq] at h; exact T.ptr_eq_none.1 h
      · right; rw [hB.ptr_eq] at h; exact T.ptr_eq_none.1 h
    rcases h7 with ⟨hch, rfl⟩ | ⟨hA2, hB2, -⟩
    swap
    · rcases hone with h | h
      · exact absurd h hA2
      · exact absurd h hB2
    have hsel : (if xn.left.isSome then xn.left else xn.right) = Ch.ptr := by
      rcases hch with ⟨rfl, rfl⟩ | ⟨rfl, rfl⟩
      · simp only [Rep_leaf] at hA
        simp [hA, hB.ptr_eq]
      · simp only [Rep_leaf] at hB
        rw [hA.ptr_eq, hB]
        cases Ch <;> simp
    cases hc : (descend k t).1 with
    | nil =>
      rw [hc] at hC h5 h4
      rw [RepCtx_nil] at hC
      obtain ⟨hp0, hs21⟩ := h5 rfl
      refine ⟨by rw [hp0, hxp, hC.2], ?_, fun _ => ⟨hs21, ?_, ?_⟩⟩
      · intro p hp; rw [hxp, hC.2] at hp; simp at hp
      · rw [hs21, hsel]; exact h4.root_eq
      · rw [hs21]; exact h4.parentLinks.1
    | cons f c3 =>
      rw [hc] at hC h6
      obtain ⟨hp0, -⟩ := h6 f c3 rfl
      have hp1 := RepCtx_par hC
      refine ⟨by rw [hp0, hxp, hp1], ?_, fun h => ?_⟩
      · intro p hp
        rw [hroot2, hp0, ← hp, hxp, hp1]; simp
      · rw [hxp, hp1] at h; simp at h
  · -- two children: the successor is unlinked
    intro hl hr
    have hA2 : A ≠ .leaf := by
      rintro rfl; simp only [Rep_leaf] at hA; exact hl hA
    have hB2 : B ≠ .leaf := by
      rintro rfl; simp only [Rep_leaf] at hB; exact hr hB
    rcases h7 with ⟨hch, -⟩ | ⟨-, -, e, F, HL, hc, khc, hstop, rfl, hF, hdesc⟩
    · rcases hch with ⟨h, -⟩ | ⟨h, -⟩
      · exact absurd h hA2
      · exact absurd h hB2
    have hk2 : t.keys = (Ctx.before (descend k t).1).map Prod.snd ++
        (A.keys ++ k :: B.keys) ++ (Ctx.after (descend k t).1).map Prod.snd := by
      conv_lhs => rw [← hplug]
      rw [keys_plug, T.keys_node]
    have hsub : (T.node A x k B).keys.Sorted (· < ·) := by
      have := hbst.1
      rw [hk2] at this
      rw [T.keys_node]
      exact ((List.pairwise_append.1 ((List.pairwise_append.1 this).1)).2.1)
    have hrsub : ∀ k2 ∈ (T.node A x k B).keys, -2147483648 ≤ k2 ∧ k2 ≤ 2147483647 := by
      intro k2 hk3
      apply hbst.2
      rw [hk2]
      rw [T.keys_node] at hk3
      simp only [List.mem_append]
      exact Or.inl (Or.inr (by simpa using hk3))
    obtain ⟨-, rfl, hHL, hbe, hBn⟩ :=
      successor_shape A B x k hsub hrsub hB2 e _ HL Ch hc khc hF hdesc
    subst hHL
    have hsp := stopAt_plug (intWrap (k + 1)) (.node A x k B)
    rw [hstop] at hsp
    simp only at hsp
    have hplug2 : plug (e ++ Frame.R A x k :: (descend k t).1) (.node .leaf hc khc Ch) = t := by
      have : e ++ Frame.R A x k :: (descend k t).1 = (e ++ [Frame.R A x k]) ++ (descend k t).1 := by
        simp
      rw [this, plug_append, hsp, hplug]
    have hrep2 := hwf.1
    rw [← hplug2, Rep_plug] at hrep2
    obtain ⟨par2, hC2, hT2⟩ := hrep2
    simp only [T.ptr_node] at hC2 hT2
    have hT3 := hT2
    rw [Rep_node] at hT3
    obtain ⟨-, un, hun, huk, hup, hul, -⟩ := hT3
    simp only [Rep_leaf] at hul
    have hnodes : t.nodes = (Ctx.before (descend k t).1 ++ A.nodes) ++ (x, k) :: (hc, un.key) ::
        (Ch.nodes ++ Ctx.after e ++ Ctx.after (descend k t).1) := by
      conv_lhs => rw [← hplug]
      rw [nodes_plug, T.nodes_node, hBn, huk]
      simp
    cases e with
    | nil =>
      simp only [List.nil_append] at hC2 h6
      have hp1 := RepCtx_par hC2
      obtain ⟨hp0, A2, B2, hw⟩ := h6 _ _ rfl
      simp only [Frame.addr_setKey, Frame.addr] at hp0 hp1
      refine ⟨hc, un, x, _, _, hnodes, hun, hul, by rw [hup, hp1], hp0, ?_, fun _ => ?_⟩
      · simpa [Frame.addr] using hw.root_eq
      · obtain ⟨-, n2, hn2, hk3, -⟩ := hw.heap_root
        simp only [Frame.addr_setKey, Frame.addr] at hn2
        exact ⟨n2, hn2, by rw [hk3, huk]; rfl⟩
    | cons f e2 =>
      simp only [List.cons_append] at hC2 h6
      have hp1 := RepCtx_par hC2
      obtain ⟨hp0, A2, B2, hw⟩ := h6 _ _ rfl
      refine ⟨hc, un, f.addr, _, _, hnodes, hun, hul, by rw [hup, hp1], hp0, hw.root_eq, ?_⟩
      intro hfx
      exfalso
      have hnd := hwf.2.1
      rw [← hplug2, nodup_plug] at hnd
      have hnd2 := hnd.of_append_right
      simp only [List.cons_append] at hnd2
      have hin := Ctx.addr_mem e2 (Frame.R A x k) (descend k t).1
      simp only [Frame.addr] at hin
      cases f with
      | L a k2 r =>
        simp only [Ctx.addrs_L, List.nodup_cons, List.mem_append, not_or] at hnd2
        simp only [Frame.addr] at hfx
        exact hnd2.1.2 (hfx ▸ hin)
      | R l a k2 =>
        simp only [Ctx.addrs_R, List.nodup_cons, List.mem_append, not_or] at hnd2
        simp only [Frame.addr] at hfx
        exact hnd2.1.2 (hfx ▸ hin)

set_option maxRecDepth 100000 in
/-- C11 at scenario A with key 4: the target is the root (address 4) and has
two children; its successor holds 5 (address 0) and is a child of the node
holding 8 (address 2), which is the root afterwards. -/
theorem root_after_remove_witness :
    (WF scenarioA shapeA ∧ BST shapeA ∧ (4 : Int) ∈ shapeA.keys ∧
      (removeKey 10 scenarioA 4).map (fun r => (r.1.root, r.2)) = some (some 2, 1)) ∧
    ∃ x xn prev s1 s2 par, findNode 10 scenarioA scenarioA.root none 4 = some (some x, prev) ∧
      scenarioA.heap x = some xn ∧ xn.key = 4 ∧
      removeNode 10 scenarioA (some x) = some (s1, par) ∧ splay 10 s1 par = some (s2, par) ∧
      removeKey 10 scenarioA 4 = some (s2, 1) ∧
      s2.root = (if par.isSome then par else s1.root) ∧
      ((xn.left = none ∨ xn.right = none) →
        par = xn.parent ∧ (∀ p, xn.parent = some p → s2.root = some p) ∧
        (xn.parent = none → s2 = s1 ∧
          s2.root = (if xn.left.isSome then xn.left else xn.right) ∧
          ∀ r n, s2.root = some r → s2.heap r = some n → n.parent = none)) ∧
      (xn.left ≠ none → xn.right ≠ none →
        ∃ u un p pre post, shapeA.nodes = pre ++ (x, 4) :: (u, un.key) :: post ∧
          scenarioA.heap u = some un ∧ un.left = none ∧ un.parent = some p ∧ par = some p ∧
          s2.root = some p ∧ (p = x → ∃ n2, s2.heap x = some n2 ∧ n2.key = un.key)) :=
  ⟨by decide,
   root_after_remove scenarioA shapeA 4 10 (by decide) (by decide) (by decide) (by decide)⟩

/-! ## The successor search of `removeNode` -/

theorem Ctx.all_L_of_before_nil : ∀ (e : Ctx), Ctx.before e = [] →
    ∀ f ∈ e, ∃ a k r, f = Frame.L a k r
  | [], _, f, hf => by simp at hf
  | .L a k r :: e, h, f, hf => by
    simp only [Ctx.before_L] at h
    rcases List.mem_cons.1 hf with rfl | hf
    · exact ⟨a, k, r, rfl⟩
    · exact Ctx.all_L_of_before_nil e h f hf
  | .R l a k :: e, h, f, hf => by
    simp at h

/-- Keys of a sub-shape in a context are keys of the whole shape. -/
theorem keys_sub_plug (c : Ctx) (u : T) : ∀ k ∈ u.keys, k ∈ (plug c u).keys := by
  intro k hk
  rw [keys_plug]
  simp [hk]

theorem sorted_sub_plug (c : Ctx) (u : T) (hs : (plug c u).keys.Sorted (· < ·)) :
    u.keys.Sorted (· < ·) := by
  rw [keys_plug] at hs
  exact (List.pairwise_append.1 (List.pairwise_append.1 hs).1).2.1

/-- In a search tree with `int` keys, the key of a node with a right child
is below `INT_MAX`, and the search for `key + 1` from it enters its right
subtree. -/
theorem right_descent (A B : T) (x : Addr) (k : Int)
    (hs : (T.node A x k B).keys.Sorted (· < ·))
    (hr : ∀ k2 ∈ (T.node A x k B).keys, -2147483648 ≤ k2 ∧ k2 ≤ 2147483647)
    (hB : B ≠ .leaf) :
    k < 2147483647 ∧ intWrap (k + 1) = k + 1 ∧
    descend (k + 1) (.node A x k B) =
      ((descend (k + 1) B).1 ++ [.R A x k], (descend (k + 1) B).2) := by
  simp only [T.keys_node] at hs hr
  have hsp := List.pairwise_append.1 hs
  have hsB := (List.pairwise_cons.1 hsp.2.1)
  obtain ⟨kb, hkb⟩ := T.exists_key_of_ne_leaf hB
  have h1 : k < kb := hsB.1 kb hkb
  have h2 := hr kb (by simp [hkb])
  have h3 := hr k (by simp)
  refine ⟨by omega, intWrap_of_range (by omega) (by omega), ?_⟩
  conv_lhs => unfold descend
  simp

/-- C19: no signed overflow in the successor search.  In a well-formed
search tree with `int` keys, a node `x` that has a right child has a key
strictly below `INT_MAX`, so `node->key + 1` is an `int` and wrap-around does
not change it; the descent `findNode(node, &prev, node->key+1)` goes at its
first step from `x` into the right subtree of `x` and returns; it never
returns `x`, it never leaves `prev` absent, the node it returns lies in the
right subtree and `prev` is `x` or a node of the right subtree. -/
theorem successor_search_no_overflow (s : State) (c : Ctx) (A B : T) (x : Addr) (k : Int)
    (fuel : Nat) (hwf : WF s (plug c (.node A x k B))) (hbst : BST (plug c (.node A x k B)))
    (hB : B ≠ .leaf) (hf : (T.node A x k B).size < fuel) :
    k < 2147483647 ∧ isInt (k + 1) ∧ intWrap (k + 1) = k + 1 ∧
    ∃ xn found prev, s.heap x = some xn ∧ xn.key = k ∧ xn.right = B.ptr ∧ xn.right ≠ none ∧
      (∀ n, findNode (n + 1) s (some x) none (intWrap (xn.key + 1)) =
        findNode n s xn.right (some x) (k + 1)) ∧
      findNode fuel s (some x) none (intWrap (xn.key + 1)) = some (found, prev) ∧
      found ≠ some x ∧ prev ≠ none ∧
      (∀ a, found = some a → a ∈ B.addrs) ∧
      (∀ a, prev = some a → a = x ∨ a ∈ B.addrs) := by
  have hs := sorted_sub_plug c _ hbst.1
  have hr : ∀ k2 ∈ (T.node A x k B).keys, -2147483648 ≤ k2 ∧ k2 ≤ 2147483647 :=
    fun k2 h => hbst.2 k2 (keys_sub_plug c _ k2 h)
  obtain ⟨h1, h2, h3⟩ := right_descent A B x k hs hr hB
  have hk0 := hr k (by simp)
  have hrep := hwf.1
  rw [Rep_plug] at hrep
  obtain ⟨par, hC, hT⟩ := hrep
  simp only [T.ptr_node] at hC hT
  have hfind := findNode_spec (k + 1) s (.node A x k B) (some x) par none fuel hT hf
  rw [h3] at hfind
  simp only at hfind
  have hpe := descendPrev_eq (k + 1) (.node A x k B) none
  rw [h3] at hpe
  simp only at hpe
  have hT0 := hT
  rw [Rep_node] at hT
  obtain ⟨-, xn, hxn, hxk, -, -, hBr⟩ := hT
  have hplugB := descend_plug (k + 1) B
  have hnd := hwf.2.1
  rw [nodup_plug] at hnd
  have hxB : x ∉ B.addrs := by
    have := hnd.of_append_left
    simp only [T.addrs_node, List.nodup_append, List.nodup_cons] at this
    exact this.2.1.1
  refine ⟨h1, ⟨by omega, by omega⟩, h2, xn, (descend (k + 1) B).2.ptr,
    descendPrev (k + 1) (.node A x k B) none, hxn, hxk, hBr.ptr_eq, ?_, ?_, ?_, ?_, ?_, ?_, ?_⟩
  · rw [hBr.ptr_eq]; exact fun h => hB (T.ptr_eq_none.1 h)
  · intro n
    rw [hxk, h2]
    have hne : ¬ k = k + 1 := by omega
    have hgt : ¬ k > k + 1 := by omega
    simp [findNode, hxn, hxk, hne, hgt]
  · rw [hxk, h2]; exact hfind
  · intro h
    have hm : x ∈ (descend (k + 1) B).2.addrs := T.ptr_mem h
    apply hxB
    rw [← hplugB, mem_addrs_plug]; exact Or.inl hm
  · rw [hpe]; cases (descend (k + 1) B).1 <;> simp
  · intro a h
    rw [← hplugB, mem_addrs_plug]; exact Or.inl (T.ptr_mem h)
  · intro a h
    rw [hpe] at h
    cases hd : (descend (k + 1) B).1 with
    | nil =>
      rw [hd] at h
      simp only [List.nil_append, Option.some.injEq, Frame.addr] at h
      exact Or.inl h.symm
    | cons f d =>
      rw [hd] at h hplugB
      simp only [List.cons_append, Option.some.injEq] at h
      right
      rw [← hplugB, mem_addrs_plug]
      right
      cases f <;> simp [Frame.addr] at h <;> simp [h]

set_option maxRecDepth 100000 in
/-- C19 at scenario A and its root (address 4, key 4, right child at address
2): the search for 5 stops at the node holding 5 (address 0). -/
theorem successor_search_no_overflow_witness :
    (WF scenarioA shapeA ∧ BST shapeA ∧
      findNode 10 scenarioA (some 4) none (intWrap (4 + 1)) = some (some 0, some 2)) ∧
    ((4 : Int) < 2147483647 ∧ isInt (4 + 1) ∧ intWrap (4 + 1) = 4 + 1 ∧
    ∃ xn found prev, scenarioA.heap 4 = some xn ∧ xn.key = 4 ∧
      xn.right = (T.node (.node .leaf 0 5 .leaf) 2 8 .leaf).ptr ∧ xn.right ≠ none ∧
      (∀ n, findNode (n + 1) scenarioA (some 4) none (intWrap (xn.key + 1)) =
        findNode n scenarioA xn.right (some 4) (4 + 1)) ∧
      findNode 10 scenarioA (some 4) none (intWrap (xn.key + 1)) = some (found, prev) ∧
      found ≠ some 4 ∧ prev ≠ none ∧
      (∀ a, found = some a → a ∈ (T.node (.node .leaf 0 5 .leaf) 2 8 .leaf).addrs) ∧
      (∀ a, prev = some a →
        a = 4 ∨ a ∈ (T.node (.node .leaf 0 5 .leaf) 2 8 .leaf).addrs)) :=
  ⟨by decide,
   successor_search_no_overflow scenarioA [] (.node .leaf 3 1 (.node .leaf 1 3 .leaf))
    (.node (.node .leaf 0 5 .leaf) 2 8 .leaf) 4 4 10 (by decide) (by decide) (by decide)
    (by decide)⟩

theorem next_is_min {l1 l2 : List Int} {k m : Int} (hs : (l1 ++ k :: m :: l2).Sorted (· < ·)) :
    k < m ∧ ∀ z ∈ l1 ++ k :: m :: l2, k < z → m ≤ z := by
  have h := List.pairwise_append.1 hs
  have h2 := List.pairwise_cons.1 h.2.1
  have h3 := List.pairwise_cons.1 h2.2
  refine ⟨h2.1 m (by simp), ?_⟩
  intro z hz hkz
  simp only [List.mem_append, List.mem_cons] at hz
  rcases hz with hz | rfl | rfl | hz
  · have := h.2.2 z hz k (by simp); omega
  · omega
  · exact le_refl _
  · exact le_of_lt (h3.1 z hz)

/-- C16: two-child removal always uses the in-order successor.  In a
well-formed search tree with `int` keys, for a node `x` with two children and
key `k`, the node `removeNode` selects as `higherClosest` is the leftmost node
`hc` of the right subtree `B` of `x` (reached from the root of `B` through
left links only, first of `B` in-order), in both outcomes of
`findNode(node, &prev, k+1)`: either the search finds `hc`, whose key is then
`k + 1`, and `prev` is its parent, or the search returns `NULL` with
`prev = hc`.  The key of `hc` is the smallest stored key greater than `k`, so
`hc` is not a predecessor; `hc` is not `x`, has no left child, and the `p`
that `removeNode` returns is its parent.  Afterwards `x` keeps its position
and its left subtree and holds the key of `hc`, and `hc` is replaced at its
place by its right subtree `HR`; the stored keys are the old ones without
`k`. -/
theorem two_child_removal_uses_successor (s : State) (c : Ctx) (A B : T) (x : Addr) (k : Int)
    (fuel : Nat) (hwf : WF s (plug c (.node A x k B))) (hbst : BST (plug c (.node A x k B)))
    (hA : A ≠ .leaf) (hB : B ≠ .leaf) (hf : (T.node A x k B).size < fuel) :
    ∃ e hc khc HR hn found prev p s2,
      B = plug e (.node .leaf hc khc HR) ∧ (∀ f ∈ e, ∃ a k2 r, f = Frame.L a k2 r) ∧
      B.nodes = (hc, khc) :: (HR.nodes ++ Ctx.after e) ∧
      k < khc ∧ (∀ k2 ∈ (plug c (.node A x k B)).keys, k < k2 → khc ≤ k2) ∧ hc ≠ x ∧
      s.heap hc = some hn ∧ hn.key = khc ∧ hn.left = none ∧ hn.parent = some p ∧
      findNode fuel s (some x) none (intWrap (k + 1)) = some (found, prev) ∧
      (found = some hc ∧ khc = k + 1 ∧ prev = some p ∨
        found = none ∧ prev = some hc ∧ k + 1 < khc) ∧
      removeNode fuel s (some x) = some (s2, some p) ∧
      WF s2 (plug c (.node A x khc (plug e HR))) ∧
      (plug c (.node A x khc (plug e HR))).keys = (plug c (.node A x k B)).keys.erase k := by
  have hs := sorted_sub_plug c _ hbst.1
  have hr : ∀ k2 ∈ (T.node A x k B).keys, -2147483648 ≤ k2 ∧ k2 ≤ 2147483647 :=
    fun k2 h => hbst.2 k2 (keys_sub_plug c _ k2 h)
  obtain ⟨s2, c2, Ch, par, h1, h2, h3, -, -, h6⟩ := removeNode_spec s c A B x k fuel hwf hf
  rcases h6 with ⟨hch, -⟩ | ⟨-, -, e, F, HL, hc, khc, hstop, rfl, hF, hdesc⟩
  · rcases hch with ⟨h, -⟩ | ⟨h, -⟩
    · exact absurd h hA
    · exact absurd h hB
  obtain ⟨hw, rfl, rfl, hbe, hBn⟩ := successor_shape A B x k hs hr hB e F HL Ch hc khc hF hdesc
  rw [hw] at hdesc hstop ⊢
  -- the shape of `B`
  have hsp := stopAt_plug (k + 1) (.node A x k B)
  rw [hstop] at hsp
  simp only [plug_append, plug_cons, plug_nil, Frame.fill_R, T.node.injEq, true_and] at hsp
  have hBe : B = plug e (.node .leaf hc khc Ch) := hsp.symm
  -- the heap at `hc`
  have hplug2 : plug (e ++ Frame.R A x k :: c) (.node .leaf hc khc Ch) =
      plug c (.node A x k B) := by
    have : e ++ Frame.R A x k :: c = (e ++ [Frame.R A x k]) ++ c := by simp
    rw [this, plug_append, plug_append, hBe]; rfl
  have hrep2 := hwf.1
  rw [← hplug2, Rep_plug] at hrep2
  obtain ⟨par2, hC2, hT2⟩ := hrep2
  simp only [T.ptr_node] at hC2 hT2
  have hT3 := hT2
  rw [Rep_node] at hT3
  obtain ⟨-, un, hun, huk, hup, hul, -⟩ := hT3
  simp only [Rep_leaf] at hul
  -- the parent `p`
  obtain ⟨p, hp2, hpar, hprev⟩ : ∃ p, par2 = some p ∧ par = some p ∧
      (match e ++ [Frame.R A x k] with
        | [] => (none : Ptr)
        | f :: _ => some f.addr) = some p := by
    cases e with
    | nil =>
      simp only [List.nil_append] at hC2 h2
      exact ⟨x, RepCtx_par hC2, RepCtx_par h2, rfl⟩
    | cons f e2 =>
      simp only [List.cons_append] at hC2 h2
      exact ⟨f.addr, RepCtx_par hC2, RepCtx_par h2, rfl⟩
  -- the keys
  have hkeys : (plug c (.node A x k B)).keys =
      ((Ctx.before c).map Prod.snd ++ A.keys) ++ k :: khc ::
        (Ch.keys ++ (Ctx.after e).map Prod.snd ++ (Ctx.after c).map Prod.snd) := by
    rw [keys_plug, T.keys_node]
    have : B.keys = khc :: (Ch.keys ++ (Ctx.after e).map Prod.snd) := by
      rw [T.keys, hBn]; simp [T.keys]
    rw [this]; simp
  have hkeys2 : (plug c (.node A x khc (plug e Ch))).keys =
      ((Ctx.before c).map Prod.snd ++ A.keys) ++ khc ::
        (Ch.keys ++ (Ctx.after e).map Prod.snd ++ (Ctx.after c).map Prod.snd) := by
    rw [keys_plug, T.keys_node, keys_plug, hbe]; simp
  have hsorted := hbst.1
  rw [hkeys] at hsorted
  obtain ⟨hlt, hmin⟩ := next_is_min hsorted
  -- `hc` is not `x`
  have hcx : hc ≠ x := by
    rintro rfl
    have hnd := hwf.2.1
    rw [nodup_plug] at hnd
    have := hnd.of_append_left
    simp only [T.addrs_node, List.nodup_append, List.nodup_cons] at this
    apply this.2.1.1
    rw [T.addrs, hBn]; simp
  -- the search
  have hrep := hwf.1
  rw [Rep_plug] at hrep
  obtain ⟨par0, -, hT⟩ := hrep
  simp only [T.ptr_node] at hT
  have hfind := findNode_spec (k + 1) s (.node A x k B) (some x) par0 none fuel hT hf
  rw [descendPrev_eq] at hfind
  have hframes := descend_frames (k + 1) (.node A x k B)
  have hwf2 : WF s2 (plug c (.node A x khc (plug e Ch))) := by
    have : e ++ (Frame.R A x k).setKey khc :: c = (e ++ [Frame.R A x khc]) ++ c := by
      simp [Frame.setKey]
    rw [this, plug_append, plug_append] at h3
    exact h3
  refine ⟨e, hc, khc, Ch, un, _, _, p, s2, hBe,
    Ctx.all_L_of_before_nil e hbe, hBn, hlt, ?_, hcx, hun, huk, hul, hup.trans hp2, hfind, ?_,
    hpar ▸ h1, hwf2, ?_⟩
  · intro k2 hk2 hlt2
    rw [hkeys] at hk2
    exact hmin k2 hk2 hlt2
  · rcases hdesc with ⟨hd, hk1⟩ | ⟨f, hd, hfill, hfa⟩
    · left
      rw [hd]
      exact ⟨rfl, hk1, hprev⟩
    · right
      rw [hd] at hframes ⊢
      refine ⟨rfl, by simp [hfa], ?_⟩
      rcases hframes f (by simp) with ⟨a, k2, r, rfl, h⟩ | ⟨l, a, k2, rfl, h⟩
      · simp only [Frame.fill_L, T.node.injEq] at hfill
        rw [← hfill.2.2.1]; exact h
      · simp only [Frame.fill_R, T.node.injEq] at hfill
        obtain ⟨-, -, rfl, -⟩ := hfill
        omega
  · rw [hkeys2, hkeys]
    exact (erase_mid (by
      have := hsorted
      exact this)).symm

set_option maxRecDepth 100000 in
/-- C16 at scenario A and its root (address 4, key 4, two children): the
successor is the node holding 5 (address 0), a left child of the node at
address 2. -/
theorem two_child_removal_uses_successor_witness :
    (WF scenarioA shapeA ∧ BST shapeA ∧
      (removeNode 10 scenarioA (some 4)).map Prod.snd = some (some 2)) ∧
    ∃ e hc khc HR hn found prev p s2,
      T.node (.node .leaf 0 5 .leaf) 2 8 .leaf = plug e (.node .leaf hc khc HR) ∧
      (∀ f ∈ e, ∃ a k2 r, f = Frame.L a k2 r) ∧
      (T.node (.node .leaf 0 5 .leaf) 2 8 .leaf).nodes = (hc, khc) :: (HR.nodes ++ Ctx.after e) ∧
      4 < khc ∧
      (∀ k2 ∈ (plug [] (.node (.node .leaf 3 1 (.node .leaf 1 3 .leaf)) 4 4
          (.node (.node .leaf 0 5 .leaf) 2 8 .leaf))).keys, 4 < k2 → khc ≤ k2) ∧
      hc ≠ 4 ∧
      scenarioA.heap hc = some hn ∧ hn.key = khc ∧ hn.left = none ∧ hn.parent = some p ∧
      findNode 10 scenarioA (some 4) none (intWrap (4 + 1)) = some (found, prev) ∧
      (found = some hc ∧ khc = 4 + 1 ∧ prev = some p ∨
        found = none ∧ prev = some hc ∧ 4 + 1 < khc) ∧
      removeNode 10 scenarioA (some 4) = some (s2, some p) ∧
      WF s2 (plug [] (.node (.node .leaf 3 1 (.node .leaf 1 3 .leaf)) 4 khc (plug e HR))) ∧
      (plug [] (.node (.node .leaf 3 1 (.node .leaf 1 3 .leaf)) 4 khc (plug e HR))).keys =
        (plug [] (.node (.node .leaf 3 1 (.node .leaf 1 3 .leaf)) 4 4
          (.node (.node .leaf 0 5 .leaf) 2 8 .leaf))).keys.erase 4 :=
  ⟨by decide,
   two_child_removal_uses_successor scenarioA [] (.node .leaf 3 1 (.node .leaf 1 3 .leaf))
    (.node (.node .leaf 0 5 .leaf) 2 8 .leaf) 4 4 10 (by decide) (by decide) (by decide)
    (by decide) (by decide)⟩

/-! ## The calls made by one splay step -/

/-- Zig with `x` a left child: one `rotateRight` at the parent. -/
theorem zig_L_calls (s : State) (c : Ctx) (A B C : T) (x p : Addr) (k kp : Int) (par : Ptr)
    (hc : RepCtx s.heap s.root (.L p kp C :: c) (some x) par)
    (ht : Rep s.heap (some x) par (.node A x k B))
    (hnd : (plug (.L p kp C :: c) (.node A x k B)).addrs.Nodup) :
    ∃ s2 par2 xn pn, s.heap x = some xn ∧ xn.parent = some p ∧ s.heap p = some pn ∧
      pn.left = some x ∧ pn.parent = par2 ∧
      rotateRight s (some p) = some (s2, some x) ∧ zig s (some x) = some s2 ∧
      RepCtx s2.heap s2.root c (some x) par2 ∧
      Rep s2.heap (some x) par2 (.node A x k (.node B p kp C)) ∧
      s2.next = s.next := by
  obtain ⟨pn, hpn, hpl, hpar, -, hc2, ht2⟩ := RepCtx_L_up hc ht
  obtain ⟨xn, hxn, hxp, -⟩ := Rep_root_node ht
  obtain ⟨s2, h1, h2, h3, h4⟩ := rotateRight_spec s c A B C p x kp k pn.parent hc2 ht2 hnd
  refine ⟨s2, pn.parent, xn, pn, hxn, hxp.trans hpar, hpn, hpl, rfl, h1, ?_, h2, h3, h4⟩
  simp [zig, State.load, hxn, hxp, hpar, hpn, hpl, h1]

/-- Zig with `x` a right child: one `rotateLeft` at the parent. -/
theorem zig_R_calls (s : State) (c : Ctx) (A B C : T) (x p : Addr) (k kp : Int) (par : Ptr)
    (hc : RepCtx s.heap s.root (.R C p kp :: c) (some x) par)
    (ht : Rep s.heap (some x) par (.node A x k B))
    (hnd : (plug (.R C p kp :: c) (.node A x k B)).addrs.Nodup) :
    ∃ s2 par2 xn pn, s.heap x = some xn ∧ xn.parent = some p ∧ s.heap p = some pn ∧
      pn.left ≠ some x ∧ pn.right = some x ∧ pn.parent = par2 ∧
      rotateLeft s (some p) = some (s2, some x) ∧ zig s (some x) = some s2 ∧
      RepCtx s2.heap s2.root c (some x) par2 ∧
      Rep s2.heap (some x) par2 (.node (.node C p kp A) x k B) ∧
      s2.next = s.next := by
  obtain ⟨pn, hpn, hpr, hpar, hpl, hc2, ht2⟩ := RepCtx_R_up hc ht
  obtain ⟨xn, hxn, hxp, -⟩ := Rep_root_node ht
  obtain ⟨s2, h1, h2, h3, h4⟩ := rotateLeft_spec s c C A B p x kp k pn.parent hc2 ht2 hnd
  have hxC : C.ptr ≠ some x := by
    apply T.ptr_ne
    simp [nodup_plug, List.nodup_append, List.nodup_cons] at hnd
    simp [hnd]
  refine ⟨s2, pn.parent, xn, pn, hxn, hxp.trans hpar, hpn, hpl ▸ hxC, hpr, rfl, h1, ?_, h2, h3,
    h4⟩
  simp [zig, State.load, hxn, hxp, hpar, hpn, hpl, hxC, h1]

/-- Zig-zig, both left children: `rotateRight` at the grandparent, then
`rotateRight` at the parent it returns. -/
theorem zigZig_LL_calls (s : State) (c : Ctx) (A B C D : T) (x p g : Addr) (k kp kg : Int)
    (par : Ptr)
    (hc : RepCtx s.heap s.root (.L p kp C :: .L g kg D :: c) (some x) par)
    (ht : Rep s.heap (some x) par (.node A x k B))
    (hnd : (plug (.L p kp C :: .L g kg D :: c) (.node A x k B)).addrs.Nodup) :
    ∃ s1 s2 par2 xn pn gn pn1, s.heap x = some xn ∧ xn.parent = some p ∧
      s.heap p = some pn ∧ pn.parent = some g ∧ s.heap g = some gn ∧
      pn.left = some x ∧ pn.right ≠ some x ∧ gn.left = some p ∧ gn.right ≠ some p ∧
      isZigZag s (some x) = some false ∧
      rotateRight s (some g) = some (s1, some p) ∧
      s1.heap p = some pn1 ∧ pn1.left = some x ∧
      rotateRight s1 (some p) = some (s2, some x) ∧ zigZig s (some x) = some s2 ∧
      RepCtx s2.heap s2.root c (some x) par2 ∧
      Rep s2.heap (some x) par2 (.node A x k (.node B p kp (.node C g kg D))) ∧
      s2.next = s.next := by
  obtain ⟨pn, hpn, hpl, hpar, hpr, hc2, ht2⟩ := RepCtx_L_up hc ht
  obtain ⟨gn, hgn, hgl, hgpar, hgr, hc3, ht3⟩ := RepCtx_L_up hc2 ht2
  obtain ⟨xn, hxn, hxp, -⟩ := Rep_root_node ht
  obtain ⟨s1, h1, h2, h3, h4⟩ :=
    rotateRight_spec s c (.node A x k B) C D g p kg kp gn.parent hc3 ht3 hnd
  have hnd2 : (plug c (.node (.node A x k B) p kp (.node C g kg D))).addrs.Nodup := by
    have := addrs_plug_congr c
      (t := .node (.node A x k B) p kp (.node C g kg D))
      (u := .node (.node (.node A x k B) p kp C) g kg D) (by simp)
    rw [this]; exact hnd
  obtain ⟨s2, h5, h6, h7, h8⟩ :=
    rotateRight_spec s1 c A B (.node C g kg D) p x kp k gn.parent h2 h3 hnd2
  have hxC : C.ptr ≠ some x := by
    apply T.ptr_ne
    simp [nodup_plug, List.nodup_append, List.nodup_cons] at hnd
    simp [hnd]
  have hpD : D.ptr ≠ some p := by
    apply T.ptr_ne
    simp [nodup_plug, List.nodup_append, List.nodup_cons] at hnd
    simp [hnd]
  have h3b := h3
  rw [Rep_node] at h3b
  obtain ⟨-, pn1, hpn1, -, -, hl1, -⟩ := h3b
  refine ⟨s1, s2, gn.parent, xn, pn, gn, pn1, hxn, hxp.trans hpar, hpn, hgpar, hgn, hpl,
    hpr ▸ hxC, hgl, hgr ▸ hpD, ?_, h1, hpn1, hl1.ptr_eq, h5, ?_, h6, h7, h8.trans h4⟩
  · simp [isZigZag, State.load, hxn, hxp, hpar, hpn, hpl, hpr, hgpar, hgn, hgr, hxC, hpD]
  · simp [zigZig, State.load, hxn, hxp, hpar, hpn, hpl, hgpar, hgn, hgl, h1, h5]

/-- Zig-zig, both right children: `rotateLeft` at the grandparent, then
`rotateLeft` at the parent it returns. -/
theorem zigZig_RR_calls (s : State) (c : Ctx) (A B C D : T) (x p g : Addr) (k kp kg : Int)
    (par : Ptr)
    (hc : RepCtx s.heap s.root (.R C p kp :: .R D g kg :: c) (some x) par)
    (ht : Rep s.heap (some x) par (.node A x k B))
    (hnd : (plug (.R C p kp :: .R D g kg :: c) (.node A x k B)).addrs.Nodup) :
    ∃ s1 s2 par2 xn pn gn pn1, s.heap x = some xn ∧ xn.parent = some p ∧
      s.heap p = some pn ∧ pn.parent = some g ∧ s.heap g = some gn ∧
      pn.right = some x ∧ pn.left ≠ some x ∧ gn.right = some p ∧ gn.left ≠ some p ∧
      isZigZag s (some x) = some false ∧
      rotateLeft s (some g) = some (s1, some p) ∧
      s1.heap p = some pn1 ∧ pn1.right = some x ∧
      rotateLeft s1 (some p) = some (s2, some x) ∧ zigZig s (some x) = some s2 ∧
      RepCtx s2.heap s2.root c (some x) par2 ∧
      Rep s2.heap (some x) par2 (.node (.node (.node D g kg C) p kp A) x k B) ∧
      s2.next = s.next := by
  obtain ⟨pn, hpn, hpr, hpar, hpl, hc2, ht2⟩ := RepCtx_R_up hc ht
  obtain ⟨gn, hgn, hgr, hgpar, hgl, hc3, ht3⟩ := RepCtx_R_up hc2 ht2
  obtain ⟨xn, hxn, hxp, -⟩ := Rep_root_node ht
  obtain ⟨s1, h1, h2, h3, h4⟩ :=
    rotateLeft_spec s c D C (.node A x k B) g p kg kp gn.parent hc3 ht3 hnd
  have hnd2 : (plug c (.node (.node D g kg C) p kp (.node A x k B))).addrs.Nodup := by
    have := addrs_plug_congr c
      (t := .node (.node D g kg C) p kp (.node A x k B))
      (u := .node D g kg (.node C p kp (.node A x k B))) (by simp)
    rw [this]; exact hnd
  obtain ⟨s2, h5, h6, h7, h8⟩ :=
    rotateLeft_spec s1 c (.node D g kg C) A B p x kp k gn.parent h2 h3 hnd2
  have hxC : C.ptr ≠ some x := by
    apply T.ptr_ne
    simp [nodup_plug, List.nodup_append, List.nodup_cons] at hnd
    simp [hnd]
  have hpD : D.ptr ≠ some p := by
    apply T.ptr_ne
    simp [nodup_plug, List.nodup_append, List.nodup_cons] at hnd
    simp [hnd]
  have h3b := h3
  rw [Rep_node] at h3b
  obtain ⟨-, pn1, hpn1, -, -, -, hr1⟩ := h3b
  refine ⟨s1, s2, gn.parent, xn, pn, gn, pn1, hxn, hxp.trans hpar, hpn, hgpar, hgn, hpr,
    hpl ▸ hxC, hgr, hgl ▸ hpD, ?_, h1, hpn1, hr1.ptr_eq, h5, ?_, h6, h7, h8.trans h4⟩
  · simp [isZigZag, State.load, hxn, hxp, hpar, hpn, hpl, hpr, hgpar, hgn, hgl, hxC, hpD]
  · simp [zigZig, State.load, hxn, hxp, hpar, hpn, hpl, hxC, hgpar, hgn, hgl, h1, h5]

/-- Zig-zag, `x` a right child of a left child: `rotateLeft` at the parent,
then `rotateRight` at the parent of the node returned, the grandparent. -/
theorem zigZag_LR_calls (s : State) (c : Ctx) (A B C D : T) (x p g : Addr) (k kp kg : Int)
    (par : Ptr)
    (hc : RepCtx s.heap s.root (.R C p kp :: .L g kg D :: c) (some x) par)
    (ht : Rep s.heap (some x) par (.node A x k B))
    (hnd : (plug (.R C p kp :: .L g kg D :: c) (.node A x k B)).addrs.Nodup) :
    ∃ s1 s2 par2 xn pn gn xn1 gn1, s.heap x = some xn ∧ xn.parent = some p ∧
      s.heap p = some pn ∧ pn.parent = some g ∧ s.heap g = some gn ∧
      pn.right = some x ∧ pn.left ≠ some x ∧ gn.left = some p ∧ gn.right ≠ some p ∧
      isZigZag s (some x) = some true ∧
      rotateLeft s (some p) = some (s1, some x) ∧
      s1.heap x = some xn1 ∧ xn1.parent = some g ∧ s1.heap g = some gn1 ∧ gn1.left = some x ∧
      rotateRight s1 (some g) = some (s2, some x) ∧ zigZag s (some x) = some s2 ∧
      RepCtx s2.heap s2.root c (some x) par2 ∧
      Rep s2.heap (some x) par2 (.node (.node C p kp A) x k (.node B g kg D)) ∧
      s2.next = s.next := by
  obtain ⟨pn, hpn, hpr, hpar, hpl, hc2, ht2⟩ := RepCtx_R_up hc ht
  obtain ⟨gn, hgn, hgl, hgpar, hgr, hc3, ht3⟩ := RepCtx_L_up hc2 ht2
  obtain ⟨xn, hxn, hxp, -⟩ := Rep_root_node ht
  have hnd1 : (plug (.L g kg D :: c) (.node C p kp (.node A x k B))).addrs.Nodup := hnd
  obtain ⟨s1, h1, h2, h3, h4⟩ :=
    rotateLeft_spec s (.L g kg D :: c) C A B p x kp k pn.parent hc2 ht2 hnd1
  obtain ⟨gn1, hgn1, hgl1, hgpar1, hgr1, hc4, ht4⟩ := RepCtx_L_up h2 h3
  obtain ⟨xn1, hxn1, hxp1, -⟩ := Rep_root_node h3
  have hnd2 : (plug c (.node (.node (.node C p kp A) x k B) g kg D)).addrs.Nodup := by
    have := addrs_plug_congr c
      (t := .node (.node (.node C p kp A) x k B) g kg D)
      (u := .node (.node C p kp (.node A x k B)) g kg D) (by simp)
    rw [this]; exact hnd
  obtain ⟨s2, h5, h6, h7, h8⟩ :=
    rotateRight_spec s1 c (.node C p kp A) B D g x kg k gn1.parent hc4 ht4 hnd2
  have hxC : C.ptr ≠ some x := by
    apply T.ptr_ne
    simp [nodup_plug, List.nodup_append, List.nodup_cons] at hnd
    simp [hnd]
  have hpD : D.ptr ≠ some p := by
    apply T.ptr_ne
    simp [nodup_plug, List.nodup_append, List.nodup_cons] at hnd
    simp [hnd]
  refine ⟨s1, s2, gn1.parent, xn, pn, gn, xn1, gn1, hxn, hxp.trans hpar, hpn, hgpar, hgn, hpr,
    hpl ▸ hxC, hgl, hgr ▸ hpD, ?_, h1, hxn1, hxp1.trans hgpar1, hgn1, hgl1, h5, ?_, h6, h7,
    h8.trans h4⟩
  · simp [isZigZag, State.load, hxn, hxp, hpar, hpn, hpr, hgpar, hgn, hgl]
  · simp [zigZag, State.load, hxn, hxp, hpar, hpn, hpr, hgpar, hgn, hgl, h1, hxn1, hxp1,
      h5]

/-- Zig-zag, `x` a left child of a right child: `rotateRight` at the parent,
then `rotateLeft` at the parent of the node returned, the grandparent. -/
theorem zigZag_RL_calls (s : State) (c : Ctx) (A B C D : T) (x p g : Addr) (k kp kg : Int)
    (par : Ptr)
    (hc : RepCtx s.heap s.root (.L p kp C :: .R D g kg :: c) (some x) par)
    (ht : Rep s.heap (some x) par (.node A x k B))
    (hnd : (plug (.L p kp C :: .R D g kg :: c) (.node A x k B)).addrs.Nodup) :
    ∃ s1 s2 par2 xn pn gn xn1 gn1, s.heap x = some xn ∧ xn.parent = some p ∧
      s.heap p = some pn ∧ pn.parent = some g ∧ s.heap g = some gn ∧
      pn.left = some x ∧ pn.right ≠ some x ∧ gn.right = some p ∧ gn.left ≠ some p ∧
      isZigZag s (some x) = some true ∧
      rotateRight s (some p) = some (s1, some x) ∧
      s1.heap x = some xn1 ∧ xn1.parent = some g ∧ s1.heap g = some gn1 ∧ gn1.right = some x ∧
      rotateLeft s1 (some g) = some (s2, some x) ∧ zigZag s (some x) = some s2 ∧
      RepCtx s2.heap s2.root c (some x) par2 ∧
      Rep s2.heap (some x) par2 (.node (.node D g kg A) x k (.node B p kp C)) ∧
      s2.next = s.next := by
  obtain ⟨pn, hpn, hpl, hpar, hpr, hc2, ht2⟩ := RepCtx_L_up hc ht
  obtain ⟨gn, hgn, hgr, hgpar, hgl, hc3, ht3⟩ := RepCtx_R_up hc2 ht2
  obtain ⟨xn, hxn, hxp, -⟩ := Rep_root_node ht
  have hnd1 : (plug (.R D g kg :: c) (.node (.node A x k B) p kp C)).addrs.Nodup := hnd
  obtain ⟨s1, h1, h2, h3, h4⟩ :=
    rotateRight_spec s (.R D g kg :: c) A B C p x kp k pn.parent hc2 ht2 hnd1
  obtain ⟨gn1, hgn1, hgr1, hgpar1, hgl1, hc4, ht4⟩ := RepCtx_R_up h2 h3
  obtain ⟨xn1, hxn1, hxp1, -⟩ := Rep_root_node h3
  have hnd2 : (plug c (.node D g kg (.node A x k (.node B p kp C)))).addrs.Nodup := by
    have := addrs_plug_congr c
      (t := .node D g kg (.node A x k (.node B p kp C)))
      (u := .node D g kg (.node (.node A x k B) p kp C)) (by simp)
    rw [this]; exact hnd
  obtain ⟨s2, h5, h6, h7, h8⟩ :=
    rotateLeft_spec s1 c D A (.node B p kp C) g x kg k gn1.parent hc4 ht4 hnd2
  have hxC : C.ptr ≠ some x := by
    apply T.ptr_ne
    simp [nodup_plug, List.nodup_append, List.nodup_cons] at hnd
    simp [hnd]
  have hpD : D.ptr ≠ some p := by
    apply T.ptr_ne
    simp [nodup_plug, List.nodup_append, List.nodup_cons] at hnd
    simp [hnd]
  refine ⟨s1, s2, gn1.parent, xn, pn, gn, xn1, gn1, hxn, hxp.trans hpar, hpn, hgpar, hgn, hpl,
    hpr ▸ hxC, hgr, hgl ▸ hpD, ?_, h1, hxn1, hxp1.trans hgpar1, hgn1, hgr1, h5, ?_, h6, h7,
    h8.trans h4⟩
  · simp [isZigZag, State.load, hxn, hxp, hpar, hpn, hpl, hpr, hxC, hgpar, hgn, hgr]
  · simp [zigZag, State.load, hxn, hxp, hpar, hpn, hpr, hxC, hgpar, hgn, hgl, h1, hxn1, hxp1,
      h5]

/-! ## One iteration of the splay loop -/

theorem depth_spec (h : Heap) (root : Ptr) : ∀ (c : Ctx) (x : Addr) (par : Ptr) (A B : T)
    (k : Int) (fuel : Nat),
    RepCtx h root c (some x) par → Rep h (some x) par (.node A x k B) → c.length < fuel →
    depth fuel h (some x) = some c.length := by
  intro c
  induction c with
  | nil =>
    intro x par A B k fuel hc ht hf
    obtain ⟨fuel, rfl⟩ : ∃ n, fuel = n + 1 := ⟨fuel - 1, by simp at hf; omega⟩
    obtain ⟨xn, hxn, hxp, -⟩ := Rep_root_node ht
    rw [RepCtx_nil] at hc
    simp [depth, hxn, hxp, hc.2]
  | cons f c ih =>
    intro x par A B k fuel hc ht hf
    obtain ⟨fuel, rfl⟩ : ∃ n, fuel = n + 1 := ⟨fuel - 1, by simp at hf; omega⟩
    obtain ⟨xn, hxn, hxp, -⟩ := Rep_root_node ht
    simp only [List.length_cons] at hf
    cases f with
    | L p kp C =>
      obtain ⟨pn, hpn, -, hpar, -, hc2, ht2⟩ := RepCtx_L_up hc ht
      have := ih p pn.parent _ _ kp fuel hc2 ht2 (by omega)
      simp [depth, hxn, hxp, hpar, this]
    | R C p kp =>
      obtain ⟨pn, hpn, -, hpar, -, hc2, ht2⟩ := RepCtx_R_up hc ht
      have := ih p pn.parent _ _ kp fuel hc2 ht2 (by omega)
      simp [depth, hxn, hxp, hpar, this]

/-- When `x` is the root the loop of `splay` exits at once. -/
theorem splay_iteration_root (s : State) (A B : T) (x : Addr) (k : Int)
    (hwf : WF s (.node A x k B)) :
    ∃ xn, s.heap x = some xn ∧ xn.parent = none ∧
      ∀ n, splayLoop (n + 1) s (some x) = some s := by
  obtain ⟨-, xn, hxn, -, hxp⟩ := hwf.heap_root
  exact ⟨xn, hxn, hxp, fun n => by simp [splayLoop, State.load, hxn, hxp]⟩

/-- When the parent of `x` is the root, one iteration of the loop of `splay`
is a zig step. -/
theorem splay_iteration_zig (s : State) (f : Frame) (A B : T) (x : Addr) (k : Int)
    (hwf : WF s (plug [f] (.node A x k B))) :
    ∃ xn pn s1 A1 B1, s.heap x = some xn ∧ xn.parent = some f.addr ∧
      s.heap f.addr = some pn ∧ pn.parent = none ∧
      zig s (some x) = some s1 ∧ ZigCalls s x f.addr pn s1 ∧
      (∀ n, splayLoop (n + 1) s (some x) = splayLoop n s1 (some x)) ∧
      WF s1 (.node A1 x k B1) ∧
      (T.node A1 x k B1).nodes = (plug [f] (.node A x k B)).nodes := by
  have hrep := hwf.1
  rw [Rep_plug] at hrep
  obtain ⟨par, hc, ht⟩ := hrep
  simp only [T.ptr_node] at hc ht
  cases f with
  | L p kp C =>
    obtain ⟨s1, par2, xn, pn, h1, h2, h3, h4, h5, h6, h7, h8, h9, h10⟩ :=
      zig_L_calls s [] A B C x p k kp par hc ht hwf.2.1
    have h8b := h8
    rw [RepCtx_nil] at h8
    obtain ⟨-, rfl⟩ := h8
    have hn : (T.node A x k (.node B p kp C)).nodes = (T.node (.node A x k B) p kp C).nodes := by
      simp
    refine ⟨xn, pn, s1, _, _, h1, h2, h3, h5, h7, Or.inl ⟨h4, h6⟩, ?_, ?_, hn⟩
    · intro n
      simp [splayLoop, State.load, h1, h2, h3, h5, h7]
    · exact WF.plug_congr (c := []) s1 _ hwf hn h8b h9 h10
  | R C p kp =>
    obtain ⟨s1, par2, xn, pn, h1, h2, h3, h4, h4b, h5, h6, h7, h8, h9, h10⟩ :=
      zig_R_calls s [] A B C x p k kp par hc ht hwf.2.1
    have h8b := h8
    rw [RepCtx_nil] at h8
    obtain ⟨-, rfl⟩ := h8
    have hn : (T.node (.node C p kp A) x k B).nodes = (T.node C p kp (.node A x k B)).nodes := by
      simp
    refine ⟨xn, pn, s1, _, _, h1, h2, h3, h5, h7, Or.inr ⟨h4, h4b, h6⟩, ?_, ?_, hn⟩
    · intro n
      simp [splayLoop, State.load, h1, h2, h3, h5, h7]
    · exact WF.plug_congr (c := []) s1 _ hwf hn h8b h9 h10

/-! ## Double steps on well-formed trees -/

theorem double_step_LL (s : State) (c : Ctx) (A B C D : T) (x p g : Addr) (k kp kg : Int)
    (hwf : WF s (plug (.L p kp C :: .L g kg D :: c) (.node A x k B))) :
    ∃ xn pn gn s1 s2, s.heap x = some xn ∧ xn.parent = some p ∧
      s.heap p = some pn ∧ pn.parent = some g ∧ s.heap g = some gn ∧
      pn.left = some x ∧ gn.left = some p ∧
      isZigZag s (some x) = some false ∧ zigZig s (some x) = some s2 ∧
      rotateRight s (some g) = some (s1, some p) ∧
      (∃ pn1, s1.heap p = some pn1 ∧ pn1.left = some x) ∧
      rotateRight s1 (some p) = some (s2, some x) ∧
      (∀ n, splayLoop (n + 1) s (some x) = splayLoop n s2 (some x)) ∧
      WF s2 (plug c (.node A x k (.node B p kp (.node C g kg D)))) := by
  have hrep := hwf.1
  rw [Rep_plug] at hrep
  obtain ⟨par, hc, ht⟩ := hrep
  simp only [T.ptr_node] at hc ht
  obtain ⟨s1, s2, par2, xn, pn, gn, pn1, h1, h2, h3, h4, h5, h6, -, h7, -, h8, h9, h10, h11,
    h12, h13, h14, h15, h16⟩ := zigZig_LL_calls s c A B C D x p g k kp kg par hc ht hwf.2.1
  refine ⟨xn, pn, gn, s1, s2, h1, h2, h3, h4, h5, h6, h7, h8, h13, h9, ⟨pn1, h10, h11⟩, h12,
    ?_, ?_⟩
  · intro n
    simp [splayLoop, State.load, h1, h2, h3, h4, h8, h13]
  · exact WF.plug_congr (u := .node (.node (.node A x k B) p kp C) g kg D) s2 _ hwf (by simp)
      h14 h15 h16

theorem double_step_RR (s : State) (c : Ctx) (A B C D : T) (x p g : Addr) (k kp kg : Int)
    (hwf : WF s (plug (.R C p kp :: .R D g kg :: c) (.node A x k B))) :
    ∃ xn pn gn s1 s2, s.heap x = some xn ∧ xn.parent = some p ∧
      s.heap p = some pn ∧ pn.parent = some g ∧ s.heap g = some gn ∧
      pn.right = some x ∧ gn.right = some p ∧
      isZigZag s (some x) = some false ∧ zigZig s (some x) = some s2 ∧
      rotateLeft s (some g) = some (s1, some p) ∧
      (∃ pn1, s1.heap p = some pn1 ∧ pn1.right = some x) ∧
      rotateLeft s1 (some p) = some (s2, some x) ∧
      (∀ n, splayLoop (n + 1) s (some x) = splayLoop n s2 (some x)) ∧
      WF s2 (plug c (.node (.node (.node D g kg C) p kp A) x k B)) := by
  have hrep := hwf.1
  rw [Rep_plug] at hrep
  obtain ⟨par, hc, ht⟩ := hrep
  simp only [T.ptr_node] at hc ht
  obtain ⟨s1, s2, par2, xn, pn, gn, pn1, h1, h2, h3, h4, h5, h6, -, h7, -, h8, h9, h10, h11,
    h12, h13, h14, h15, h16⟩ := zigZig_RR_calls s c A B C D x p g k kp kg par hc ht hwf.2.1
  refine ⟨xn, pn, gn, s1, s2, h1, h2, h3, h4, h5, h6, h7, h8, h13, h9, ⟨pn1, h10, h11⟩, h12,
    ?_, ?_⟩
  · intro n
    simp [splayLoop, State.load, h1, h2, h3, h4, h8, h13]
  · exact WF.plug_congr (u := .node D g kg (.node C p kp (.node A x k B))) s2 _ hwf (by simp)
      h14 h15 h16

theorem double_step_LR (s : State) (c : Ctx) (A B C D : T) (x p g : Addr) (k kp kg : Int)
    (hwf : WF s (plug (.R C p kp :: .L g kg D :: c) (.node A x k B))) :
    ∃ xn pn gn s1 s2, s.heap x = some xn ∧ xn.parent = some p ∧
      s.heap p = some pn ∧ pn.parent = some g ∧ s.heap g = some gn ∧
      pn.right = some x ∧ gn.left = some p ∧
      isZigZag s (some x) = some true ∧ zigZag s (some x) = some s2 ∧
      rotateLeft s (some p) = some (s1, some x) ∧
      (∃ xn1 gn1, s1.heap x = some xn1 ∧ xn1.parent = some g ∧
        s1.heap g = some gn1 ∧ gn1.left = some x) ∧
      rotateRight s1 (some g) = some (s2, some x) ∧
      (∀ n, splayLoop (n + 1) s (some x) = splayLoop n s2 (some x)) ∧
      WF s2 (plug c (.node (.node C p kp A) x k (.node B g kg D))) := by
  have hrep := hwf.1
  rw [Rep_plug] at hrep
  obtain ⟨par, hc, ht⟩ := hrep
  simp only [T.ptr_node] at hc ht
  obtain ⟨s1, s2, par2, xn, pn, gn, xn1, gn1, h1, h2, h3, h4, h5, h6, -, h7, -, h8, h9, h10,
    h11, h12, h12b, h13, h14, h15, h16, h17⟩ :=
    zigZag_LR_calls s c A B C D x p g k kp kg par hc ht hwf.2.1
  refine ⟨xn, pn, gn, s1, s2, h1, h2, h3, h4, h5, h6, h7, h8, h14, h9,
    ⟨xn1, gn1, h10, h11, h12, h12b⟩, h13, ?_, ?_⟩
  · intro n
    simp [splayLoop, State.load, h1, h2, h3, h4, h8, h14]
  · exact WF.plug_congr (u := .node (.node C p kp (.node A x k B)) g kg D) s2 _ hwf (by simp)
      h15 h16 h17

theorem double_step_RL (s : State) (c : Ctx) (A B C D : T) (x p g : Addr) (k kp kg : Int)
    (hwf : WF s (plug (.L p kp C :: .R D g kg :: c) (.node A x k B))) :
    ∃ xn pn gn s1 s2, s.heap x = some xn ∧ xn.parent = some p ∧
      s.heap p = some pn ∧ pn.parent = some g ∧ s.heap g = some gn ∧
      pn.left = some x ∧ gn.right = some p ∧
      isZigZag s (some x) = some true ∧ zigZag s (some x) = some s2 ∧
      rotateRight s (some p) = some (s1, some x) ∧
      (∃ xn1 gn1, s1.heap x = some xn1 ∧ xn1.parent = some g ∧
        s1.heap g = some gn1 ∧ gn1.right = some x) ∧
      rotateLeft s1 (some g) = some (s2, some x) ∧
      (∀ n, splayLoop (n + 1) s (some x) = splayLoop n s2 (some x)) ∧
      WF s2 (plug c (.node (.node D g kg A) x k (.node B p kp C))) := by
  have hrep := hwf.1
  rw [Rep_plug] at hrep
  obtain ⟨par, hc, ht⟩ := hrep
  simp only [T.ptr_node] at hc ht
  obtain ⟨s1, s2, par2, xn, pn, gn, xn1, gn1, h1, h2, h3, h4, h5, h6, -, h7, -, h8, h9, h10,
    h11, h12, h12b, h13, h14, h15, h16, h17⟩ :=
    zigZag_RL_calls s c A B C D x p g k kp kg par hc ht hwf.2.1
  refine ⟨xn, pn, gn, s1, s2, h1, h2, h3, h4, h5, h6, h7, h8, h14, h9,
    ⟨xn1, gn1, h10, h11, h12, h12b⟩, h13, ?_, ?_⟩
  · intro n
    simp [splayLoop, State.load, h1, h2, h3, h4, h8, h14]
  · exact WF.plug_congr (u := .node D g kg (.node (.node A x k B) p kp C)) s2 _ hwf (by simp)
      h15 h16 h17

/-- When `x` has a parent and a grandparent, one iteration of the loop of
`splay` is a double step, zig-zag or zig-zig as `isZigZag` tells; `x` comes
two levels up. -/
theorem splay_iteration_double (s : State) (f1 f2 : Frame) (c : Ctx) (A B : T) (x : Addr)
    (k : Int) (hwf : WF s (plug (f1 :: f2 :: c) (.node A x k B))) :
    ∃ xn pn gn b s2 A2 B2, s.heap x = some xn ∧ xn.parent = some f1.addr ∧
      s.heap f1.addr = some pn ∧ pn.parent = some f2.addr ∧ s.heap f2.addr = some gn ∧
      isZigZag s (some x) = some b ∧
      (if b then zigZag s (some x) else zigZig s (some x)) = some s2 ∧
      DoubleStepCalls s x f1.addr f2.addr pn gn b s2 ∧
      (∀ n, splayLoop (n + 1) s (some x) = splayLoop n s2 (some x)) ∧
      WF s2 (plug c (.node A2 x k B2)) ∧
      (plug c (.node A2 x k B2)).nodes = (plug (f1 :: f2 :: c) (.node A x k B)).nodes := by
  cases f1 with
  | L p kp C =>
    cases f2 with
    | L g kg D =>
      obtain ⟨xn, pn, gn, s1, s2, h1, h2, h3, h4, h5, h6, h7, h8, h9, h10, h11, h12, h13, h14⟩ :=
        double_step_LL s c A B C D x p g k kp kg hwf
      exact ⟨xn, pn, gn, false, s2, _, _, h1, h2, h3, h4, h5, h8, by simpa using h9,
        ⟨s1, Or.inl ⟨rfl, h6, h7, h10, h11, h12⟩⟩, h13, h14,
        by simp [nodes_plug]⟩
    | R D g kg =>
      obtain ⟨xn, pn, gn, s1, s2, h1, h2, h3, h4, h5, h6, h7, h8, h9, h10, h11, h12, h13, h14⟩ :=
        double_step_RL s c A B C D x p g k kp kg hwf
      exact ⟨xn, pn, gn, true, s2, _, _, h1, h2, h3, h4, h5, h8, by simpa using h9,
        ⟨s1, Or.inr (Or.inr (Or.inr ⟨rfl, h6, h7, h10, h11, h12⟩))⟩, h13, h14,
        by simp [nodes_plug]⟩
  | R C p kp =>
    cases f2 with
    | L g kg D =>
      obtain ⟨xn, pn, gn, s1, s2, h1, h2, h3, h4, h5, h6, h7, h8, h9, h10, h11, h12, h13, h14⟩ :=
        double_step_LR s c A B C D x p g k kp kg hwf
      exact ⟨xn, pn, gn, true, s2, _, _, h1, h2, h3, h4, h5, h8, by simpa using h9,
        ⟨s1, Or.inr (Or.inr (Or.inl ⟨rfl, h6, h7, h10, h11, h12⟩))⟩, h13, h14,
        by simp [nodes_plug]⟩
    | R D g kg =>
      obtain ⟨xn, pn, gn, s1, s2, h1, h2, h3, h4, h5, h6, h7, h8, h9, h10, h11, h12, h13, h14⟩ :=
        double_step_RR s c A B C D x p g k kp kg hwf
      exact ⟨xn, pn, gn, false, s2, _, _, h1, h2, h3, h4, h5, h8, by simpa using h9,
        ⟨s1, Or.inr (Or.inl ⟨rfl, h6, h7, h10, h11, h12⟩)⟩, h13, h14,
        by simp [nodes_plug]⟩

/-- C15: shape of one double splay step on a node `x` with parent `p` and
grandparent `g` in a well-formed tree. Zig-zig (`x = p.left`, `p = g.left`):
`isZigZag` is false and `zigZig` turns `g(p(x(A,B),C),D)` into
`x(A,p(B,g(C,D)))` by rotating `g` first and then `p`. Zig-zag
(`x = p.right`, `p = g.left`): `isZigZag` is true and `zigZag` turns
`g(p(C,x(A,B)),D)` into `x(p(C,A),g(B,D))` by rotating `p` first and then `g`.
The mirrored configurations give the mirrored results. In every case the new
subtree stands in the same context `c`, where `g` stood (it is the root when
`c` is empty), and the in-order node list is unchanged. -/
theorem double_step_shape (s : State) (c : Ctx) (A B C D : T) (x p g : Addr)
    (k kp kg : Int) :
    (WF s (plug (.L p kp C :: .L g kg D :: c) (.node A x k B)) →
      ∃ s1 s2, isZigZag s (some x) = some false ∧
        rotateRight s (some g) = some (s1, some p) ∧
        rotateRight s1 (some p) = some (s2, some x) ∧
        zigZig s (some x) = some s2 ∧
        WF s2 (plug c (.node A x k (.node B p kp (.node C g kg D)))) ∧
        (c = [] → s2.root = some x) ∧
        (plug c (.node A x k (.node B p kp (.node C g kg D)))).nodes =
          (plug (.L p kp C :: .L g kg D :: c) (.node A x k B)).nodes) ∧
    (WF s (plug (.R C p kp :: .R D g kg :: c) (.node A x k B)) →
      ∃ s1 s2, isZigZag s (some x) = some false ∧
        rotateLeft s (some g) = some (s1, some p) ∧
        rotateLeft s1 (some p) = some (s2, some x) ∧
        zigZig s (some x) = some s2 ∧
        WF s2 (plug c (.node (.node (.node D g kg C) p kp A) x k B)) ∧
        (c = [] → s2.root = some x) ∧
        (plug c (.node (.node (.node D g kg C) p kp A) x k B)).nodes =
          (plug (.R C p kp :: .R D g kg :: c) (.node A x k B)).nodes) ∧
    (WF s (plug (.R C p kp :: .L g kg D :: c) (.node A x k B)) →
      ∃ s1 s2, isZigZag s (some x) = some true ∧
        rotateLeft s (some p) = some (s1, some x) ∧
        rotateRight s1 (some g) = some (s2, some x) ∧
        zigZag s (some x) = some s2 ∧
        WF s2 (plug c (.node (.node C p kp A) x k (.node B g kg D))) ∧
        (c = [] → s2.root = some x) ∧
        (plug c (.node (.node C p kp A) x k (.node B g kg D))).nodes =
          (plug (.R C p kp :: .L g kg D :: c) (.node A x k B)).nodes) ∧
    (WF s (plug (.L p kp C :: .R D g kg :: c) (.node A x k B)) →
      ∃ s1 s2, isZigZag s (some x) = some true ∧
        rotateRight s (some p) = some (s1, some x) ∧
        rotateLeft s1 (some g) = some (s2, some x) ∧
        zigZag s (some x) = some s2 ∧
        WF s2 (plug c (.node (.node D g kg A) x k (.node B p kp C))) ∧
        (c = [] → s2.root = some x) ∧
        (plug c (.node (.node D g kg A) x k (.node B p kp C))).nodes =
          (plug (.L p kp C :: .R D g kg :: c) (.node A x k B)).nodes) := by
  refine ⟨?_, ?_, ?_, ?_⟩
  · intro hwf
    obtain ⟨xn, pn, gn, s1, s2, -, -, -, -, -, -, -, h8, h9, h10, -, h12, -, h14⟩ :=
      double_step_LL s c A B C D x p g k kp kg hwf
    refine ⟨s1, s2, h8, h10, h12, h9, h14, ?_, by simp [nodes_plug]⟩
    rintro rfl
    exact (WF.heap_root (by simpa using h14)).1
  · intro hwf
    obtain ⟨xn, pn, gn, s1, s2, -, -, -, -, -, -, -, h8, h9, h10, -, h12, -, h14⟩ :=
      double_step_RR s c A B C D x p g k kp kg hwf
    refine ⟨s1, s2, h8, h10, h12, h9, h14, ?_, by simp [nodes_plug]⟩
    rintro rfl
    exact (WF.heap_root (by simpa using h14)).1
  · intro hwf
    obtain ⟨xn, pn, gn, s1, s2, -, -, -, -, -, -, -, h8, h9, h10, -, h12, -, h14⟩ :=
      double_step_LR s c A B C D x p g k kp kg hwf
    refine ⟨s1, s2, h8, h10, h12, h9, h14, ?_, by simp [nodes_plug]⟩
    rintro rfl
    exact (WF.heap_root (by simpa using h14)).1
  · intro hwf
    obtain ⟨xn, pn, gn, s1, s2, -, -, -, -, -, -, -, h8, h9, h10, -, h12, -, h14⟩ :=
      double_step_RL s c A B C D x p g k kp kg hwf
    refine ⟨s1, s2, h8, h10, h12, h9, h14, ?_, by simp [nodes_plug]⟩
    rintro rfl
    exact (WF.heap_root (by simpa using h14)).1

set_option maxRecDepth 100000 in
/-- C15 at the four configurations: the left chain 3, 2, 1 and the right chain
1, 2, 3 (zig-zig), and in scenario A the nodes at address 1 (key 3, right child
of a left child) and at address 0 (key 5, left child of a right child). -/
theorem double_step_shape_witness :
    (WF chainLeft (plug [.L 1 2 .leaf, .L 2 3 .leaf] (.node .leaf 0 1 .leaf)) ∧
      WF chainRight (plug [.R .leaf 1 2, .R .leaf 2 1] (.node .leaf 0 3 .leaf)) ∧
      WF scenarioA (plug [.R .leaf 3 1, .L 4 4 (.node (.node .leaf 0 5 .leaf) 2 8 .leaf)]
        (.node .leaf 1 3 .leaf)) ∧
      WF scenarioA (plug [.L 2 8 .leaf, .R (.node .leaf 3 1 (.node .leaf 1 3 .leaf)) 4 4]
        (.node .leaf 0 5 .leaf))) ∧
    (∃ s1 s2, isZigZag chainLeft (some 0) = some false ∧
        rotateRight chainLeft (some 2) = some (s1, some 1) ∧
        rotateRight s1 (some 1) = some (s2, some 0) ∧
        zigZig chainLeft (some 0) = some s2 ∧
        WF s2 (plug [] (.node .leaf 0 1 (.node .leaf 1 2 (.node .leaf 2 3 .leaf)))) ∧
        s2.root = some 0) ∧
    (∃ s1 s2, isZigZag chainRight (some 0) = some false ∧
        rotateLeft chainRight (some 2) = some (s1, some 1) ∧
        rotateLeft s1 (some 1) = some (s2, some 0) ∧
        zigZig chainRight (some 0) = some s2 ∧
        WF s2 (plug [] (.node (.node (.node .leaf 2 1 .leaf) 1 2 .leaf) 0 3 .leaf)) ∧
        s2.root = some 0) ∧
    (∃ s1 s2, isZigZag scenarioA (some 1) = some true ∧
        rotateLeft scenarioA (some 3) = some (s1, some 1) ∧
        rotateRight s1 (some 4) = some (s2, some 1) ∧
        zigZag scenarioA (some 1) = some s2 ∧
        WF s2 (plug [] (.node (.node .leaf 3 1 .leaf) 1 3
          (.node .leaf 4 4 (.node (.node .leaf 0 5 .leaf) 2 8 .leaf)))) ∧
        s2.root = some 1) ∧
    (∃ s1 s2, isZigZag scenarioA (some 0) = some true ∧
        rotateRight scenarioA (some 2) = some (s1, some 0) ∧
        rotateLeft s1 (some 4) = some (s2, some 0) ∧
        zigZag scenarioA (some 0) = some s2 ∧
        WF s2 (plug [] (.node (.node (.node .leaf 3 1 (.node .leaf 1 3 .leaf)) 4 4 .leaf) 0 5
          (.node .leaf 2 8 .leaf))) ∧
        s2.root = some 0) := by
  have h1 : WF chainLeft (plug [.L 1 2 .leaf, .L 2 3 .leaf] (.node .leaf 0 1 .leaf)) := by
    decide
  have h2 : WF chainRight (plug [.R .leaf 1 2, .R .leaf 2 1] (.node .leaf 0 3 .leaf)) := by
    decide
  have h3 : WF scenarioA (plug [.R .leaf 3 1, .L 4 4 (.node (.node .leaf 0 5 .leaf) 2 8 .leaf)]
      (.node .leaf 1 3 .leaf)) := by decide
  have h4 : WF scenarioA (plug [.L 2 8 .leaf, .R (.node .leaf 3 1 (.node .leaf 1 3 .leaf)) 4 4]
      (.node .leaf 0 5 .leaf)) := by decide
  refine ⟨⟨h1, h2, h3, h4⟩, ?_, ?_, ?_, ?_⟩
  · obtain ⟨s1, s2, a, b, c, d, e, f, -⟩ :=
      (double_step_shape chainLeft [] .leaf .leaf .leaf .leaf 0 1 2 1 2 3).1 h1
    exact ⟨s1, s2, a, b, c, d, e, f rfl⟩
  · obtain ⟨s1, s2, a, b, c, d, e, f, -⟩ :=
      (double_step_shape chainRight [] .leaf .leaf .leaf .leaf 0 1 2 3 2 1).2.1 h2
    exact ⟨s1, s2, a, b, c, d, e, f rfl⟩
  · obtain ⟨s1, s2, a, b, c, d, e, f, -⟩ :=
      (double_step_shape scenarioA [] .leaf .leaf .leaf
        (.node (.node .leaf 0 5 .leaf) 2 8 .leaf) 1 3 4 3 1 4).2.2.1 h3
    exact ⟨s1, s2, a, b, c, d, e, f rfl⟩
  · obtain ⟨s1, s2, a, b, c, d, e, f, -⟩ :=
      (double_step_shape scenarioA [] .leaf .leaf .leaf
        (.node .leaf 3 1 (.node .leaf 1 3 .leaf)) 0 2 4 5 8 4).2.2.2 h4
    exact ⟨s1, s2, a, b, c, d, e, f rfl⟩

/-! ## Termination and safety of the splay loop -/

theorem depth_of_WF {s : State} {c : Ctx} {A B : T} {x : Addr} {k : Int} {fuel : Nat}
    (hwf : WF s (plug c (.node A x k B))) (hf : c.length < fuel) :
    depth fuel s.heap (some x) = some c.length := by
  have hrep := hwf.1
  rw [Rep_plug] at hrep
  obtain ⟨par, hc, ht⟩ := hrep
  exact depth_spec s.heap s.root c x par A B k fuel hc ht hf

theorem splayLoop_returns {s : State} {c : Ctx} {A B : T} {x : Addr} {k : Int} {fuel : Nat}
    (hwf : WF s (plug c (.node A x k B))) (hf : c.length < fuel) :
    ∃ s2, splayLoop fuel s (some x) = some s2 ∧ s2.root = some x := by
  have hrep := hwf.1
  rw [Rep_plug] at hrep
  obtain ⟨par, hc, ht⟩ := hrep
  obtain ⟨s2, A2, B2, h1, h2, -⟩ := splayLoop_spec c s A B x k par fuel hc ht hwf.2.1 hf
  exact ⟨s2, h1, h2⟩

theorem length_lt_size_plug (c : Ctx) (A B : T) (x : Addr) (k : Int) :
    c.length < (plug c (.node A x k B)).size := by
  have := size_plug c (.node A x k B)
  simp at this
  omega

theorem mem_addrs_plug_focus (c : Ctx) (A B : T) (x : Addr) (k : Int) :
    x ∈ (plug c (.node A x k B)).addrs := by
  rw [mem_addrs_plug]
  left
  simp

/-- C13: termination of the loop of `splay`. In a well-formed tree `t` the
node `x` has a depth `d` (number of parent links up to the root) below the
number of nodes, and the loop returns as soon as it is given more than `d`
iterations. At depth 0 the loop exits at once; at depth 1 the iteration is a
zig step and leaves `x` at depth 0; at depth 2 or more the iteration is a
zig-zig or zig-zag step and leaves `x` at depth `d - 2`; after the step the
tree is again well-formed with the same number of nodes. -/
theorem splay_terminates (s : State) (t : T) (x : Addr) (fuel : Nat)
    (hwf : WF s t) (hx : x ∈ t.addrs) (hf : t.size ≤ fuel) :
    ∃ d, depth fuel s.heap (some x) = some d ∧ d < t.size ∧
      (∀ n, d < n → ∃ s2, splayLoop n s (some x) = some s2 ∧ s2.root = some x) ∧
      (d = 0 → ∀ n, splayLoop (n + 1) s (some x) = some s) ∧
      (d = 1 → ∃ s1 t1, zig s (some x) = some s1 ∧
        (∀ n, splayLoop (n + 1) s (some x) = splayLoop n s1 (some x)) ∧
        WF s1 t1 ∧ x ∈ t1.addrs ∧ t1.size = t.size ∧
        depth fuel s1.heap (some x) = some 0) ∧
      (2 ≤ d → ∃ b s1 t1, isZigZag s (some x) = some b ∧
        (if b then zigZag s (some x) else zigZig s (some x)) = some s1 ∧
        (∀ n, splayLoop (n + 1) s (some x) = splayLoop n s1 (some x)) ∧
        WF s1 t1 ∧ x ∈ t1.addrs ∧ t1.size = t.size ∧
        depth fuel s1.heap (some x) = some (d - 2)) := by
  obtain ⟨c, A, k, B, rfl⟩ := exists_plug_of_mem hx
  have hlen := length_lt_size_plug c A B x k
  refine ⟨c.length, depth_of_WF hwf (by omega), hlen, fun n hn => splayLoop_returns hwf hn,
    ?_, ?_, ?_⟩
  · intro h0
    obtain rfl : c = [] := List.length_eq_zero.1 h0
    obtain ⟨xn, -, -, h⟩ := splay_iteration_root s A B x k (by simpa using hwf)
    exact h
  · intro h1
    obtain ⟨f, rfl⟩ : ∃ f, c = [f] := List.length_eq_one.1 h1
    obtain ⟨xn, pn, s1, A1, B1, -, -, -, -, hz, -, hloop, hwf1, hn⟩ :=
      splay_iteration_zig s f A B x k hwf
    refine ⟨s1, .node A1 x k B1, hz, hloop, hwf1, by simp, T.size_eq_of_nodes hn, ?_⟩
    exact depth_of_WF (c := []) (by simpa using hwf1)
      (by simp only [List.length_cons, List.length_nil] at hlen ⊢; omega)
  · intro h2
    obtain ⟨f1, f2, c2, rfl⟩ : ∃ f1 f2 c2, c = f1 :: f2 :: c2 := by
      match c, h2 with
      | f1 :: f2 :: c2, _ => exact ⟨f1, f2, c2, rfl⟩
    obtain ⟨xn, pn, gn, b, s2, A2, B2, -, -, -, -, -, hb, hstep, -, hloop, hwf2, hn⟩ :=
      splay_iteration_double s f1 f2 c2 A B x k hwf
    refine ⟨b, s2, plug c2 (.node A2 x k B2), hb, hstep, hloop, hwf2,
      mem_addrs_plug_focus _ _ _ _ _, T.size_eq_of_nodes hn, ?_⟩
    have hd : depth fuel s2.heap (some x) = some c2.length :=
      depth_of_WF hwf2 (by simp only [List.length_cons] at hlen; omega)
    simpa using hd

set_option maxRecDepth 100000 in
/-- C13 at scenario A and the node at address 1 (key 3), which is at depth 2. -/
theorem splay_terminates_witness :
    (WF scenarioA shapeA ∧ (1 : Addr) ∈ shapeA.addrs ∧ shapeA.size ≤ 10) ∧
    ∃ d, depth 10 scenarioA.heap (some 1) = some d ∧ d < shapeA.size ∧
      (∀ n, d < n → ∃ s2, splayLoop n scenarioA (some 1) = some s2 ∧ s2.root = some 1) ∧
      (d = 0 → ∀ n, splayLoop (n + 1) scenarioA (some 1) = some scenarioA) ∧
      (d = 1 → ∃ s1 t1, zig scenarioA (some 1) = some s1 ∧
        (∀ n, splayLoop (n + 1) scenarioA (some 1) = splayLoop n s1 (some 1)) ∧
        WF s1 t1 ∧ (1 : Addr) ∈ t1.addrs ∧ t1.size = shapeA.size ∧
        depth 10 s1.heap (some 1) = some 0) ∧
      (2 ≤ d → ∃ b s1 t1, isZigZag scenarioA (some 1) = some b ∧
        (if b then zigZag scenarioA (some 1) else zigZig scenarioA (some 1)) = some s1 ∧
        (∀ n, splayLoop (n + 1) scenarioA (some 1) = splayLoop n s1 (some 1)) ∧
        WF s1 t1 ∧ (1 : Addr) ∈ t1.addrs ∧ t1.size = shapeA.size ∧
        depth 10 s1.heap (some 1) = some (d - 2)) :=
  ⟨by decide, splay_terminates scenarioA shapeA 1 10 (by decide) (by decide) (by decide)⟩

/-- C18: no absent node is dereferenced inside `splay`. For a node `x` of a
well-formed tree the call returns a result (the model returns nothing on a
dereference of an absent node). One iteration of its loop goes as follows.
If `x` has no parent, the loop exits and nothing is called. If the parent
`p` of `x` has no parent, only `zig` is called, and its rotation is
`rotateRight(p)` with `x` the left child of `p`, or `rotateLeft(p)` with
`x` the right child. Otherwise the grandparent `g` is present, `isZigZag`
and then `zigZag` or `zigZig` are called, and both rotations are made on a
present node whose child on the side rotated up is present (`DoubleStepCalls`
lists the four cases with the nodes the outer rotation needs). After the
step the tree is again well-formed and contains `x`, so the same holds for
the next iteration. -/
theorem splay_no_absent_dereference (s : State) (t : T) (x : Addr) (fuel : Nat)
    (hwf : WF s t) (hx : x ∈ t.addrs) (hf : t.size ≤ fuel) :
    (∃ s2, splay fuel s (some x) = some (s2, some x)) ∧
    ∃ xn, s.heap x = some xn ∧
      (xn.parent = none → ∀ n, splayLoop (n + 1) s (some x) = some s) ∧
      (∀ p, xn.parent = some p → ∃ pn, s.heap p = some pn ∧
        (pn.parent = none → ∃ s1 t1, ZigCalls s x p pn s1 ∧ zig s (some x) = some s1 ∧
          (∀ n, splayLoop (n + 1) s (some x) = splayLoop n s1 (some x)) ∧
          WF s1 t1 ∧ x ∈ t1.addrs ∧ t1.size = t.size) ∧
        (∀ g, pn.parent = some g → ∃ gn b s1 t1, s.heap g = some gn ∧
          isZigZag s (some x) = some b ∧ DoubleStepCalls s x p g pn gn b s1 ∧
          (if b then zigZag s (some x) else zigZig s (some x)) = some s1 ∧
          (∀ n, splayLoop (n + 1) s (some x) = splayLoop n s1 (some x)) ∧
          WF s1 t1 ∧ x ∈ t1.addrs ∧ t1.size = t.size)) := by
  obtain ⟨c, A, k, B, rfl⟩ := exists_plug_of_mem hx
  have hlen := length_lt_size_plug c A B x k
  constructor
  · obtain ⟨s2, A2, B2, h, -⟩ := splay_spec s c A B x k fuel hwf (by omega)
    exact ⟨s2, h⟩
  · match c, hwf with
    | [], hwf =>
      obtain ⟨xn, h1, h2, h3⟩ := splay_iteration_root s A B x k (by simpa using hwf)
      refine ⟨xn, h1, fun _ => h3, ?_⟩
      intro p hp
      rw [h2] at hp
      exact absurd hp (by simp)
    | [f], hwf =>
      obtain ⟨xn, pn, s1, A1, B1, h1, h2, h3, h4, hz, hcalls, hloop, hwf1, hn⟩ :=
        splay_iteration_zig s f A B x k hwf
      refine ⟨xn, h1, fun h => absurd h (by simp [h2]), ?_⟩
      intro p hp
      obtain rfl : f.addr = p := by simpa [h2] using hp
      refine ⟨pn, h3, ?_, fun g hg => absurd hg (by simp [h4])⟩
      intro _
      exact ⟨s1, .node A1 x k B1, hcalls, hz, hloop, hwf1, by simp, T.size_eq_of_nodes hn⟩
    | f1 :: f2 :: c2, hwf =>
      obtain ⟨xn, pn, gn, b, s2, A2, B2, h1, h2, h3, h4, h5, hb, hstep, hcalls, hloop, hwf2,
        hn⟩ := splay_iteration_double s f1 f2 c2 A B x k hwf
      refine ⟨xn, h1, fun h => absurd h (by simp [h2]), ?_⟩
      intro p hp
      obtain rfl : f1.addr = p := by simpa [h2] using hp
      refine ⟨pn, h3, fun h => absurd h (by simp [h4]), ?_⟩
      intro g hg
      obtain rfl : f2.addr = g := by simpa [h4] using hg
      exact ⟨gn, b, s2, plug c2 (.node A2 x k B2), h5, hb, hcalls, hstep, hloop, hwf2,
        mem_addrs_plug_focus _ _ _ _ _, T.size_eq_of_nodes hn⟩

set_option maxRecDepth 100000 in
/-- C18 at scenario A and the node at address 0 (key 5), which has a parent
and a grandparent. -/
theorem splay_no_absent_dereference_witness :
    (WF scenarioA shapeA ∧ (0 : Addr) ∈ shapeA.addrs ∧ shapeA.size ≤ 10) ∧
    (∃ s2, splay 10 scenarioA (some 0) = some (s2, some 0)) ∧
    ∃ xn, scenarioA.heap 0 = some xn ∧
      (xn.parent = none → ∀ n, splayLoop (n + 1) scenarioA (some 0) = some scenarioA) ∧
      (∀ p, xn.parent = some p → ∃ pn, scenarioA.heap p = some pn ∧
        (pn.parent = none → ∃ s1 t1, ZigCalls scenarioA 0 p pn s1 ∧
          zig scenarioA (some 0) = some s1 ∧
          (∀ n, splayLoop (n + 1) scenarioA (some 0) = splayLoop n s1 (some 0)) ∧
          WF s1 t1 ∧ (0 : Addr) ∈ t1.addrs ∧ t1.size = shapeA.size) ∧
        (∀ g, pn.parent = some g → ∃ gn b s1 t1, scenarioA.heap g = some gn ∧
          isZigZag scenarioA (some 0) = some b ∧ DoubleStepCalls scenarioA 0 p g pn gn b s1 ∧
          (if b then zigZag scenarioA (some 0) else zigZig scenarioA (some 0)) = some s1 ∧
          (∀ n, splayLoop (n + 1) scenarioA (some 0) = splayLoop n s1 (some 0)) ∧
          WF s1 t1 ∧ (0 : Addr) ∈ t1.addrs ∧ t1.size = shapeA.size)) :=
  ⟨by decide,
    splay_no_absent_dereference scenarioA shapeA 0 10 (by decide) (by decide) (by decide)⟩

/-! ## The `size` field -/

theorem store_sizes {s s2 : State} {p : Ptr} {f : Node → Node}
    (h : s.store p f = some s2) (hf : ∀ m, (f m).size = m.size) (hs : SizesOne s.heap) :
    SizesOne s2.heap := by
  unfold State.store at h
  split at h
  · simp at h
  · split at h
    · simp at h
    · rename_i a _ n hn
      simp only [Option.some.injEq] at h
      subst h
      intro b m hb
      by_cases e : b = a
      · subst e
        simp at hb
        subst hb
        rw [hf]
        exact hs b n hn
      · simp only [Function.update_noteq e] at hb
        exact hs b m hb

theorem free_sizes {s s2 : State} {p : Ptr}
    (h : s.free p = some s2) (hs : SizesOne s.heap) : SizesOne s2.heap := by
  unfold State.free at h
  split at h
  · simp at h
  · split at h
    · simp at h
    · rename_i a _ n hn
      simp only [Option.some.injEq] at h
      subst h
      intro b m hb
      by_cases e : b = a
      · subst e
        simp at hb
      · simp only [Function.update_noteq e] at hb
        exact hs b m hb

theorem makeNode_sizes {s : State} (parent : Ptr) (key : Int) (hs : SizesOne s.heap) :
    SizesOne (makeNode s parent key).1.heap := by
  intro b m hb
  by_cases e : b = s.next
  · subst e
    simp [makeNode] at hb
    subst hb
    rfl
  · simp [makeNode, Function.update_noteq e] at hb
    exact hs b m hb

theorem chainGrandParent_sizes {s s2 : State} {gp p ch : Ptr}
    (h : chainGrandParent s gp p ch = some s2) (hs : SizesOne s.heap) : SizesOne s2.heap := by
  unfold chainGrandParent at h
  repeat' (first | contradiction | split at h)
  all_goals
    repeat (first
      | assumption
      | refine store_sizes ‹_› (by intro; rfl) ?_)

theorem ite_store_sizes {s s2 : State} {c : Prop} [Decidable c] {p : Ptr} {f : Node → Node}
    (h : (if c then s.store p f else some s) = some s2) (hf : ∀ m, (f m).size = m.size)
    (hs : SizesOne s.heap) : SizesOne s2.heap := by
  split at h
  · exact store_sizes h hf hs
  · simp only [Option.some.injEq] at h
    subst h
    exact hs

theorem ite_store_store_sizes {s s2 : State} {c : Prop} [Decidable c] {p q : Ptr}
    {f g : Node → Node} (h : (if c then s.store p f else s.store q g) = some s2)
    (hf : ∀ m, (f m).size = m.size) (hg : ∀ m, (g m).size = m.size)
    (hs : SizesOne s.heap) : SizesOne s2.heap := by
  split at h
  · exact store_sizes h hf hs
  · exact store_sizes h hg hs

theorem ite_chain_sizes {s s2 : State} {c : Prop} [Decidable c] {gp p ch root : Ptr}
    (h : (if c then chainGrandParent s gp p ch
          else some { heap := s.heap, next := s.next, root := root }) = some s2)
    (hs : SizesOne s.heap) : SizesOne s2.heap := by
  split at h
  · exact chainGrandParent_sizes h hs
  · simp only [Option.some.injEq] at h
    subst h
    exact hs

theorem rotateRight_sizes {s s2 : State} {r c : Ptr}
    (h : rotateRight s r = some (s2, c)) (hs : SizesOne s.heap) : SizesOne s2.heap := by
  unfold rotateRight at h
  dsimp only at h
  repeat' (first | contradiction | split at h)
  simp only [Option.some.injEq, Prod.mk.injEq] at h
  obtain ⟨rfl, -⟩ := h
  repeat (first
    | assumption
    | refine store_sizes ‹_› (by intro; rfl) ?_
    | refine ite_store_sizes ‹_› (by intro; rfl) ?_
    | refine ite_chain_sizes ‹_› ?_)

theorem rotateLeft_sizes {s s2 : State} {r c : Ptr}
    (h : rotateLeft s r = some (s2, c)) (hs : SizesOne s.heap) : SizesOne s2.heap := by
  unfold rotateLeft at h
  dsimp only at h
  repeat' (first | contradiction | split at h)
  simp only [Option.some.injEq, Prod.mk.injEq] at h
  obtain ⟨rfl, -⟩ := h
  repeat (first
    | assumption
    | refine store_sizes ‹_› (by intro; rfl) ?_
    | refine ite_store_sizes ‹_› (by intro; rfl) ?_
    | refine ite_chain_sizes ‹_› ?_)

theorem rotateRight_fst_sizes {s s2 : State} {r : Ptr}
    (h : (rotateRight s r).map Prod.fst = some s2) (hs : SizesOne s.heap) :
    SizesOne s2.heap := by
  rw [Option.map_eq_some'] at h
  obtain ⟨⟨s3, c⟩, h1, rfl⟩ := h
  exact rotateRight_sizes h1 hs

theorem rotateLeft_fst_sizes {s s2 : State} {r : Ptr}
    (h : (rotateLeft s r).map Prod.fst = some s2) (hs : SizesOne s.heap) :
    SizesOne s2.heap := by
  rw [Option.map_eq_some'] at h
  obtain ⟨⟨s3, c⟩, h1, rfl⟩ := h
  exact rotateLeft_sizes h1 hs

theorem zig_sizes {s s2 : State} {cur : Ptr}
    (h : zig s cur = some s2) (hs : SizesOne s.heap) : SizesOne s2.heap := by
  unfold zig at h
  dsimp only at h
  repeat' (first | contradiction | split at h)
  · exact rotateRight_fst_sizes h hs
  · exact rotateLeft_fst_sizes h hs

theorem zigZig_sizes {s s2 : State} {cur : Ptr}
    (h : zigZig s cur = some s2) (hs : SizesOne s.heap) : SizesOne s2.heap := by
  unfold zigZig at h
  dsimp only at h
  repeat' (first | contradiction | split at h)
  · exact rotateRight_fst_sizes h (rotateRight_sizes ‹_› hs)
  · exact rotateLeft_fst_sizes h (rotateLeft_sizes ‹_› hs)

theorem zigZag_sizes {s s2 : State} {cur : Ptr}
    (h : zigZag s cur = some s2) (hs : SizesOne s.heap) : SizesOne s2.heap := by
  unfold zigZag at h
  dsimp only at h
  repeat' (first | contradiction | split at h)
  · exact rotateRight_fst_sizes h (rotateLeft_sizes ‹_› hs)
  · exact rotateLeft_fst_sizes h (rotateRight_sizes ‹_› hs)

theorem splayLoop_sizes : ∀ (fuel : Nat) {s s2 : State} {cur : Ptr},
    splayLoop fuel s cur = some s2 → SizesOne s.heap → SizesOne s2.heap
  | 0, _, _, _, h, _ => by simp [splayLoop] at h
  | fuel + 1, s, s2, cur, h, hs => by
    unfold splayLoop at h
    repeat' (first | contradiction | split at h)
    · rename_i s1 hstep
      refine splayLoop_sizes fuel h ?_
      split at hstep
      · repeat' (first | contradiction | split at hstep)
        · exact zigZag_sizes hstep hs
        · exact zigZig_sizes hstep hs
      · exact zig_sizes hstep hs
    · simp only [Option.some.injEq] at h
      subst h
      exact hs

theorem splay_sizes {fuel : Nat} {s s2 : State} {cur r : Ptr}
    (h : splay fuel s cur = some (s2, r)) (hs : SizesOne s.heap) : SizesOne s2.heap := by
  unfold splay at h
  split at h
  · simp only [Option.some.injEq, Prod.mk.injEq] at h
    obtain ⟨rfl, -⟩ := h
    exact hs
  · rw [Option.map_eq_some'] at h
    obtain ⟨s3, h1, h2⟩ := h
    simp only [Prod.mk.injEq] at h2
    obtain ⟨rfl, -⟩ := h2
    exact splayLoop_sizes fuel h1 hs

theorem addNode_sizes : ∀ (fuel : Nat) {s s2 : State} {cur r : Ptr} {key : Int},
    addNode fuel s cur key = some (s2, r) → SizesOne s.heap → SizesOne s2.heap
  | 0, _, _, _, _, _, h, _ => by simp [addNode] at h
  | fuel + 1, s, s2, cur, r, key, h, hs => by
    unfold addNode at h
    repeat' (first | contradiction | split at h)
    · simp only [Option.some.injEq, Prod.mk.injEq] at h
      obtain ⟨rfl, -⟩ := h
      exact hs
    · exact addNode_sizes fuel h hs
    · rename_i s1 tmp hmk _ s3 hst
      simp only [Option.some.injEq, Prod.mk.injEq] at h
      obtain ⟨rfl, -⟩ := h
      refine store_sizes hst (by intro; rfl) ?_
      have := makeNode_sizes cur key hs
      rw [hmk] at this
      exact this
    · exact addNode_sizes fuel h hs
    · rename_i s1 tmp hmk _ s3 hst
      simp only [Option.some.injEq, Prod.mk.injEq] at h
      obtain ⟨rfl, -⟩ := h
      refine store_sizes hst (by intro; rfl) ?_
      have := makeNode_sizes cur key hs
      rw [hmk] at this
      exact this

theorem removeNodeTwo_sizes {s s2 : State} {node hc p r : Ptr}
    (h : removeNodeTwo s node hc p = some (s2, r)) (hs : SizesOne s.heap) :
    SizesOne s2.heap := by
  unfold removeNodeTwo at h
  repeat' (first | contradiction | split at h)
  simp only [Option.some.injEq, Prod.mk.injEq] at h
  obtain ⟨rfl, -⟩ := h
  repeat (first
    | assumption
    | refine free_sizes ‹_› ?_
    | refine store_sizes ‹_› (by intro; rfl) ?_
    | refine ite_store_sizes ‹_› (by intro; rfl) ?_
    | refine ite_store_store_sizes ‹_› (by intro; rfl) (by intro; rfl) ?_)

theorem removeNodeOne_sizes {s s2 : State} {node r : Ptr} {n : Node}
    (h : removeNodeOne s node n = some (s2, r)) (hs : SizesOne s.heap) :
    SizesOne s2.heap := by
  unfold removeNodeOne at h
  dsimp only at h
  repeat' (first | contradiction | split at h)
  rename_i s1 h1 _ s3 h3 _ s4 h4
  simp only [Option.some.injEq, Prod.mk.injEq] at h
  obtain ⟨rfl, -⟩ := h
  refine free_sizes h4 (ite_store_sizes h3 (by intro; rfl) ?_)
  split at h1
  · simp only [Option.some.injEq] at h1
    subst h1
    exact hs
  · split at h1
    · contradiction
    · exact ite_store_store_sizes h1 (by intro; rfl) (by intro; rfl) hs

theorem removeNode_sizes {fuel : Nat} {s s2 : State} {node r : Ptr}
    (h : removeNode fuel s node = some (s2, r)) (hs : SizesOne s.heap) :
    SizesOne s2.heap := by
  unfold removeNode at h
  repeat' (first | contradiction | split at h)
  · exact removeNodeTwo_sizes h hs
  · exact removeNodeOne_sizes h hs

theorem insertKey_sizes {fuel : Nat} {s s2 : State} {key : Int} {r : Ptr}
    (h : insertKey fuel s key = some (s2, r)) (hs : SizesOne s.heap) :
    SizesOne s2.heap := by
  unfold insertKey at h
  dsimp only at h
  split at h
  · contradiction
  · rename_i s1 x hadd
    refine splay_sizes h (addNode_sizes fuel hadd ?_)
    split
    · exact makeNode_sizes none key hs
    · exact hs

theorem findKey_sizes {fuel : Nat} {s s2 : State} {key : Int} {r : Ptr}
    (h : findKey fuel s key = some (s2, r)) (hs : SizesOne s.heap) :
    SizesOne s2.heap := by
  unfold findKey at h
  repeat' (first | contradiction | split at h)
  · exact splay_sizes h hs
  · rw [Option.map_eq_some'] at h
    obtain ⟨⟨s3, c⟩, h1, h2⟩ := h
    simp only [Prod.mk.injEq] at h2
    obtain ⟨rfl, -⟩ := h2
    exact splay_sizes h1 hs
  · simp only [Option.some.injEq, Prod.mk.injEq] at h
    obtain ⟨rfl, -⟩ := h
    exact hs

theorem removeKey_sizes {fuel : Nat} {s s2 : State} {key : Int} {r : Int}
    (h : removeKey fuel s key = some (s2, r)) (hs : SizesOne s.heap) :
    SizesOne s2.heap := by
  unfold removeKey at h
  split at h
  · contradiction
  rename_i res prev hfind
  split at h
  · contradiction
  rename_i s3 h3
  simp only [Option.some.injEq, Prod.mk.injEq] at h
  obtain ⟨rfl, -⟩ := h
  repeat' (first | contradiction | split at h3)
  · rw [Option.map_eq_some'] at h3
    obtain ⟨⟨s4, c⟩, h1, rfl⟩ := h3
    exact splay_sizes h1 (removeNode_sizes ‹_› hs)
  · rw [Option.map_eq_some'] at h3
    obtain ⟨⟨s4, c⟩, h1, rfl⟩ := h3
    exact splay_sizes h1 hs
  · simp only [Option.some.injEq] at h3
    subst h3
    exact hs

theorem menuLoop_sizes (fuel : Nat) : ∀ (cmds : List (Int × Int)) {s s2 : State},
    menuLoop fuel cmds s = some s2 → SizesOne s.heap → SizesOne s2.heap
  | [], s, s2, h, hs => by
    simp only [menuLoop, Option.some.injEq] at h
    subst h
    exact hs
  | (choice, key) :: rest, s, s2, h, hs => by
    unfold menuLoop at h
    repeat' (first | contradiction | split at h)
    · exact menuLoop_sizes fuel rest h (insertKey_sizes ‹_› hs)
    · exact menuLoop_sizes fuel rest h (removeKey_sizes ‹_› hs)
    · exact menuLoop_sizes fuel rest h (findKey_sizes ‹_› hs)
    · simp only [Option.some.injEq] at h
      subst h
      exact hs

theorem WF.heap_of_mem {s : State} {t : T} {a : Addr} (hwf : WF s t) (ha : a ∈ t.addrs) :
    ∃ n, s.heap a = some n := by
  obtain ⟨c, A, k, B, rfl⟩ := exists_plug_of_mem ha
  have hrep := hwf.1
  rw [Rep_plug] at hrep
  obtain ⟨par, -, ht⟩ := hrep
  obtain ⟨n, hn, -⟩ := Rep_root_node ht
  exact ⟨n, hn⟩

theorem T.eq_leaf_of_size {t : T} (h : t.size = 0) : t = .leaf := by
  cases t with
  | leaf => rfl
  | node l a k r => simp at h

theorem sizeFieldsCount_iff {s : State} {t : T} (hwf : WF s t) (hs : SizesOne s.heap) :
    SizeFieldsCount s.heap t ↔ t.size ≤ 1 := by
  cases t with
  | leaf => simp [SizeFieldsCount]
  | node l a k r =>
    constructor
    · rintro ⟨⟨n, hn, hsz⟩, -⟩
      have := hs a n hn
      rw [this] at hsz
      exact_mod_cast hsz.symm.le
    · intro h
      simp only [T.size_node] at h
      obtain rfl : l = .leaf := T.eq_leaf_of_size (by omega)
      obtain rfl : r = .leaf := T.eq_leaf_of_size (by omega)
      obtain ⟨n, hn⟩ := hwf.heap_of_mem (a := a) (by simp)
      refine ⟨⟨n, hn, ?_⟩, trivial, trivial⟩
      rw [hs a n hn]
      simp

set_option maxRecDepth 100000 in
/-- C17 fails on the code: after inserting the two distinct keys 5 and 3 into
an empty tree the root (key 3, at address 1) has two nodes in its subtree,
and its `size` field is 1, not 2. -/
theorem size_field_not_subtree_count :
    menuLoop 10 [(1, 5), (1, 3)] initSplayTree = some twoKeys ∧
    WF twoKeys shapeTwoKeys ∧ twoKeys.root = some 1 ∧ shapeTwoKeys.size = 2 ∧
    (twoKeys.load twoKeys.root).map (fun n => n.size) = some 1 ∧
    ¬ SizeFieldsCount twoKeys.heap shapeTwoKeys := by
  have h1 : (twoKeys.load twoKeys.root).map (fun n => n.size) = some 1 := by decide
  refine ⟨rfl, by decide, by decide, by decide, h1, ?_⟩
  rintro ⟨⟨n, hn, hsz⟩, -⟩
  have h2 : (twoKeys.heap 1).map (fun n => n.size) = some 1 := by decide
  rw [hn] at h2
  simp only [Option.map_some', Option.some.injEq] at h2
  rw [h2] at hsz
  revert hsz
  decide

/-- C17 as amended: `makeNode` sets the `size` field to 1 and no function
writes it afterwards. After any sequence of menu commands (insert, remove,
find with `int` keys) run from the empty tree, the commands return and every
node in the heap, so every node of the tree, has `size` 1; the `size` fields
equal the subtree node counts exactly when the tree has at most one node. -/
theorem size_field_is_one (fuel : Nat) (cmds : List (Int × Int))
    (hcmds : ∀ c ∈ cmds, isInt c.2) (hf : cmds.length < fuel) :
    ∃ s t, menuLoop fuel cmds initSplayTree = some s ∧ WF s t ∧
      (∀ a n, s.heap a = some n → n.size = 1) ∧
      (∀ a ∈ t.addrs, ∃ n, s.heap a = some n ∧ n.size = 1) ∧
      (SizeFieldsCount s.heap t ↔ t.size ≤ 1) := by
  have hwf0 : WF initSplayTree .leaf := by
    refine ⟨by simp [initSplayTree], by simp, by simp⟩
  have hbst0 : BST .leaf := by
    refine ⟨by simp, by simp⟩
  obtain ⟨s, t, h1, h2, -⟩ :=
    menuLoop_bst fuel cmds initSplayTree .leaf hwf0 hbst0 hcmds (by simp; omega)
  have hs : SizesOne s.heap :=
    menuLoop_sizes fuel cmds h1 (by intro a n h; simp [initSplayTree] at h)
  refine ⟨s, t, h1, h2, hs, ?_, sizeFieldsCount_iff h2 hs⟩
  intro a ha
  obtain ⟨n, hn⟩ := h2.heap_of_mem ha
  exact ⟨n, hn, hs a n hn⟩

set_option maxRecDepth 100000 in
/-- C17 as amended, at the commands insert 5, insert 3. -/
theorem size_field_is_one_witness :
    (∀ c ∈ [((1 : Int), (5 : Int)), (1, 3)], isInt c.2) ∧
    ∃ s t, menuLoop 10 [(1, 5), (1, 3)] initSplayTree = some s ∧ WF s t ∧
      (∀ a n, s.heap a = some n → n.size = 1) ∧
      (∀ a ∈ t.addrs, ∃ n, s.heap a = some n ∧ n.size = 1) ∧
      (SizeFieldsCount s.heap t ↔ t.size ≤ 1) :=
  ⟨by decide, size_field_is_one 10 [(1, 5), (1, 3)] (by decide) (by decide)⟩

end SplayTree

namespace HyperLogLogPlus

/-! ## The cardinality sketch -/

theorem xor_shift_lt (y n : Nat) (h : y < 18446744073709551616) :
    y ^^^ (y >>> n) < 18446744073709551616 := by
  have h1 : y < 2 ^ 64 := by norm_num; exact h
  have h2 : y >>> n < 2 ^ 64 := by
    rw [Nat.shiftRight_eq_div_pow]
    exact lt_of_le_of_lt (Nat.div_le_self _ _) h1
  have := Nat.xor_lt_two_pow h1 h2
  norm_num at this
  exact this

theorem getHash_lt (data : Nat) : getHash data < 18446744073709551616 := by
  unfold getHash
  dsimp only
  exact xor_shift_lt _ 31 (Nat.mod_lt _ (by norm_num))

theorem numHashBitsForRank_eq : numHashBitsForRank = 53 := by
  simp [numHashBitsForRank, numHashBitsForBucket]

theorem numOfBuckets_eq : numOfBuckets = 2048 := by
  simp [numOfBuckets, numHashBitsForBucket]

theorem index_lt (data : Nat) : getHash data >>> numHashBitsForRank < numOfBuckets := by
  have h := getHash_lt data
  simp only [numHashBitsForRank, numHashBitsForBucket, numOfBuckets, Nat.shiftRight_eq_div_pow]
  norm_num
  rw [Nat.div_lt_iff_lt_mul (by norm_num)]
  omega

theorem getRankLoop_spec : ∀ (fuel x r : Nat), r ≤ 54 → 55 ≤ fuel + r →
    ∃ r2, getRankLoop fuel x r 53 = some r2 ∧ r ≤ r2 ∧ r2 ≤ 54
  | 0, x, r, h1, h2 => by omega
  | fuel + 1, x, r, h1, h2 => by
    unfold getRankLoop
    split
    · rename_i hc
      have hr : (r + 1) % 256 = r + 1 := Nat.mod_eq_of_lt (by omega)
      rw [hr]
      obtain ⟨r2, h3, h4, h5⟩ := getRankLoop_spec fuel (x >>> 1) (r + 1) (by omega) (by omega)
      exact ⟨r2, h3, by omega, h5⟩
    · exact ⟨r, rfl, le_refl _, h1⟩

theorem getRank_spec (fuel hash : Nat) (hf : 54 ≤ fuel) :
    ∃ r, getRank fuel hash numHashBitsForRank = some r ∧ 1 ≤ r ∧ r ≤ 54 :=
  getRankLoop_spec fuel hash 1 (by omega) (by omega)

theorem add_spec (fuel : Nat) (b : Buckets) (v : Int) (hf : 54 ≤ fuel) :
    ∃ r, getRank fuel (getHash (toUInt64 v)) numHashBitsForRank = some r ∧ 1 ≤ r ∧ r ≤ 54 ∧
      add fuel b v = some (Function.update b (getHash (toUInt64 v) >>> numHashBitsForRank)
        (max (b (getHash (toUInt64 v) >>> numHashBitsForRank)) r)) := by
  obtain ⟨r, h1, h2, h3⟩ := getRank_spec fuel (getHash (toUInt64 v)) hf
  refine ⟨r, h1, h2, h3, ?_⟩
  simp [add, addHash, index_lt, h1]

theorem maxRankAt_nil (fuel i : Nat) : maxRankAt fuel [] i = 0 := rfl

theorem maxRankAt_cons (fuel : Nat) (v : Int) (xs : List Int) (i r : Nat)
    (h : getRank fuel (getHash (toUInt64 v)) numHashBitsForRank = some r) :
    maxRankAt fuel (v :: xs) i =
      if getHash (toUInt64 v) >>> numHashBitsForRank = i then max r (maxRankAt fuel xs i)
      else maxRankAt fuel xs i := by
  unfold maxRankAt
  by_cases e : getHash (toUInt64 v) >>> numHashBitsForRank = i
  · simp [List.filterMap_cons, e, h]
  · simp [List.filterMap_cons, e]

theorem addAll_spec (fuel : Nat) (hf : 54 ≤ fuel) : ∀ (xs : List Int) (b : Buckets),
    ∃ b2, addAll fuel xs b = some b2 ∧ ∀ i, b2 i = max (b i) (maxRankAt fuel xs i)
  | [], b => ⟨b, rfl, fun i => by simp [maxRankAt_nil]⟩
  | v :: xs, b => by
    obtain ⟨r, h1, -, -, h4⟩ := add_spec fuel b v hf
    obtain ⟨b2, h5, h6⟩ := addAll_spec fuel hf xs
      (Function.update b (getHash (toUInt64 v) >>> numHashBitsForRank)
        (max (b (getHash (toUInt64 v) >>> numHashBitsForRank)) r))
    refine ⟨b2, by simp [addAll, h4, h5], ?_⟩
    intro i
    rw [h6 i, maxRankAt_cons fuel v xs i r h1]
    by_cases e : getHash (toUInt64 v) >>> numHashBitsForRank = i
    · subst e
      simp [max_assoc]
    · rw [if_neg e, Function.update_noteq (Ne.symm e)]

theorem foldr_max_le_iff (l : List Nat) (m : Nat) :
    l.foldr max 0 ≤ m ↔ ∀ r ∈ l, r ≤ m := by
  induction l with
  | nil => simp
  | cons a l ih => simp [ih]

theorem maxRankAt_mono (fuel : Nat) (xs ys : List Int) (i : Nat) (h : ∀ v ∈ xs, v ∈ ys) :
    maxRankAt fuel xs i ≤ maxRankAt fuel ys i := by
  unfold maxRankAt
  rw [foldr_max_le_iff]
  intro r hr
  have hle := (foldr_max_le_iff (ys.filterMap (fun v =>
    if getHash (toUInt64 v) >>> numHashBitsForRank = i
    then getRank fuel (getHash (toUInt64 v)) numHashBitsForRank else none)) _).1 (le_refl _)
  apply hle
  rw [List.mem_filterMap] at hr ⊢
  obtain ⟨v, hv, hvr⟩ := hr
  exact ⟨v, h v hv, hvr⟩

theorem add_twice (fuel : Nat) (hf : 54 ≤ fuel) (b : Buckets) (v : Int) :
    ∃ b1, add fuel b v = some b1 ∧ add fuel b1 v = some b1 := by
  obtain ⟨r, h1, -, -, h4⟩ := add_spec fuel b v hf
  obtain ⟨r2, h5, -, -, h6⟩ := add_spec fuel (Function.update b
    (getHash (toUInt64 v) >>> numHashBitsForRank)
    (max (b (getHash (toUInt64 v) >>> numHashBitsForRank)) r)) v hf
  obtain rfl : r = r2 := by
    rw [h1] at h5
    exact Option.some.inj h5
  refine ⟨_, h4, ?_⟩
  rw [h6]
  simp

theorem add_comm_add (fuel : Nat) (hf : 54 ≤ fuel) (b : Buckets) (v w : Int) :
    ∃ b2, (add fuel b v).bind (fun b1 => add fuel b1 w) = some b2 ∧
      (add fuel b w).bind (fun b1 => add fuel b1 v) = some b2 := by
  obtain ⟨b1, h1, h2⟩ := addAll_spec fuel hf [v, w] b
  obtain ⟨b2, h3, h4⟩ := addAll_spec fuel hf [w, v] b
  have hb : b1 = b2 := by
    funext i
    have e : maxRankAt fuel [v, w] i = maxRankAt fuel [w, v] i :=
      le_antisymm
        (maxRankAt_mono fuel [v, w] [w, v] i (by intro x hx; simp at hx ⊢; tauto))
        (maxRankAt_mono fuel [w, v] [v, w] i (by intro x hx; simp at hx ⊢; tauto))
    rw [h2, h4, e]
  subst hb
  refine ⟨b1, ?_, ?_⟩
  · rw [← h1]
    simp only [addAll]
    cases add fuel b v with
    | none => rfl
    | some c => cases hc : add fuel c w <;> simp [hc]
  · rw [← h3]
    simp only [addAll]
    cases add fuel b w with
    | none => rfl
    | some c => cases hc : add fuel c v <;> simp [hc]

/-- C20: the cardinality sketch depends only on the set of values added.
Two sequences of values with the same set of elements, added one value at a
time by `add(int)` to the all-zero bucket array, give the same bucket array;
bucket `i` holds the largest `getRank(getHash(v), 53)` over the added `v` with
`getHash(v) >> 53 = i` (0 when there is none). Every bucket index is below
`numOfBuckets = 2048`, every rank is in 1..54, adding a value a second time
changes nothing, and two adds commute. -/
theorem sketch_depends_on_value_set (fuel : Nat) (xs ys : List Int) (hf : 54 ≤ fuel)
    (hxy : ∀ v ∈ xs, v ∈ ys) (hyx : ∀ v ∈ ys, v ∈ xs) :
    (numHashBitsForRank = 53 ∧ numOfBuckets = 2048) ∧
    (∃ b, addAll fuel xs emptyBuckets = some b ∧ addAll fuel ys emptyBuckets = some b ∧
      ∀ i, b i = maxRankAt fuel xs i) ∧
    (∀ v : Int, getHash (toUInt64 v) >>> 53 < 2048 ∧
      ∃ r, getRank fuel (getHash (toUInt64 v)) 53 = some r ∧ 1 ≤ r ∧ r ≤ 54) ∧
    (∀ (b : Buckets) (v : Int), ∃ b1, add fuel b v = some b1 ∧ add fuel b1 v = some b1) ∧
    (∀ (b : Buckets) (v w : Int), ∃ b2,
      (add fuel b v).bind (fun b1 => add fuel b1 w) = some b2 ∧
      (add fuel b w).bind (fun b1 => add fuel b1 v) = some b2) := by
  refine ⟨⟨numHashBitsForRank_eq, numOfBuckets_eq⟩, ?_, ?_, add_twice fuel hf,
    add_comm_add fuel hf⟩
  · obtain ⟨b1, h1, h2⟩ := addAll_spec fuel hf xs emptyBuckets
    obtain ⟨b2, h3, h4⟩ := addAll_spec fuel hf ys emptyBuckets
    have hb : b2 = b1 := by
      funext i
      have e : maxRankAt fuel ys i = maxRankAt fuel xs i :=
        le_antisymm (maxRankAt_mono fuel ys xs i hyx) (maxRankAt_mono fuel xs ys i hxy)
      rw [h2, h4, e]
    subst hb
    refine ⟨b2, h1, h3, fun i => ?_⟩
    rw [h2]
    simp [emptyBuckets]
  · intro v
    have h1 := index_lt (toUInt64 v)
    have h2 := getRank_spec fuel (getHash (toUInt64 v)) hf
    rw [numHashBitsForRank_eq] at h1 h2
    rw [numOfBuckets_eq] at h1
    exact ⟨h1, h2⟩

/-- C20 at the sequences 1, 2, 1, -3 and -3, 2, 1. -/
theorem sketch_depends_on_value_set_witness :
    ((∀ v ∈ [(1 : Int), 2, 1, -3], v ∈ [(-3 : Int), 2, 1]) ∧
      (∀ v ∈ [(-3 : Int), 2, 1], v ∈ [(1 : Int), 2, 1, -3])) ∧
    (numHashBitsForRank = 53 ∧ numOfBuckets = 2048) ∧
    (∃ b, addAll 64 [1, 2, 1, -3] emptyBuckets = some b ∧
      addAll 64 [-3, 2, 1] emptyBuckets = some b ∧
      ∀ i, b i = maxRankAt 64 [1, 2, 1, -3] i) ∧
    (∀ v : Int, getHash (toUInt64 v) >>> 53 < 2048 ∧
      ∃ r, getRank 64 (getHash (toUInt64 v)) 53 = some r ∧ 1 ≤ r ∧ r ≤ 54) ∧
    (∀ (b : Buckets) (v : Int), ∃ b1, add 64 b v = some b1 ∧ add 64 b1 v = some b1) ∧
    (∀ (b : Buckets) (v w : Int), ∃ b2,
      (add 64 b v).bind (fun b1 => add 64 b1 w) = some b2 ∧
      (add 64 b w).bind (fun b1 => add 64 b1 v) = some b2) :=
  ⟨by decide, sketch_depends_on_value_set 64 [1, 2, 1, -3] [-3, 2, 1] (by decide)
    (by decide) (by decide)⟩

end HyperLogLogPlus
